import Mathlib

/-!
# Verification of the bao-tree streaming codec

A shallow embedding of the bao-tree repository: the BLAKE3 outboard builder
(`outboard_post_order`), the range encoder (`encode_ranges`), the streaming
decoders (`DecodeResponseIter`, `DecodeSliceIter`), the traversal iterators
of `iter.rs`, and the validators (`valid_outboard_ranges`,
`valid_file_ranges`).

Modelling conventions:
* Machine integers (`u64`, `usize`) are modelled as `Nat`; the source never
  relies on wrap-around in the embedded code paths.
* BLAKE3 hashes are opaque to the codec: the code only creates them with
  `hash_subtree`/`hash_block` and `parent_cv` and compares them for
  equality.  They are embedded as a free term algebra `Hash`, so equal
  inputs give equal hashes and the constructors are injective.
* Byte streams are lists of symbols: a header symbol, hash symbols (a
  parent pair is two hash symbols, 32 bytes each in the source), and data
  byte symbols.  Reads that would hit the end of the stream or a symbol of
  the wrong kind model the source's short reads.
* Rust iterators are embedded as step functions on an explicit state, run
  with enough fuel; sufficiency of the fuel is proved, it is not assumed.
-/

set_option linter.unusedVariables false

namespace Bao

/-- Hashes as a free term algebra.  `chunk` is `hash_subtree`/`hash_block`
applied to at most one chunk of data (the base case), `parentCV` is
`blake3::guts::parent_cv`, and `fromBytes` stands for a hash parsed from
raw bytes (such as `blake3::Hash::from([0u8; 32])`). -/
inductive Hash where
  | chunk (startChunk : Nat) (data : List Nat) (isRoot : Bool)
  | parentCV (l r : Hash) (isRoot : Bool)
  | fromBytes (v : Nat)
deriving DecidableEq

/-- A symbol of a byte stream: the 8-byte little-endian size header, one
32-byte hash, or one data byte. -/
inductive Sym where
  | hdr (size : Nat)
  | hsh (h : Hash)
  | dat (b : Nat)
deriving DecidableEq

/-! ## Tree geometry

Modelled from the spec: `TreeNode` is "an index into an in-order numbering
of a complete binary tree" with operations `left_child`,
`right_descendant(filled_size)`, `restricted_parent(filled_size)`,
`is_leaf`, `level`, `byte_range`, `chunk_range`, `mid`.  The file
`tree.rs` defining `TreeNode` and the derived attributes of `BaoTree` is
not part of the given sources; the embedding below follows the spec's
description (§3, §4.B) and the exact way `iter.rs` and `io/sync.rs`
consume these operations.  A node at level `l` in position `p` has
in-order index `p * 2^(l+1) + 2^l - 1` and spans the block range
`[p * 2^(l+1), (p+1) * 2^(l+1))`; leaves are the even indices and span
two blocks (the two halves returned by `leaf_byte_ranges3`). -/


/-- The loop computing the number of trailing one bits; the fuel only
bounds the recursion depth (the number of trailing ones, which is at
most `n`), it does not change the value. -/
def levelOfAux : Nat → Nat → Nat
  | 0, _ => 0
  | fuel + 1, n => if n % 2 = 0 then 0 else levelOfAux fuel (n / 2) + 1

/-- `TreeNode::level`: the number of trailing one bits of the index. -/
def levelOf (n : Nat) : Nat := levelOfAux (n + 1) n

theorem levelOfAux_congr : ∀ f1 f2 n, n < f1 → n < f2 →
    levelOfAux f1 n = levelOfAux f2 n := by
  intro f1
  induction f1 with
  | zero =>
    intro f2 n h1
    omega
  | succ f1 ih =>
    intro f2 n h1 h2
    rcases f2 with _ | f2
    · omega
    · rw [levelOfAux, levelOfAux]
      by_cases he : n % 2 = 0
      · rw [if_pos he, if_pos he]
      · rw [if_neg he, if_neg he, ih f2 (n / 2) (by omega) (by omega)]

/-- `TreeNode::is_leaf`: level zero. -/
def isLeaf (n : Nat) : Bool := levelOf n = 0

/-- `TreeNode::left_child`. -/
def leftChild (n : Nat) : Option Nat :=
  if levelOf n = 0 then none else some (n - 2 ^ (levelOf n - 1))

/-- `TreeNode::right_child`. -/
def rightChild (n : Nat) : Option Nat :=
  if levelOf n = 0 then none else some (n + 2 ^ (levelOf n - 1))

/-- The loop of `TreeNode::right_descendant`: descend to the left child
while the node is `>= len`.  The fuel `levelOf n + 1` is exactly the
length of the left-child chain, so the fuelled function is the loop. -/
def descendLeft : Nat → Nat → Nat → Option Nat
  | 0, _, _ => none
  | fuel + 1, n, len =>
    if n < len then some n
    else match leftChild n with
      | none => none
      | some c => descendLeft fuel c len

/-- `TreeNode::right_descendant(len)`: the right child, then left children
until the node index is below `len`. -/
def rightDescendant (n : Nat) (len : Nat) : Option Nat :=
  match rightChild n with
  | none => none
  | some c => descendLeft (levelOf c + 1) c len

/-- `TreeNode::parent`: flip at the node's own span; `none` at the top of
the 64-bit index space. -/
def parentNode (n : Nat) : Option Nat :=
  let l := levelOf n
  if 63 ≤ l then none
  else if n / 2 ^ (l + 1) % 2 = 0 then some (n + 2 ^ l) else some (n - 2 ^ l)

/-- The loop of `TreeNode::restricted_parent(len)`: climb `parent` until
the index is below `len`.  Each climb raises the level by one and
`parentNode` stops at level 63, so 64 units of fuel are exact. -/
def restrictedParentAux : Nat → Nat → Nat → Option Nat
  | 0, _, _ => none
  | fuel + 1, n, len =>
    match parentNode n with
    | none => none
    | some p => if p < len then some p else restrictedParentAux fuel p len

/-- `TreeNode::restricted_parent(len)`. -/
def restrictedParent (n : Nat) (len : Nat) : Option Nat :=
  restrictedParentAux 64 n len

/-- `TreeNode::mid`: the splitting block of the node, `n + 1`. -/
def midBlock (n : Nat) : Nat := n + 1

/-- Start of `TreeNode::block_range`. -/
def blockRangeStart (n : Nat) : Nat := n + 1 - 2 ^ levelOf n

/-- End of `TreeNode::block_range`. -/
def blockRangeEnd (n : Nat) : Nat := n + 1 + 2 ^ levelOf n

/-- `BlockNum::to_chunks(block_size)`: blocks to chunks. -/
def toChunks (b : Nat) (blockSize : Nat) : Nat := b * 2 ^ blockSize

/-! ### Level arithmetic -/

theorem levelOf_even {n : Nat} (h : n % 2 = 0) : levelOf n = 0 := by
  rw [levelOf, levelOfAux, if_pos h]

theorem levelOf_odd {n : Nat} (h : ¬ n % 2 = 0) :
    levelOf n = levelOf (n / 2) + 1 := by
  rw [levelOf, levelOfAux, if_neg h, levelOf,
    levelOfAux_congr n (n / 2 + 1) (n / 2) (by omega) (by omega)]

/-- The canonical decomposition: `p * 2^(l+1) + 2^l - 1` has level `l`. -/
theorem levelOf_decomp (l p : Nat) :
    levelOf (p * 2 ^ (l + 1) + 2 ^ l - 1) = l := by
  induction l generalizing p with
  | zero =>
    apply levelOf_even
    simp [Nat.pow_succ]
  | succ l ih =>
    have h2 : 2 ^ l ≥ 1 := Nat.one_le_two_pow
    have hval : p * 2 ^ (l + 1 + 1) + 2 ^ (l + 1) - 1 =
        2 * (p * 2 ^ (l + 1) + 2 ^ l - 1) + 1 := by
      have e1 : 2 ^ (l + 1 + 1) = 2 * 2 ^ (l + 1) := by ring
      have e2 : 2 ^ (l + 1) = 2 * 2 ^ l := by ring
      have e3 : p * 2 ^ (l + 1 + 1) = 2 * (p * 2 ^ (l + 1)) := by
        rw [e1]
        ring
      omega
    rw [hval, levelOf_odd (by omega)]
    have : (2 * (p * 2 ^ (l + 1) + 2 ^ l - 1) + 1) / 2 =
        p * 2 ^ (l + 1) + 2 ^ l - 1 := by omega
    rw [this, ih]

/-- Every node index decomposes as `p * 2^(l+1) + 2^l - 1` with `l` its
level. -/
theorem decomp_of_levelOf (n : Nat) :
    ∃ p, n = p * 2 ^ (levelOf n + 1) + 2 ^ levelOf n - 1 := by
  generalize hf : levelOf n = l
  induction l generalizing n with
  | zero =>
    by_cases h : n % 2 = 0
    · refine ⟨n / 2, ?_⟩
      simp [Nat.pow_succ]
      omega
    · rw [levelOf_odd h] at hf
      omega
  | succ l ih =>
    have hodd : ¬ n % 2 = 0 := by
      intro h
      rw [levelOf_even h] at hf
      omega
    rw [levelOf_odd hodd] at hf
    obtain ⟨p, hp⟩ := ih (n / 2) (by omega)
    refine ⟨p, ?_⟩
    have h2 : 1 ≤ 2 ^ l := Nat.one_le_two_pow
    have e1 : 2 ^ (l + 1 + 1) = 2 * 2 ^ (l + 1) := by ring
    have e2 : 2 ^ (l + 1) = 2 * 2 ^ l := by ring
    have e3 : p * 2 ^ (l + 1 + 1) = 2 * (p * 2 ^ (l + 1)) := by
      rw [e1]
      ring
    omega

/-- The canonical index of the node at level `l`, position `p`. -/
def nodeAt (l p : Nat) : Nat := p * 2 ^ (l + 1) + 2 ^ l - 1

theorem levelOf_nodeAt (l p : Nat) : levelOf (nodeAt l p) = l :=
  levelOf_decomp l p

theorem nodeAt_levelOf (n : Nat) : ∃ p, n = nodeAt (levelOf n) p :=
  decomp_of_levelOf n

/-! ## The tree

`BaoTree` as constructed by `iter.rs` (`BaoTree { start_chunk, size,
block_size, is_root }`).  The derived attributes below are modelled from
the spec (§3, §4.B): `blocks`, `chunks`, `filled_size`, `root`,
`is_persisted`/half leaves, `leaf_byte_ranges3`, `chunk_group_bytes`,
`chunk_group_chunks`, and the pre-order/post-order offsets are not in the
given sources.  Node indices are global (shifted by the start block), so
that `chunk_num`, `mid` and `block_range` of a subtree iterator yield
absolute chunk positions, as required by the range comparisons in
`iter.rs`. -/

structure BaoTree where
  start_chunk : Nat
  size : Nat
  block_size : Nat
  is_root : Bool
deriving DecidableEq

/-- `BaoTree::new(size, block_size)`: a root tree starting at chunk 0. -/
def BaoTree.new (size blockSize : Nat) : BaoTree :=
  { start_chunk := 0, size := size, block_size := blockSize, is_root := true }

/-- `BlockSize::bytes` of the tree: `1024 << block_size`. -/
def blockBytes (t : BaoTree) : Nat := 1024 * 2 ^ t.block_size

/-- `BaoTree::chunk_group_bytes`. -/
def chunkGroupBytes (t : BaoTree) : Nat := blockBytes t

/-- `BaoTree::chunk_group_chunks`: `1 << block_size`. -/
def chunkGroupChunks (t : BaoTree) : Nat := 2 ^ t.block_size

/-- `ByteNum::chunks`: bytes to chunks, rounding up. -/
def chunksCeil (bytes : Nat) : Nat := (bytes + 1023) / 1024

/-- Number of blocks of the tree's data, at least 1 (an empty tree still
has one block). -/
def blocksOf (t : BaoTree) : Nat := max ((t.size + blockBytes t - 1) / blockBytes t) 1

/-- `BaoTree::chunks`: the absolute chunk just past the data. -/
def chunksOf (t : BaoTree) : Nat := t.start_chunk + chunksCeil t.size

/-- The first (absolute) block of the tree. -/
def startBlock (t : BaoTree) : Nat := t.start_chunk / chunkGroupChunks t

/-- The (absolute) block just past the tree's data. -/
def endBlock (t : BaoTree) : Nat := startBlock t + blocksOf t

/-- Number of leaf nodes; one leaf node spans two blocks. -/
def leafCount (t : BaoTree) : Nat := (blocksOf t + 1) / 2

/-- `BaoTree::filled_size`: number of nodes of the tree, offset by the
start block. -/
def filledSize (t : BaoTree) : Nat := startBlock t + (2 * leafCount t - 1)

/-- Ceiling of the base-2 logarithm, written structurally (the fuel only
bounds the recursion depth, which is at most the argument; the value is
`Nat.clog 2`, proved below). -/
def ceilLog2Aux : Nat → Nat → Nat
  | 0, _ => 0
  | fuel + 1, n => if n ≤ 1 then 0 else ceilLog2Aux fuel ((n + 1) / 2) + 1

def ceilLog2 (n : Nat) : Nat := ceilLog2Aux n n

/-- Floor of the base-2 logarithm (`Nat.log 2`), written structurally. -/
def floorLog2Aux : Nat → Nat → Nat
  | 0, _ => 0
  | fuel + 1, n => if n ≤ 1 then 0 else floorLog2Aux fuel (n / 2) + 1

def floorLog2 (n : Nat) : Nat := floorLog2Aux n n

theorem ceilLog2Aux_congr : ∀ f1 f2 n, n ≤ f1 → n ≤ f2 →
    ceilLog2Aux f1 n = ceilLog2Aux f2 n := by
  intro f1
  induction f1 with
  | zero =>
    intro f2 n h1 h2
    have hn : n = 0 := by omega
    subst hn
    rcases f2 with _ | f2
    · rfl
    · rw [ceilLog2Aux, ceilLog2Aux, if_pos (by omega)]
  | succ f1 ih =>
    intro f2 n h1 h2
    rcases f2 with _ | f2
    · have hn : n = 0 := by omega
      subst hn
      rw [ceilLog2Aux, ceilLog2Aux, if_pos (by omega)]
    · rw [ceilLog2Aux, ceilLog2Aux]
      by_cases he : n ≤ 1
      · rw [if_pos he, if_pos he]
      · rw [if_neg he, if_neg he, ih f2 ((n + 1) / 2) (by omega) (by omega)]

theorem ceilLog2_eq_clog (n : Nat) : ceilLog2 n = Nat.clog 2 n := by
  induction n using Nat.strong_induction_on with
  | _ n ih =>
    rcases Nat.lt_or_ge n 2 with h2 | h2
    · interval_cases n
      · simp [ceilLog2, ceilLog2Aux]
      · rw [ceilLog2, ceilLog2Aux, if_pos (by omega), Nat.clog_one_right]
    · have hstep : ceilLog2 n = ceilLog2 ((n + 1) / 2) + 1 := by
        rcases n with _ | m
        · omega
        · rw [ceilLog2, ceilLog2Aux, if_neg (by omega), ceilLog2,
            ceilLog2Aux_congr m ((m + 1 + 1) / 2) ((m + 1 + 1) / 2) (by omega) (by omega)]
      rw [hstep, ih ((n + 1) / 2) (by omega),
        Nat.clog_of_two_le (by norm_num) h2]
      norm_num

theorem floorLog2Aux_congr : ∀ f1 f2 n, n ≤ f1 → n ≤ f2 →
    floorLog2Aux f1 n = floorLog2Aux f2 n := by
  intro f1
  induction f1 with
  | zero =>
    intro f2 n h1 h2
    have hn : n = 0 := by omega
    subst hn
    rcases f2 with _ | f2
    · rfl
    · rw [floorLog2Aux, floorLog2Aux, if_pos (by omega)]
  | succ f1 ih =>
    intro f2 n h1 h2
    rcases f2 with _ | f2
    · have hn : n = 0 := by omega
      subst hn
      rw [floorLog2Aux, floorLog2Aux, if_pos (by omega)]
    · rw [floorLog2Aux, floorLog2Aux]
      by_cases he : n ≤ 1
      · rw [if_pos he, if_pos he]
      · rw [if_neg he, if_neg he, ih f2 (n / 2) (by omega) (by omega)]

theorem floorLog2_eq_log (n : Nat) : floorLog2 n = Nat.log 2 n := by
  induction n using Nat.strong_induction_on with
  | _ n ih =>
    rcases Nat.lt_or_ge n 2 with h2 | h2
    · interval_cases n
      · simp [floorLog2, floorLog2Aux]
      · rw [floorLog2, floorLog2Aux, if_pos (by omega), Nat.log_one_right]
    · have hstep : floorLog2 n = floorLog2 (n / 2) + 1 := by
        rcases n with _ | m
        · omega
        · rw [floorLog2, floorLog2Aux, if_neg (by omega), floorLog2,
            floorLog2Aux_congr m ((m + 1) / 2) ((m + 1) / 2) (by omega) (by omega)]
      rw [hstep, ih (n / 2) (by omega), Nat.log_div_base]
      have hpos : 0 < Nat.log 2 n := Nat.log_pos (by norm_num) h2
      omega

/-- `BaoTree::root`: the in-order index of the root node. -/
def rootNode (t : BaoTree) : Nat :=
  startBlock t + (2 ^ ceilLog2 (leafCount t) - 1)

/-- The absolute byte position of the tree's first byte. -/
def baseByte (t : BaoTree) : Nat := t.start_chunk * 1024

/-- `BaoTree::leaf_byte_ranges3`: start, middle and end byte of a leaf
node; `mid = end` marks a half leaf. -/
def leafByteRanges3 (t : BaoTree) (n : Nat) : Nat × Nat × Nat :=
  let bb := blockBytes t
  (n * bb, min ((n + 1) * bb) (baseByte t + t.size), min ((n + 2) * bb) (baseByte t + t.size))

/-- `BaoTree::chunk_num` of a leaf node: its absolute start chunk. -/
def chunkNum (t : BaoTree) (n : Nat) : Nat := n * chunkGroupChunks t

/-- `BaoTree::is_persisted`: every internal node is persisted; a leaf node
is persisted iff it has a non-empty right half (otherwise it is a half
leaf). -/
def isPersisted (t : BaoTree) (n : Nat) : Bool :=
  !(isLeaf n) || (let (_, m, e) := leafByteRanges3 t n; decide (m < e))

/-- `BaoTree::byte_range` of a node: start byte and end byte (clamped to
the data size). -/
def byteRange (t : BaoTree) (n : Nat) : Nat × Nat :=
  (blockRangeStart n * blockBytes t, min (blockRangeEnd n * blockBytes t) (baseByte t + t.size))

/-! ## Range sets

The `range_collections::RangeSetRef` values used by `iter.rs` are
modelled by their boundary representation (which is what the code
inspects): a strictly increasing list of chunk boundaries; the set is the
union of `[b0, b1) ∪ [b2, b3) ∪ …`, the last range extending to infinity
when the number of boundaries is odd.  `split`, `is_empty`, `is_all` are
modelled from the crate's documented behaviour on this representation. -/

abbrev ChunkRangesRef := List Nat

/-- Membership: `x` is in the set iff an odd number of boundaries is
`≤ x`. -/
def rsMem (x : Nat) (rs : ChunkRangesRef) : Bool := rs.countP (fun b => b ≤ x) % 2 = 1

/-- `RangeSetRef::is_empty`. -/
def rsIsEmpty (rs : ChunkRangesRef) : Bool := rs.isEmpty

/-- `RangeSetRef::is_all`. -/
def rsIsAll (rs : ChunkRangesRef) : Bool := rs = [0]

/-- `RangeSetRef::split(x)`: the boundary slices describing the set below
and from `x`; `i` is the partition point of the sorted boundary list. -/
def rsSplit (x : Nat) (rs : ChunkRangesRef) : ChunkRangesRef × ChunkRangesRef :=
  let i := rs.countP (fun b => b < x)
  (rs.take i, if i % 2 = 0 then rs.drop i else rs.drop (i - 1))

/-- The `full` test of `PreOrderPartialIterRef::next`:
`ranges.boundaries().len() == 1 && ranges.boundaries()[0] <= start`. -/
def rsFull (rs : ChunkRangesRef) (start : Nat) : Bool :=
  match rs with
  | [b] => decide (b ≤ start)
  | _ => false

/-- Modelled from the spec: `truncate_ranges` (from `rec.rs`, not in the
given sources) canonicalizes the ranges to the size of the tree by
keeping the prefix of boundaries below the end chunk, so that a trailing
range touching the end becomes open. -/
def truncateRanges (rs : ChunkRangesRef) (size : Nat) : ChunkRangesRef :=
  rs.takeWhile (fun b => b < chunksCeil size)

/-- Modelled from the spec: `range_ok(ranges, end)` verifies that the
requested ranges lie within `[0, end)`; an open trailing range is
accepted when it starts no later than `end`. -/
def rangeOk (rs : ChunkRangesRef) (endChunk : Nat) : Bool :=
  rs.all (fun b => b ≤ endChunk)

/-! ## The pre-order partial iterator (`PreOrderPartialIterRef`) -/

/-- `iter::NodeInfo`. -/
structure NodeInfo where
  node : Nat
  ranges : ChunkRangesRef
  l_ranges : ChunkRangesRef
  r_ranges : ChunkRangesRef
  full : Bool
  query_leaf : Bool
  is_root : Bool
  is_half_leaf : Bool
deriving DecidableEq

/-- The state of `iter::PreOrderPartialIterRef`.  The head of `stack` is
the top of the source's stack. -/
structure PreOrderPartialIterRef where
  tree : BaoTree
  tree_filled_size : Nat
  max_skip_level : Nat
  is_root : Bool
  stack : List (Nat × ChunkRangesRef)
deriving DecidableEq

/-- `PreOrderPartialIterRef::new`. -/
def PreOrderPartialIterRef.new (tree : BaoTree) (ranges : ChunkRangesRef)
    (maxSkipLevel : Nat) : PreOrderPartialIterRef :=
  { tree := tree, tree_filled_size := filledSize tree, max_skip_level := maxSkipLevel,
    is_root := tree.is_root, stack := [(rootNode tree, ranges)] }

/-- Result of one `next` call of an embedded iterator: an item and the
successor state, the end of the iteration, or a source panic (a failed
`unwrap`). -/
inductive Step (ι σ : Type) where
  | yield (item : ι) (state : σ)
  | done
  | stuck
deriving DecidableEq

/-- `PreOrderPartialIterRef::next`, with the state fields passed apart so
that the skip of entries with empty ranges (the `continue` of the source
loop) is structural recursion on the stack. -/
def pNextAux (tree : BaoTree) (tfs msl : Nat) (isR : Bool) :
    List (Nat × ChunkRangesRef) → Step NodeInfo PreOrderPartialIterRef
  | [] => .done
  | (node, ranges) :: rest =>
    if rsIsEmpty ranges then pNextAux tree tfs msl isR rest
    else
      let mid := toChunks (midBlock node) tree.block_size
      let start := toChunks (blockRangeStart node) tree.block_size
      let full := rsFull ranges start
      let lr := rsSplit mid ranges
      let l_ranges := lr.1
      let r_ranges := lr.2
      let query_leaf := isLeaf node || (full && decide (levelOf node ≤ msl))
      let info : NodeInfo :=
        { node := node, ranges := ranges, l_ranges := l_ranges, r_ranges := r_ranges,
          full := full, query_leaf := query_leaf, is_root := isR,
          is_half_leaf := !isPersisted tree node }
      let mkState : List (Nat × ChunkRangesRef) → PreOrderPartialIterRef := fun st =>
        { tree := tree, tree_filled_size := tfs, max_skip_level := msl,
          is_root := false, stack := st }
      if query_leaf then
        .yield info (mkState rest)
      else
        match leftChild node, rightDescendant node tfs with
        | some l, some r =>
          -- push right first so we pop left first
          .yield info (mkState ((l, l_ranges) :: (r, r_ranges) :: rest))
        | _, _ => .stuck

def pNext (s : PreOrderPartialIterRef) : Step NodeInfo PreOrderPartialIterRef :=
  pNextAux s.tree s.tree_filled_size s.max_skip_level s.is_root s.stack

/-- Run an embedded iterator for `fuel` emissions: the emitted items plus
`true` iff the iterator finished (neither fuel exhaustion nor a panic). -/
def runIter {σ ι : Type} (next : σ → Step ι σ) : Nat → σ → List ι × Bool
  | 0, _ => ([], false)
  | fuel + 1, s =>
    match next s with
    | .done => ([], true)
    | .stuck => ([], false)
    | .yield i s' =>
      let r := runIter next fuel s'
      (i :: r.1, r.2)

/-- The recursive reference pre-order traversal of one stack entry: skip
an entry with empty ranges, emit the node, and for a recursed node visit
the left child before the right descendant.  The fuel only bounds the
recursion depth (one level per unit); the iterator is proved equal to
this below. -/
def preNodesRAux (tree : BaoTree) (tfs msl : Nat) :
    Nat → Nat → ChunkRangesRef → Bool → List NodeInfo
  | 0, _, _, _ => []
  | fuel + 1, node, ranges, isR =>
    if rsIsEmpty ranges then []
    else
      let mid := toChunks (midBlock node) tree.block_size
      let start := toChunks (blockRangeStart node) tree.block_size
      let full := rsFull ranges start
      let lr := rsSplit mid ranges
      let query_leaf := isLeaf node || (full && decide (levelOf node ≤ msl))
      let info : NodeInfo :=
        { node := node, ranges := ranges, l_ranges := lr.1, r_ranges := lr.2,
          full := full, query_leaf := query_leaf, is_root := isR,
          is_half_leaf := !isPersisted tree node }
      if query_leaf then [info]
      else match leftChild node, rightDescendant node tfs with
        | some l, some r =>
          info :: (preNodesRAux tree tfs msl fuel l lr.1 false ++
            preNodesRAux tree tfs msl fuel r lr.2 false)
        | _, _ => [info]

def preNodesR (tree : BaoTree) (tfs msl node : Nat) (ranges : ChunkRangesRef)
    (isR : Bool) : List NodeInfo :=
  preNodesRAux tree tfs msl (levelOf node + 1) node ranges isR

/-- Fuel that is sufficient for `pNext`: one unit per emitted node
(proved sufficient below, not assumed). -/
def pFuel (s : PreOrderPartialIterRef) : Nat :=
  s.stack.foldr
    (fun e acc => (preNodesR s.tree s.tree_filled_size s.max_skip_level e.1 e.2 true).length + acc)
    1

/-- The full output of `PreOrderPartialIterRef`
(`tree.ranges_pre_order_nodes_iter(ranges, max_skip_level)`). -/
def preOrderNodes (tree : BaoTree) (ranges : ChunkRangesRef) (maxSkipLevel : Nat) :
    List NodeInfo :=
  (runIter pNext (pFuel (PreOrderPartialIterRef.new tree ranges maxSkipLevel))
    (PreOrderPartialIterRef.new tree ranges maxSkipLevel)).1

/-! ### Child and parent arithmetic on the canonical view -/

theorem two_pow_succ_eq (l : Nat) : 2 ^ (l + 1) = 2 * 2 ^ l := by ring

theorem nodeAt_succ_sub (l p : Nat) : nodeAt (l + 1) p - 2 ^ l = nodeAt l (2 * p) := by
  unfold nodeAt
  have hx : 1 ≤ 2 ^ l := Nat.one_le_two_pow
  have e1 : p * 2 ^ (l + 1 + 1) = 4 * (p * 2 ^ l) := by ring
  have e2 : 2 * p * 2 ^ (l + 1) = 4 * (p * 2 ^ l) := by ring
  have e3 : 2 ^ (l + 1) = 2 * 2 ^ l := by ring
  omega

theorem nodeAt_succ_add (l p : Nat) :
    nodeAt (l + 1) p + 2 ^ l = nodeAt l (2 * p + 1) := by
  unfold nodeAt
  have hx : 1 ≤ 2 ^ l := Nat.one_le_two_pow
  have e1 : p * 2 ^ (l + 1 + 1) = 4 * (p * 2 ^ l) := by ring
  have e2 : (2 * p + 1) * 2 ^ (l + 1) = 4 * (p * 2 ^ l) + 2 * 2 ^ l := by ring
  have e3 : 2 ^ (l + 1) = 2 * 2 ^ l := by ring
  omega

theorem leftChild_nodeAt (l p : Nat) :
    leftChild (nodeAt (l + 1) p) = some (nodeAt l (2 * p)) := by
  have hl := levelOf_nodeAt (l + 1) p
  rw [leftChild, hl]
  simp only [Nat.succ_ne_zero, if_false, Nat.add_sub_cancel]
  rw [nodeAt_succ_sub]

theorem rightChild_nodeAt (l p : Nat) :
    rightChild (nodeAt (l + 1) p) = some (nodeAt l (2 * p + 1)) := by
  have hl := levelOf_nodeAt (l + 1) p
  rw [rightChild, hl]
  simp only [Nat.succ_ne_zero, if_false, Nat.add_sub_cancel]
  rw [nodeAt_succ_add]

theorem leftChild_leaf {n : Nat} (h : levelOf n = 0) : leftChild n = none := by
  rw [leftChild, h]
  simp

theorem levelOf_of_leftChild {n c : Nat} (h : leftChild n = some c) :
    levelOf c + 1 = levelOf n := by
  obtain ⟨p, hp⟩ := nodeAt_levelOf n
  rcases hl : levelOf n with _ | l
  · rw [leftChild_leaf hl] at h
    exact absurd h (by simp)
  · rw [hp, hl] at h
    rw [leftChild_nodeAt] at h
    have := h.symm
    injection this with h'
    rw [h', levelOf_nodeAt]

theorem levelOf_descendLeft {fuel : Nat} {c len r : Nat}
    (h : descendLeft fuel c len = some r) : levelOf r ≤ levelOf c := by
  induction fuel generalizing c with
  | zero => exact absurd h (by simp [descendLeft])
  | succ fuel ih =>
    rw [descendLeft] at h
    by_cases hc : c < len
    · rw [if_pos hc] at h
      injection h with h
      exact Nat.le_of_eq (congrArg levelOf h.symm)
    · rw [if_neg hc] at h
      rcases hl : leftChild c with _ | c'
      · rw [hl] at h
        exact absurd h (by simp)
      · rw [hl] at h
        have h1 := ih h
        have h2 := levelOf_of_leftChild hl
        omega

theorem levelOf_of_rightChild {n c : Nat} (h : rightChild n = some c) :
    levelOf c + 1 = levelOf n := by
  obtain ⟨p, hp⟩ := nodeAt_levelOf n
  rcases hl : levelOf n with _ | l
  · rw [rightChild, hl] at h
    exact absurd h (by simp)
  · rw [hp, hl] at h
    rw [rightChild_nodeAt] at h
    injection h.symm with h'
    rw [h', levelOf_nodeAt]

theorem levelOf_rightDescendant {n len r : Nat}
    (h : rightDescendant n len = some r) : levelOf r < levelOf n := by
  rw [rightDescendant] at h
  rcases hc : rightChild n with _ | c
  · rw [hc] at h
    exact absurd h (by simp)
  · rw [hc] at h
    have h1 := levelOf_descendLeft h
    have h2 := levelOf_of_rightChild hc
    omega

/-! ### Parent arithmetic and the climb back up -/

theorem nodeAt_div (l p : Nat) : nodeAt l p / 2 ^ (l + 1) = p := by
  have h1 : 1 ≤ 2 ^ l := Nat.one_le_two_pow
  have e2 : 2 ^ (l + 1) = 2 * 2 ^ l := by ring
  rw [nodeAt, show p * 2 ^ (l + 1) + 2 ^ l - 1 = (2 ^ l - 1) + p * 2 ^ (l + 1) by omega,
    Nat.add_mul_div_right _ _ (by positivity), Nat.div_eq_of_lt (by omega)]
  omega

theorem parentNode_of_left (l q : Nat) (h : l < 63) :
    parentNode (nodeAt l (2 * q)) = some (nodeAt (l + 1) q) := by
  rw [parentNode]
  simp only [levelOf_nodeAt]
  rw [if_neg (by omega), nodeAt_div, if_pos (by omega)]
  have hsub := nodeAt_succ_sub l q
  have h1 : 1 ≤ 2 ^ l := Nat.one_le_two_pow
  have hge : 2 ^ l ≤ nodeAt (l + 1) q := by
    rw [nodeAt]
    have e2 : 2 ^ (l + 1 + 1) = 4 * 2 ^ l := by ring
    have e3 : 2 ^ (l + 1) = 2 * 2 ^ l := by ring
    omega
  congr 1
  omega

theorem parentNode_of_right (l q : Nat) (h : l < 63) :
    parentNode (nodeAt l (2 * q + 1)) = some (nodeAt (l + 1) q) := by
  rw [parentNode]
  simp only [levelOf_nodeAt]
  rw [if_neg (by omega), nodeAt_div, if_neg (by omega)]
  have hadd := nodeAt_succ_add l q
  congr 1
  omega

theorem levelOf_parentNode {c p : Nat} (h : parentNode c = some p) :
    levelOf p = levelOf c + 1 := by
  obtain ⟨q, hq⟩ := nodeAt_levelOf c
  by_cases h63 : levelOf c < 63
  · rcases Nat.even_or_odd q with he | ho
    · obtain ⟨k, hk⟩ := he
      rw [hq, show q = 2 * k by omega, parentNode_of_left _ _ h63] at h
      injection h with h
      rw [← h, levelOf_nodeAt]
    · obtain ⟨k, hk⟩ := ho
      rw [hq, hk, parentNode_of_right _ _ h63] at h
      injection h with h
      rw [← h, levelOf_nodeAt]
  · rw [parentNode] at h
    rw [if_pos (by omega)] at h
    exact absurd h (by simp)

theorem parentNode_leftChild {n c : Nat} (h : leftChild n = some c)
    (h63 : levelOf n ≤ 63) : parentNode c = some n := by
  obtain ⟨p, hp⟩ := nodeAt_levelOf n
  rcases hl : levelOf n with _ | l
  · rw [leftChild_leaf hl] at h
    exact absurd h (by simp)
  · rw [hl] at hp
    rw [hp, leftChild_nodeAt] at h
    injection h with h
    rw [← h, parentNode_of_left l p (by omega), hp]

theorem parentNode_rightChild {n c : Nat} (h : rightChild n = some c)
    (h63 : levelOf n ≤ 63) : parentNode c = some n := by
  obtain ⟨p, hp⟩ := nodeAt_levelOf n
  rcases hl : levelOf n with _ | l
  · rw [rightChild, hl] at h
    exact absurd h (by simp)
  · rw [hl] at hp
    rw [hp, rightChild_nodeAt] at h
    injection h with h
    rw [← h, parentNode_of_right l p (by omega), hp]

/-- The climb of `restricted_parent` from a node up to an ancestor: every
intermediate parent is at or past `len`, so the loop passes through it. -/
inductive ClimbsTo (len : Nat) : Nat → Nat → Prop where
  | direct {c n : Nat} : parentNode c = some n → ClimbsTo len c n
  | step {c m n : Nat} : parentNode c = some m → ¬ m < len → ClimbsTo len m n →
      ClimbsTo len c n

theorem ClimbsTo.levelOf_lt {len c n : Nat} (h : ClimbsTo len c n) :
    levelOf c < levelOf n := by
  induction h with
  | direct hp => rw [levelOf_parentNode hp]; omega
  | step hp hge hc ih =>
    have := levelOf_parentNode hp
    omega

theorem ClimbsTo.top {len r c n : Nat} (h : ClimbsTo len r c)
    (hge : ¬ c < len) (hp : parentNode c = some n) : ClimbsTo len r n := by
  induction h with
  | direct hp0 => exact .step hp0 hge (.direct hp)
  | step hp0 hge0 hc ih => exact .step hp0 hge0 (ih hge hp)

theorem descendLeft_climbsTo {len : Nat} :
    ∀ fuel c r n, descendLeft fuel c len = some r → parentNode c = some n →
      levelOf n ≤ 63 → (r = c ∧ c < len) ∨ ClimbsTo len r n := by
  intro fuel
  induction fuel with
  | zero =>
    intro c r n h
    exact absurd h (by simp [descendLeft])
  | succ fuel ih =>
    intro c r n h hp h63
    rw [descendLeft] at h
    by_cases hc : c < len
    · rw [if_pos hc] at h
      injection h with h
      exact Or.inl ⟨h.symm, hc⟩
    · rw [if_neg hc] at h
      rcases hl : leftChild c with _ | c'
      · rw [hl] at h
        exact absurd h (by simp)
      · rw [hl] at h
        have hlev : levelOf c < levelOf n := by
          have := levelOf_parentNode hp
          omega
        have hp' : parentNode c' = some c := parentNode_leftChild hl (by omega)
        rcases ih c' r c h hp' (by omega) with ⟨heq, hlt⟩ | hcl
        · have hpr : parentNode r = some c := by
            rw [heq]
            exact hp'
          exact Or.inr ((ClimbsTo.direct hpr).top hc hp)
        · exact Or.inr (hcl.top hc hp)

theorem ClimbsTo.restrictedParentAux {len r n : Nat} (h : ClimbsTo len r n)
    (hn : n < len) :
    ∀ k, levelOf n ≤ levelOf r + k → restrictedParentAux (k + 1) r len = some n := by
  induction h with
  | direct hp =>
    intro k hk
    rw [Bao.restrictedParentAux]
    simp only [hp]
    rw [if_pos hn]
  | step hp hge hc ih =>
    intro k hk
    have hl1 := levelOf_parentNode hp
    have hl2 := hc.levelOf_lt
    rcases k with _ | k
    · omega
    · rw [Bao.restrictedParentAux]
      simp only [hp]
      rw [if_neg hge]
      exact ih hn k (by omega)

theorem ClimbsTo.restrictedParent {len r n : Nat} (h : ClimbsTo len r n)
    (hn : n < len) (h63 : levelOf n ≤ 63) :
    restrictedParent r len = some n :=
  h.restrictedParentAux hn 63 (by omega)

/-- Climbing from a left child: the parent is reached directly. -/
theorem restrictedParent_leftChild {n c len : Nat} (h : leftChild n = some c)
    (hn : n < len) (h63 : levelOf n ≤ 63) : restrictedParent c len = some n :=
  (ClimbsTo.direct (parentNode_leftChild h h63)).restrictedParent hn h63

/-- Climbing from a right descendant: the skipped nodes of the left spine
are all at or past `len`, so `restricted_parent` returns the node whose
right descendant it is. -/
theorem restrictedParent_rightDescendant {n r len : Nat}
    (h : rightDescendant n len = some r) (hn : n < len) (h63 : levelOf n ≤ 63) :
    restrictedParent r len = some n := by
  rw [rightDescendant] at h
  rcases hc : rightChild n with _ | c
  · rw [hc] at h
    exact absurd h (by simp)
  · rw [hc] at h
    have hp : parentNode c = some n := parentNode_rightChild hc h63
    rcases descendLeft_climbsTo _ c r n h hp h63 with ⟨heq, hlt⟩ | hcl
    · exact (ClimbsTo.direct (heq ▸ hp)).restrictedParent hn h63
    · exact hcl.restrictedParent hn h63

/-- No restricted parent above the root of a zero-start tree: every
ancestor of `nodeAt l 0` is outside the filled size. -/
theorem restrictedParentAux_none {len : Nat} :
    ∀ fuel l, 64 ≤ l + fuel → (∀ k, l < k → ¬ nodeAt k 0 < len) →
      restrictedParentAux fuel (nodeAt l 0) len = none := by
  intro fuel
  induction fuel with
  | zero => intro l h hk; rfl
  | succ fuel ih =>
    intro l h hk
    rw [Bao.restrictedParentAux]
    by_cases h63 : l < 63
    · have hp0 : parentNode (nodeAt l 0) = some (nodeAt (l + 1) 0) := by
        have h := parentNode_of_left l 0 h63
        simpa using h
      simp only [hp0]
      rw [if_neg (hk (l + 1) (by omega))]
      exact ih (l + 1) (by omega) (fun k hk2 => hk k (by omega))
    · have hp0 : parentNode (nodeAt l 0) = none := by
        rw [parentNode]
        simp only [levelOf_nodeAt]
        rw [if_pos (by omega)]
      simp only [hp0]

/-! ## The chunk iterators -/

/-- `iter::BaoChunk<R>`. -/
inductive BaoChunk (R : Type) where
  | parent (node : Nat) (is_root left right : Bool) (ranges : R)
  | leaf (start_chunk size : Nat) (is_root : Bool) (ranges : R)
deriving DecidableEq

/-- The chunk items `PreOrderChunkIterRef::next` derives from one
`NodeInfo` of the inner iterator, in emission order: the source first
breaks with the parent (or, for a skipped subtree, one spanning leaf)
unless the node is a half leaf, and then pops the at most two leaf halves
it pushed onto its two-slot stack (left first, right second; the right
half is pushed first so the left half is popped first). -/
def chunkItemsOf (t : BaoTree) (info : NodeInfo) : List (BaoChunk ChunkRangesRef) :=
  let leafParts : List (BaoChunk ChunkRangesRef) :=
    if isLeaf info.node then
      let sme := leafByteRanges3 t info.node
      let lStart := chunkNum t info.node
      let rStart := lStart + chunkGroupChunks t
      (if !(rsIsEmpty info.l_ranges) then
        [.leaf lStart (sme.2.1 - sme.1) (info.is_root && info.is_half_leaf) info.l_ranges]
       else []) ++
      (if !(rsIsEmpty info.r_ranges) && !info.is_half_leaf then
        [.leaf rStart (sme.2.2 - sme.2.1) false info.r_ranges]
       else [])
    else []
  let breakPart : List (BaoChunk ChunkRangesRef) :=
    if !info.is_half_leaf then
      if info.query_leaf && !(isLeaf info.node) then
        let br := byteRange t info.node
        [.leaf (chunksCeil br.1) (br.2 - br.1) info.is_root info.ranges]
      else
        [.parent info.node info.is_root (!(rsIsEmpty info.l_ranges))
          (!(rsIsEmpty info.r_ranges)) info.ranges]
    else []
  breakPart ++ leafParts

/-- The output of `PreOrderChunkIterRef`
(`tree.ranges_pre_order_chunks_iter_ref(ranges, max_skip_level)`). -/
def preOrderChunks (t : BaoTree) (ranges : ChunkRangesRef) (maxSkipLevel : Nat) :
    List (BaoChunk ChunkRangesRef) :=
  (preOrderNodes t ranges maxSkipLevel).flatMap (chunkItemsOf t)

/-- `iter::Prev`. -/
inductive Prev where
  | parent
  | left
  | right
  | done
deriving DecidableEq

/-- The state of `iter::PostOrderNodeIter`. -/
structure PostOrderNodeIter where
  len : Nat
  curr : Nat
  prev : Prev
deriving DecidableEq

/-- `PostOrderNodeIter::new`. -/
def PostOrderNodeIter.new (t : BaoTree) : PostOrderNodeIter :=
  { len := filledSize t, curr := rootNode t, prev := .parent }

/-- `PostOrderNodeIter::go_up`. -/
def goUp (s : PostOrderNodeIter) : PostOrderNodeIter :=
  match restrictedParent s.curr s.len with
  | some p => { s with curr := p, prev := if s.curr < p then .left else .right }
  | none => { s with prev := .done }

/-- `PostOrderNodeIter::next`.  The source's inner loop (descending into
left children and right descendants without emitting) is the recursion;
the fuel only bounds its depth (each descent lowers the level of `curr`,
so `2 * levelOf curr + 2` steps always suffice; proved below where the
iterator's output is characterised). -/
def poNextAux : Nat → PostOrderNodeIter → Step Nat PostOrderNodeIter
  | 0, _ => .stuck
  | fuel + 1, s =>
    match s.prev with
    | .parent =>
      match leftChild s.curr with
      | some child => poNextAux fuel { s with curr := child, prev := .parent }
      | none => .yield s.curr (goUp s)
    | .left =>
      match rightDescendant s.curr s.len with
      | some rd => poNextAux fuel { s with curr := rd, prev := .parent }
      | none => .stuck
    | .right => .yield s.curr (goUp s)
    | .done => .done

def poNext (s : PostOrderNodeIter) : Step Nat PostOrderNodeIter :=
  poNextAux (2 * levelOf s.curr + 2) s

/-- The recursive reference post-order traversal: left subtree, right
subtree (through `right_descendant`), then the node.  The fuel only
bounds the recursion depth (one level per unit); the iterator is proved
equal to this below. -/
def postNodesRAux : Nat → Nat → Nat → List Nat
  | 0, _, _ => []
  | fuel + 1, len, n =>
    if isLeaf n then [n]
    else match leftChild n, rightDescendant n len with
      | some l, some r => postNodesRAux fuel len l ++ postNodesRAux fuel len r ++ [n]
      | _, _ => []

def postNodesR (len n : Nat) : List Nat := postNodesRAux (levelOf n + 1) len n

/-- Fuel sufficient for the post-order node iterator: one per node. -/
def poFuel (t : BaoTree) : Nat :=
  (postNodesR (filledSize t) (rootNode t)).length + 1

/-- The node output of `PostOrderNodeIter`. -/
def postOrderNodes (t : BaoTree) : List Nat :=
  (runIter poNext (poFuel t) (PostOrderNodeIter.new t)).1

/-- The chunk items `PostOrderChunkIter::next` derives from one node of
the inner iterator, in emission order: the source pushes the parent
(if the node is persisted), then for a leaf pushes the right half
(if not a half leaf) and breaks with the left half, so the emission
order is left half, right half, parent. -/
def postChunkItemsOf (t : BaoTree) (root : Nat) (node : Nat) :
    List (BaoChunk Unit) :=
  let is_root := node = root
  let parentPart : List (BaoChunk Unit) :=
    if isPersisted t node then [.parent node is_root true true ()] else []
  if isLeaf node then
    let sme := leafByteRanges3 t node
    let lStart := chunkNum t node
    let rStart := lStart + chunkGroupChunks t
    let is_half_leaf := sme.2.1 = sme.2.2
    [.leaf lStart (sme.2.1 - sme.1) (is_root && is_half_leaf) ()] ++
    (if !is_half_leaf then [.leaf rStart (sme.2.2 - sme.2.1) false ()] else []) ++
    parentPart
  else
    parentPart

/-- The output of `PostOrderChunkIter` (`tree.post_order_chunks_iter()`). -/
def postOrderChunks (t : BaoTree) : List (BaoChunk Unit) :=
  (postOrderNodes t).flatMap (postChunkItemsOf t (rootNode t))

/-! ## Hashing

Modelled from the spec (§4.A): `hash_subtree(start_chunk, data, is_root)`
hashes up to one block of bytes as a subtree, "equivalent to recursive
`hash_chunk` + `parent_cv` over the 1-KiB chunks inside"; the left
subtree takes the largest power-of-two number of chunks strictly smaller
than the total.  `hash_block` of `io.rs` is the same function. -/

def hashSubtreeAux : Nat → Nat → List Nat → Bool → Hash
  | 0, startChunk, data, isRoot => .chunk startChunk data isRoot
  | fuel + 1, startChunk, data, isRoot =>
    if data.length ≤ 1024 then .chunk startChunk data isRoot
    else
      let chunks := (data.length + 1023) / 1024
      let leftChunks := 2 ^ floorLog2 (chunks - 1)
      let leftLen := 1024 * leftChunks
      .parentCV (hashSubtreeAux fuel startChunk (data.take leftLen) false)
        (hashSubtreeAux fuel (startChunk + leftChunks) (data.drop leftLen) false) isRoot

def hashSubtree (startChunk : Nat) (data : List Nat) (isRoot : Bool) : Hash :=
  hashSubtreeAux data.length startChunk data isRoot

/-- `hash_block` of `io.rs` (same hash computation, older name). -/
def hashBlock (startChunk : Nat) (data : List Nat) (isRoot : Bool) : Hash :=
  hashSubtree startChunk data isRoot

/-! ## IO model -/

abbrev ByteStream := List Sym

/-- The error type covering `io.rs`'s `DecodeError`, `io/sync.rs`'s
`DecodeError`/`AnyDecodeError`/`EncodeError` and modelled panics. -/
inductive BaoError where
  | ioError
  | invalidInput
  | invalidQueryRange
  | parentHashMismatch (node : Option Nat)
  | leafHashMismatch (startChunk : Nat)
  | parentNotFound (node : Option Nat)
  | leafNotFound (startChunk : Nat)
  | notFound
  | unwrapPanic
deriving DecidableEq

/-- `read_len`: read the 8-byte little-endian size header. -/
def readLen : ByteStream → Except BaoError (Nat × ByteStream)
  | .hdr n :: rest => .ok (n, rest)
  | _ => .error .ioError

/-- `read_parent`: read a 64-byte pair of hashes. -/
def readParent : ByteStream → Except BaoError ((Hash × Hash) × ByteStream)
  | .hsh l :: .hsh r :: rest => .ok ((l, r), rest)
  | _ => .error .ioError

/-- `read_exact` into a buffer of `size` data bytes. -/
def readData : Nat → ByteStream → Except BaoError (List Nat × ByteStream)
  | 0, s => .ok ([], s)
  | k + 1, .dat b :: rest => (readData k rest).map (fun r => (b :: r.1, r.2))
  | _ + 1, _ => .error .ioError

/-- `read_exact_at` on a blob (`ReadAt`): positioned read of `len` bytes. -/
def readExactAt (blob : List Nat) (start len : Nat) : Except BaoError (List Nat) :=
  if start + len ≤ blob.length then .ok ((blob.drop start).take len) else .error .ioError

/-- The eight little-endian bytes of a `u64`. -/
def leBytes64 (n : Nat) : List Nat := (List.range 8).map (fun i => n / 256 ^ i % 256)

/-- The `Outboard` trait: root hash, tree, and a hash-pair loader (which
may fail with an I/O error, and returns `none` for non-persisted
nodes). -/
structure Outboard where
  root : Hash
  tree : BaoTree
  load : Nat → Except BaoError (Option (Hash × Hash))

/-! ## Encoders -/

/-- The loop body of `encode_ranges` over the chunk items: the bytes
written and the error that stopped the loop, if any. -/
def encodeItems (data : List Nat) (o : Outboard) :
    List (BaoChunk ChunkRangesRef) → ByteStream × Option BaoError
  | [] => ([], none)
  | .parent node _ _ _ _ :: rest =>
    match o.load node with
    | .error _ => ([], some .ioError)
    | .ok none => ([], some .unwrapPanic)
    | .ok (some (lh, rh)) =>
      let r := encodeItems data o rest
      (Sym.hsh lh :: Sym.hsh rh :: r.1, r.2)
  | .leaf start_chunk size _ _ :: rest =>
    match readExactAt data (start_chunk * 1024) size with
    | .error _ => ([], some .ioError)
    | .ok buf =>
      let r := encodeItems data o rest
      (buf.map Sym.dat ++ r.1, r.2)

/-- `io/sync.rs` `encode_ranges`: write the header, then walk
`tree.ranges_pre_order_chunks_iter_ref(ranges, 0)`; no precondition
checks.  Result: the bytes written and the error, if any. -/
def encodeRangesSync (data : List Nat) (o : Outboard) (ranges : ChunkRangesRef) :
    ByteStream × Option BaoError :=
  let tree := o.tree
  let r := encodeItems data o (preOrderChunks tree ranges 0)
  (Sym.hdr tree.size :: r.1, r.2)

/-- `io.rs` `encode_ranges`: verify the blob length against the
outboard's tree, then the query range, then write the header and the
items. -/
def encodeRangesIo (data : List Nat) (o : Outboard) (ranges : ChunkRangesRef) :
    ByteStream × Option BaoError :=
  let file_len := data.length
  let tree := o.tree
  if file_len ≠ tree.size then ([], some .invalidInput)
  else if !(rangeOk ranges (chunksOf tree)) then ([], some .invalidQueryRange)
  else
    let r := encodeItems data o (preOrderChunks tree ranges 0)
    (Sym.hdr tree.size :: r.1, r.2)

/-- The loop body of `io.rs` `encode_ranges_validated`: as `encodeItems`
but checking each parent pair and each leaf against the hash popped from
the stack. -/
def encodeItemsValidated (data : List Nat) (o : Outboard) :
    List Hash → List (BaoChunk ChunkRangesRef) → ByteStream × Option BaoError
  | _, [] => ([], none)
  | stack, .parent node is_root left right _ :: rest =>
    match o.load node with
    | .error _ => ([], some .ioError)
    | .ok none => ([], some .unwrapPanic)
    | .ok (some (lh, rh)) =>
      match stack with
      | [] => ([], some .unwrapPanic)
      | expected :: stackRest =>
        if Hash.parentCV lh rh is_root ≠ expected then ([], some (.parentHashMismatch (some node)))
        else
          let stack' := (if left then [lh] else []) ++ (if right then [rh] else []) ++ stackRest
          let r := encodeItemsValidated data o stack' rest
          (Sym.hsh lh :: Sym.hsh rh :: r.1, r.2)
  | stack, .leaf start_chunk size is_root _ :: rest =>
    match stack with
    | [] => ([], some .unwrapPanic)
    | expected :: stackRest =>
      match readExactAt data (start_chunk * 1024) size with
      | .error _ => ([], some .ioError)
      | .ok buf =>
        if hashBlock start_chunk buf is_root ≠ expected then
          ([], some (.leafHashMismatch start_chunk))
        else
          let r := encodeItemsValidated data o stackRest rest
          (buf.map Sym.dat ++ r.1, r.2)

/-- `io.rs` `encode_ranges_validated`: the same preconditions as
`encode_ranges`, with the hash stack seeded with the outboard root. -/
def encodeRangesValidatedIo (data : List Nat) (o : Outboard) (ranges : ChunkRangesRef) :
    ByteStream × Option BaoError :=
  let file_len := data.length
  let tree := o.tree
  if file_len ≠ tree.size then ([], some .invalidInput)
  else if !(rangeOk ranges (chunksOf tree)) then ([], some .invalidQueryRange)
  else
    let r := encodeItemsValidated data o [o.root] (preOrderChunks tree ranges 0)
    (Sym.hdr tree.size :: r.1, r.2)

/-! ## The response iterator and the response decoder (`io/sync.rs`) -/

/-- `iter::ResponseChunk`. -/
inductive ResponseChunk where
  | parent (node : Option Nat) (is_root left right : Bool)
  | leaf (start_chunk size : Nat) (is_root : Bool)
deriving DecidableEq

/-- The response items `ResponseIterRef::next` derives from one chunk of
the inner `PreOrderChunkIterRef`: parents pass through; a leaf passes
through when the block size is zero or its ranges cover the whole leaf,
and is otherwise expanded through a one-leaf tree of block size 0
(the buffer the source fills and reverses yields the little tree's items
in order). -/
def responseItemsOf (t : BaoTree) : BaoChunk ChunkRangesRef → List ResponseChunk
  | .parent node is_root left right _ => [.parent (some node) is_root left right]
  | .leaf start_chunk size is_root ranges =>
    if t.block_size = 0 || rsIsAll ranges then [.leaf start_chunk size is_root]
    else
      let little : BaoTree :=
        { start_chunk := start_chunk, size := size, block_size := 0, is_root := is_root }
      (preOrderChunks little ranges 255).map (fun c =>
        match c with
        | .parent _ is_root left right _ => ResponseChunk.parent none is_root left right
        | .leaf sc sz ir _ => ResponseChunk.leaf sc sz ir)

/-- The output of `ResponseIterRef::new(tree, ranges)`: the canonical
wire traversal (`max_skip_level = 0` on the outer tree, cf. §9 of the
spec). -/
def responseChunks (t : BaoTree) (ranges : ChunkRangesRef) : List ResponseChunk :=
  (preOrderChunks t ranges 0).flatMap (responseItemsOf t)

/-- `io/sync.rs` `DecodeResponseItem`. -/
inductive DecodeResponseItem where
  | header (size : Nat)
  | parent (node : Option Nat) (pair : Hash × Hash)
  | leaf (offset : Nat) (data : List Nat)
deriving DecidableEq

/-- `io/sync.rs` `Position`. -/
inductive RespPosition where
  | header (ranges : ChunkRangesRef) (block_size : Nat)
  | content (items : List ResponseChunk)
deriving DecidableEq

/-- The state of `io/sync.rs` `DecodeResponseIter`. -/
structure DecodeResponseIter where
  inner : RespPosition
  stack : List Hash
  encoded : ByteStream
deriving DecidableEq

/-- `DecodeResponseIter::new`. -/
def DecodeResponseIter.new (root : Hash) (blockSize : Nat) (encoded : ByteStream)
    (ranges : ChunkRangesRef) : DecodeResponseIter :=
  { inner := .header ranges blockSize, stack := [root], encoded := encoded }

/-- `DecodeResponseIter::next0`: one step of the decoder. -/
def respNext0 (s : DecodeResponseIter) :
    Except BaoError (Option DecodeResponseItem) × DecodeResponseIter :=
  match s.inner with
  | .header ranges block_size =>
    match readLen s.encoded with
    | .error _ => (.error .notFound, s)
    | .ok (size, rest) =>
      let tree := BaoTree.new size block_size
      -- now we know the size, so we can canonicalize the ranges
      let ranges' := truncateRanges ranges tree.size
      (.ok (some (.header size)),
        { s with inner := .content (responseChunks tree ranges'), encoded := rest })
  | .content [] => (.ok none, s)
  | .content (.parent node is_root left right :: rest) =>
    match readParent s.encoded with
    | .error _ => (.error (.parentNotFound node), { s with inner := .content rest })
    | .ok ((lh, rh), st) =>
      match s.stack with
      | [] => (.error .unwrapPanic, { s with inner := .content rest, encoded := st })
      | parent_hash :: stackRest =>
        if parent_hash ≠ Hash.parentCV lh rh is_root then
          (.error (.parentHashMismatch node),
            { s with inner := .content rest, encoded := st, stack := stackRest })
        else
          let stack' := (if left then [lh] else []) ++ (if right then [rh] else []) ++ stackRest
          (.ok (some (.parent node (lh, rh))),
            { s with inner := .content rest, encoded := st, stack := stack' })
  | .content (.leaf start_chunk size is_root :: rest) =>
    match readData size s.encoded with
    | .error _ => (.error (.leafNotFound start_chunk), { s with inner := .content rest })
    | .ok (buf, st) =>
      let actual := hashSubtree start_chunk buf is_root
      match s.stack with
      | [] => (.error .unwrapPanic, { s with inner := .content rest, encoded := st })
      | leaf_hash :: stackRest =>
        if leaf_hash ≠ actual then
          (.error (.leafHashMismatch start_chunk),
            { s with inner := .content rest, encoded := st, stack := stackRest })
        else
          (.ok (some (.leaf (start_chunk * 1024) buf)),
            { s with inner := .content rest, encoded := st, stack := stackRest })

/-- Iterating `DecodeResponseIter` (`next` = `next0().transpose()`):
collect every yielded item until `next0` returns `Ok(None)`.  One unit of
fuel per call. -/
def respRunAux : Nat → DecodeResponseIter → List (Except BaoError DecodeResponseItem)
  | 0, _ => []
  | fuel + 1, s =>
    match respNext0 s with
    | (.ok none, _) => []
    | (.ok (some it), s') => .ok it :: respRunAux fuel s'
    | (.error e, s') => .error e :: respRunAux fuel s'

/-- Fuel sufficient to drive `DecodeResponseIter` to its end. -/
def respFuel (s : DecodeResponseIter) : Nat :=
  match s.inner with
  | .content items => items.length + 1
  | .header ranges bs =>
    match readLen s.encoded with
    | .ok (size, _) =>
      (responseChunks (BaoTree.new size bs) (truncateRanges ranges size)).length + 2
    | .error _ => 2

/-- All items yielded by a `DecodeResponseIter` decode run. -/
def decodeResponseItems (root : Hash) (blockSize : Nat) (encoded : ByteStream)
    (ranges : ChunkRangesRef) : List (Except BaoError DecodeResponseItem) :=
  respRunAux (respFuel (DecodeResponseIter.new root blockSize encoded ranges))
    (DecodeResponseIter.new root blockSize encoded ranges)

/-! ## The slice decoder (`io.rs` `DecodeSliceIter`) -/

/-- `io.rs` `Position`.  The content iterator is
`tree.read_item_iter_ref(range, 0)`, the pre-order chunk iterator over
the requested ranges. -/
inductive SlicePosition where
  | header (ranges : ChunkRangesRef) (block_size : Nat)
  | content (items : List (BaoChunk ChunkRangesRef))
deriving DecidableEq

/-- The state of `io.rs` `DecodeSliceIter`. -/
structure DecodeSliceIter where
  inner : SlicePosition
  stack : List Hash
  encoded : ByteStream
deriving DecidableEq

/-- `DecodeSliceIter::new`. -/
def DecodeSliceIter.new (root : Hash) (blockSize : Nat) (encoded : ByteStream)
    (ranges : ChunkRangesRef) : DecodeSliceIter :=
  { inner := .header ranges blockSize, stack := [root], encoded := encoded }

def slicePosRank : SlicePosition → Nat
  | .header _ _ => 1
  | .content _ => 0

def slicePosLen : SlicePosition → Nat
  | .header _ _ => 0
  | .content items => items.length

/-- `DecodeSliceIter::next0`: reads the header and then loops over the
items, verifying parents (without emitting them) until a verified leaf
byte range can be emitted. -/
def sliceNext0 (s : DecodeSliceIter) :
    Except BaoError (Option (Nat × Nat)) × DecodeSliceIter :=
  match hi : s.inner with
  | .header ranges block_size =>
    match readLen s.encoded with
    | .error _ => (.error .ioError, s)
    | .ok (size, rest) =>
      -- make sure the range is valid and canonical
      if !(rangeOk ranges (chunksCeil size)) then
        (.error .invalidQueryRange, { s with encoded := rest })
      else
        let items := preOrderChunks (BaoTree.new size block_size) ranges 0
        sliceNext0 { s with encoded := rest, inner := .content items }
  | .content [] => (.ok none, s)
  | .content (.parent node is_root left right _ :: rest) =>
    match readParent s.encoded with
    | .error _ => (.error .ioError, { s with inner := .content rest })
    | .ok ((lh, rh), st) =>
      match s.stack with
      | [] => (.error .unwrapPanic, { s with inner := .content rest, encoded := st })
      | parent_hash :: stackRest =>
        if parent_hash ≠ Hash.parentCV lh rh is_root then
          (.error (.parentHashMismatch (some node)),
            { s with inner := .content rest, encoded := st, stack := stackRest })
        else
          let stack' := (if left then [lh] else []) ++ (if right then [rh] else []) ++ stackRest
          sliceNext0 { s with inner := .content rest, encoded := st, stack := stack' }
  | .content (.leaf start_chunk size is_root _ :: rest) =>
    match readData size s.encoded with
    | .error _ => (.error .ioError, { s with inner := .content rest })
    | .ok (buf, st) =>
      let actual := hashBlock start_chunk buf is_root
      match s.stack with
      | [] => (.error .unwrapPanic, { s with inner := .content rest, encoded := st })
      | leaf_hash :: stackRest =>
        if leaf_hash ≠ actual then
          (.error (.leafHashMismatch start_chunk),
            { s with inner := .content rest, encoded := st, stack := stackRest })
        else
          (.ok (some (start_chunk * 1024, start_chunk * 1024 + size)),
            { s with inner := .content rest, encoded := st, stack := stackRest })
termination_by (slicePosRank s.inner, slicePosLen s.inner)
decreasing_by
  · rw [hi]
    exact Prod.Lex.left _ _ (by simp [slicePosRank])
  · rw [hi]
    exact Prod.Lex.right _ (by simp [slicePosLen])

/-- Iterating `DecodeSliceIter`: collect every yielded item until
`next0` returns `Ok(None)`. -/
def sliceRunAux : Nat → DecodeSliceIter → List (Except BaoError (Nat × Nat))
  | 0, _ => []
  | fuel + 1, s =>
    match sliceNext0 s with
    | (.ok none, _) => []
    | (.ok (some it), s') => .ok it :: sliceRunAux fuel s'
    | (.error e, s') => .error e :: sliceRunAux fuel s'

/-- Fuel sufficient to drive `DecodeSliceIter` to its end. -/
def sliceFuel (s : DecodeSliceIter) : Nat :=
  match s.inner with
  | .content items => items.length + 1
  | .header ranges bs =>
    match readLen s.encoded with
    | .ok (size, _) => (preOrderChunks (BaoTree.new size bs) ranges 0).length + 2
    | .error _ => 2

/-- All items yielded by a `DecodeSliceIter` decode run. -/
def decodeSliceItems (root : Hash) (blockSize : Nat) (encoded : ByteStream)
    (ranges : ChunkRangesRef) : List (Except BaoError (Nat × Nat)) :=
  sliceRunAux (sliceFuel (DecodeSliceIter.new root blockSize encoded ranges))
    (DecodeSliceIter.new root blockSize encoded ranges)

/-! ## The outboard builder (`outboard_post_order`) -/

/-- The loop body of `outboard_post_order_impl`: one directive applied to
(read position in the data, hash stack, outboard bytes written). -/
def buildStep (data : List Nat) (st : Nat × List Hash × ByteStream) (item : BaoChunk Unit) :
    Except BaoError (Nat × List Hash × ByteStream) :=
  match item with
  | .parent _ is_root _ _ _ =>
    match st.2.1 with
    | right_hash :: left_hash :: stackRest =>
      .ok (st.1, Hash.parentCV left_hash right_hash is_root :: stackRest,
        st.2.2 ++ [Sym.hsh left_hash, Sym.hsh right_hash])
    | _ => .error .unwrapPanic
  | .leaf start_chunk size is_root _ =>
    if st.1 + size ≤ data.length then
      .ok (st.1 + size,
        hashSubtree start_chunk ((data.drop st.1).take size) is_root :: st.2.1, st.2.2)
    else .error .ioError

/-- `io/sync.rs` `outboard_post_order_impl`: fold the builder over
`tree.post_order_chunks_iter()`; returns the root hash (popped from the
stack), the final stack (before the pop), and the outboard bytes. -/
def outboardPostOrderImpl (t : BaoTree) (data : List Nat) :
    Except BaoError (Hash × List Hash × ByteStream) := do
  let fin ← (postOrderChunks t).foldlM (buildStep data) (0, [], [])
  match fin.2.1 with
  | h :: _ => .ok (h, fin.2.1, fin.2.2)
  | [] => .error .unwrapPanic

/-- `io/sync.rs` `outboard_post_order`: build the tree for `(size,
block_size)`, run the impl, then append the 8-byte little-endian size
suffix to the outboard. -/
def outboardPostOrder (data : List Nat) (size blockSize : Nat) :
    Except BaoError (Hash × ByteStream) :=
  let tree := BaoTree.new size blockSize
  match outboardPostOrderImpl tree data with
  | .error e => .error e
  | .ok (hash, _, written) => .ok (hash, written ++ (leBytes64 size).map Sym.dat)

/-! ## Validators -/

/-- Modelled from the spec: on this geometry the validator's shifted tree
is the tree itself, so `BaoTree::shifted` returns the root and the filled
size, and `TreeNode::subtract_block_size` is the identity. -/
def shiftedTree (t : BaoTree) : Nat × Nat := (rootNode t, filledSize t)

/-- Modelled from the spec: see `shiftedTree`. -/
def subtractBlockSize (n : Nat) (blockSize : Nat) : Nat := n

/-- `TreeNode::chunk_range` (start only), on this geometry. -/
def chunkRangeStart (t : BaoTree) (n : Nat) : Nat :=
  toChunks (blockRangeStart n) t.block_size

/-- `valid_outboard_ranges::RecursiveValidator::validate_rec`.  On a
parent-hash mismatch the branch contributes nothing (the validator
continues without adding the range); the result is the list of verified
chunk ranges in traversal order. -/
def validateRecOb (t : BaoTree) (load : Nat → Except BaoError (Option (Hash × Hash)))
    (sfs : Nat) (parent_hash : Hash) (shifted : Nat) (is_root : Bool) :
    Except BaoError (List (Nat × Nat)) :=
  let node := subtractBlockSize shifted t.block_size
  match load node with
  | .error _ => .error .ioError
  | .ok lr =>
    let checked : Option (Hash × Hash) :=
      match lr with
      | some (l, r) =>
        if Hash.parentCV l r is_root = parent_hash then some (l, r) else none
      | none => some (parent_hash, Hash.fromBytes 0)
    match checked with
    | none => .ok []
    | some (l_hash, r_hash) =>
      if isLeaf shifted then
        let start := chunkRangeStart t node
        let e := min (start + chunkGroupChunks t * 2) (chunksOf t)
        .ok [(start, e)]
      else
        match hl : leftChild shifted, hr : rightDescendant shifted sfs with
        | some left, some right => do
          let a ← validateRecOb t load sfs l_hash left false
          let b ← validateRecOb t load sfs r_hash right false
          return a ++ b
        | _, _ => .error .unwrapPanic
termination_by levelOf shifted
decreasing_by
  · have := levelOf_of_leftChild hl
    omega
  · have := levelOf_rightDescendant hr
    omega

/-- `io/sync.rs` `valid_outboard_ranges`. -/
def validOutboardRanges (o : Outboard) : Except BaoError (List (Nat × Nat)) :=
  let tree := o.tree
  let root_hash := o.root
  let sr := (shiftedTree tree).1
  let sfs := (shiftedTree tree).2
  validateRecOb tree o.load sfs root_hash sr true

/-- `valid_file_ranges::RecursiveValidator::validate_rec`. -/
def validateRecFile (t : BaoTree) (load : Nat → Except BaoError (Option (Hash × Hash)))
    (reader : List Nat) (valid_nodes : Nat) (parent_hash : Hash) (node : Nat)
    (is_root : Bool) : Except BaoError (List (Nat × Nat)) :=
  match load node with
  | .error _ => .error .ioError
  | .ok (some (l_hash, r_hash)) =>
    if Hash.parentCV l_hash r_hash is_root ≠ parent_hash then .ok []
    else if hL : isLeaf node then
      let sme := leafByteRanges3 t node
      match readExactAt reader sme.1 (sme.2.1 - sme.1) with
      | .error _ => .error .ioError
      | .ok l_data =>
        let actualL := hashSubtree (chunksCeil sme.1) l_data false
        let resL := if actualL = l_hash then [(chunksCeil sme.1, chunksCeil sme.2.1)] else []
        match readExactAt reader sme.2.1 (sme.2.2 - sme.2.1) with
        | .error _ => .error .ioError
        | .ok r_data =>
          let actualR := hashSubtree (chunksCeil sme.2.1) r_data false
          .ok (resL ++ (if actualR = r_hash then [(chunksCeil sme.2.1, chunksCeil sme.2.2)] else []))
    else
      match hl : leftChild node, hr : rightDescendant node valid_nodes with
      | some left, some right => do
        let a ← validateRecFile t load reader valid_nodes l_hash left false
        let b ← validateRecFile t load reader valid_nodes r_hash right false
        return a ++ b
      | _, _ => .error .unwrapPanic
  | .ok none =>
    if isLeaf node then
      let sme := leafByteRanges3 t node
      match readExactAt reader sme.1 (sme.2.1 - sme.1) with
      | .error _ => .error .ioError
      | .ok l_data =>
        let actual := hashSubtree (chunksCeil sme.1) l_data is_root
        .ok (if actual = parent_hash then [(chunksCeil sme.1, chunksCeil sme.2.1)] else [])
    else .ok []
termination_by levelOf node
decreasing_by
  · have := levelOf_of_leftChild hl
    omega
  · have := levelOf_rightDescendant hr
    omega

/-- `io/sync.rs` `valid_file_ranges`. -/
def validFileRanges (o : Outboard) (reader : List Nat) : Except BaoError (List (Nat × Nat)) :=
  let tree := o.tree
  validateRecFile tree o.load reader (filledSize tree) o.root (rootNode tree) true

/-! ## Geometry lemmas

The traversal code relies on a few structural facts about the in-order
index space: internal nodes are odd, a left child keeps the start of the
block range and ends at the parent's mid, and `right_descendant` returns
the node that starts at the parent's mid and either ends with the parent
or covers everything up to the end of the restricted tree. -/

theorem levelOf_pos_odd {n : Nat} (h : 1 ≤ levelOf n) : n % 2 = 1 := by
  by_cases he : n % 2 = 0
  · rw [levelOf_even he] at h
    omega
  · omega

theorem nodeAt_blockRangeStart (l p : Nat) :
    blockRangeStart (nodeAt l p) = p * 2 ^ (l + 1) := by
  rw [blockRangeStart, levelOf_nodeAt, nodeAt]
  have h1 : 1 ≤ 2 ^ l := Nat.one_le_two_pow
  omega

theorem nodeAt_blockRangeEnd (l p : Nat) :
    blockRangeEnd (nodeAt l p) = (p + 1) * 2 ^ (l + 1) := by
  rw [blockRangeEnd, levelOf_nodeAt, nodeAt]
  have h1 : 1 ≤ 2 ^ l := Nat.one_le_two_pow
  have e1 : (p + 1) * 2 ^ (l + 1) = p * 2 ^ (l + 1) + 2 * 2 ^ l := by ring
  have e2 : 2 ^ (l + 1) = 2 * 2 ^ l := by ring
  omega

theorem nodeAt_mid (l p : Nat) :
    midBlock (nodeAt l p) = p * 2 ^ (l + 1) + 2 ^ l := by
  rw [midBlock, nodeAt]
  have h1 : 1 ≤ 2 ^ l := Nat.one_le_two_pow
  omega

theorem blockRangeStart_leaf {n : Nat} (h : levelOf n = 0) :
    blockRangeStart n = n := by
  rw [blockRangeStart, h]
  simp

/-- `descendLeft` keeps the start of the block range and returns the
first node of the left spine that is below `len`: either the starting
node itself, or a node whose block range runs past the restricted
tree. -/
theorem descendLeft_spec {c len : Nat} (hM : blockRangeStart c < len) :
    ∃ r, descendLeft (levelOf c + 1) c len = some r ∧
      blockRangeStart r = blockRangeStart c ∧ r < len ∧ levelOf r ≤ levelOf c ∧
      (r = c ∨ len < blockRangeEnd r) := by
  generalize hfuel : levelOf c + 1 = fuel
  induction fuel generalizing c with
  | zero => omega
  | succ fuel ih =>
    rw [descendLeft]
    by_cases hc : c < len
    · exact ⟨c, by rw [if_pos hc], rfl, hc, le_refl _, Or.inl rfl⟩
    · rw [if_neg hc]
      rcases hl0 : levelOf c with _ | l
      · rw [blockRangeStart_leaf hl0] at hM
        omega
      · obtain ⟨p, hp⟩ := nodeAt_levelOf c
        rw [hl0] at hp
        have hlc : leftChild c = some (nodeAt l (2 * p)) := by
          rw [hp]
          exact leftChild_nodeAt l p
        rw [hlc]
        have hstart : blockRangeStart (nodeAt l (2 * p)) = blockRangeStart c := by
          rw [nodeAt_blockRangeStart, hp, nodeAt_blockRangeStart]
          ring
        have hlev : levelOf (nodeAt l (2 * p)) = l := levelOf_nodeAt l (2 * p)
        have ihx := ih (c := nodeAt l (2 * p)) (by rw [hstart]; exact hM) (by rw [hlev]; omega)
        obtain ⟨r, hr, hs, hlt, hle, hend⟩ := ihx
        refine ⟨r, hr, by rw [hs, hstart], hlt, by rw [hlev] at hle; omega, ?_⟩
        right
        rcases hend with hend | hend
        · rw [hend]
          have he : blockRangeEnd (nodeAt l (2 * p)) = midBlock c := by
            rw [nodeAt_blockRangeEnd, hp, nodeAt_mid]
            ring
          rw [he, midBlock]
          omega
        · exact hend

/-- `right_descendant` of a valid internal node: it starts at the node's
mid, is below `len`, has a smaller level, and its block range either
ends with the node's or covers the rest of the restricted tree. -/
theorem rightDescendant_spec {n len : Nat} (hlev : 1 ≤ levelOf n)
    (hV : n + 1 < len) :
    ∃ r, rightDescendant n len = some r ∧
      blockRangeStart r = midBlock n ∧ r < len ∧ levelOf r < levelOf n ∧
      (blockRangeEnd r = blockRangeEnd n ∨ len < blockRangeEnd r) := by
  obtain ⟨p, hp⟩ := nodeAt_levelOf n
  rcases hl0 : levelOf n with _ | l
  · omega
  · rw [hl0] at hp
    have hrc : rightChild n = some (nodeAt l (2 * p + 1)) := by
      rw [hp]
      exact rightChild_nodeAt l p
    have hstart : blockRangeStart (nodeAt l (2 * p + 1)) = midBlock n := by
      rw [nodeAt_blockRangeStart, hp, nodeAt_mid]
      ring
    have hlev' : levelOf (nodeAt l (2 * p + 1)) = l := levelOf_nodeAt _ _
    have hM : blockRangeStart (nodeAt l (2 * p + 1)) < len := by
      rw [hstart, midBlock]
      exact hV
    obtain ⟨r, hr, hs, hlt, hle, hend⟩ := descendLeft_spec hM
    rw [hlev'] at hle
    have hgoal : rightDescendant n len = some r := by
      rw [rightDescendant, hrc]
      exact hr
    refine ⟨r, hgoal, by rw [hs, hstart], hlt, by omega, ?_⟩
    rcases hend with hend | hend
    · left
      rw [hend]
      rw [nodeAt_blockRangeEnd, hp, nodeAt_blockRangeEnd]
      have e1 : (2 * p + 1 + 1) * 2 ^ (l + 1) = (p + 1) * 2 ^ (l + 1 + 1) := by ring
      omega
    · right
      exact hend

/-! ## Reference subtree hashes and the reference outboard -/

/-- Bytes `[a, b)` of a blob. -/
def slice (blob : List Nat) (a b : Nat) : List Nat := (blob.drop a).take (b - a)

/-- The reference hash of the subtree rooted at a node: the two halves of
a persisted leaf node are combined with `parent_cv`, a half leaf is a
bare `hash_subtree`, and an internal node combines the hashes of its left
child and its right descendant. -/
def sHashAux (t : BaoTree) (blob : List Nat) : Nat → Nat → Bool → Hash
  | 0, _, _ => .fromBytes 0
  | fuel + 1, n, isR =>
    if isLeaf n then
      let sme := leafByteRanges3 t n
      if sme.2.1 = sme.2.2 then hashSubtree (chunkNum t n) (slice blob sme.1 sme.2.1) isR
      else
        .parentCV (hashSubtree (chunkNum t n) (slice blob sme.1 sme.2.1) false)
          (hashSubtree (chunkNum t n + chunkGroupChunks t) (slice blob sme.2.1 sme.2.2) false)
          isR
    else
      match leftChild n, rightDescendant n (filledSize t) with
      | some lc, some rc =>
        .parentCV (sHashAux t blob fuel lc false) (sHashAux t blob fuel rc false) isR
      | _, _ => .fromBytes 0

/-- The reference subtree hash. -/
def sHash (t : BaoTree) (blob : List Nat) (n : Nat) (isR : Bool) : Hash :=
  sHashAux t blob (levelOf n + 1) n isR

/-- The reference hash pair stored at a persisted node (what a correct
outboard holds), `none` at non-persisted nodes. -/
def refPair (t : BaoTree) (blob : List Nat) (n : Nat) : Option (Hash × Hash) :=
  if isPersisted t n then
    some (if isLeaf n then
      let sme := leafByteRanges3 t n
      (hashSubtree (chunkNum t n) (slice blob sme.1 sme.2.1) false,
       hashSubtree (chunkNum t n + chunkGroupChunks t) (slice blob sme.2.1 sme.2.2) false)
    else
      match leftChild n, rightDescendant n (filledSize t) with
      | some lc, some rc => (sHash t blob lc false, sHash t blob rc false)
      | _, _ => (.fromBytes 0, .fromBytes 0))
  else none

/-- The reference outboard of a blob: the tree for its length, the
reference root hash, and the reference pairs. -/
def refOutboard (blob : List Nat) (blockSize : Nat) : Outboard :=
  let t := BaoTree.new blob.length blockSize
  { root := sHash t blob (rootNode t) true, tree := t,
    load := fun n => .ok (refPair t blob n) }

/-! ## Validity of the root and of traversal nodes -/

theorem leafCount_pos (t : BaoTree) : 1 ≤ leafCount t := by
  rw [leafCount, blocksOf]
  omega

theorem levelOf_zero : levelOf 0 = 0 := levelOf_even (by norm_num)

theorem startBlock_new (size bs : Nat) : startBlock (BaoTree.new size bs) = 0 := by
  simp [startBlock, BaoTree.new, chunkGroupChunks]

theorem filledSize_odd {t : BaoTree} (h0 : startBlock t = 0) :
    filledSize t % 2 = 1 := by
  rw [filledSize, h0]
  have := leafCount_pos t
  omega

/-- The root of a start-zero tree is a valid traversal node: a leaf, or
an internal node strictly inside the filled node range. -/
theorem rootNode_valid {t : BaoTree} (h0 : startBlock t = 0) :
    isLeaf (rootNode t) = true ∨ rootNode t + 1 < filledSize t := by
  rcases Nat.lt_or_ge (leafCount t) 2 with hL | hL
  · left
    have h1 := leafCount_pos t
    have hL1 : leafCount t = 1 := by omega
    rw [rootNode, h0, hL1, ceilLog2_eq_clog]
    simp [isLeaf, Nat.clog_one_right, levelOf_zero]
  · right
    rw [rootNode, filledSize, h0, ceilLog2_eq_clog]
    have hlow : 2 ^ (Nat.clog 2 (leafCount t) - 1) < leafCount t :=
      Nat.pow_pred_clog_lt_self (by norm_num) hL
    have hpos : 0 < Nat.clog 2 (leafCount t) := Nat.clog_pos (by norm_num) hL
    have hsplit : 2 ^ Nat.clog 2 (leafCount t) = 2 * 2 ^ (Nat.clog 2 (leafCount t) - 1) := by
      rcases Nat.exists_eq_add_of_lt hpos with ⟨k, hk⟩
      have hck : Nat.clog 2 (leafCount t) = k + 1 := by omega
      rw [hck]
      simp [Nat.pow_succ]
      ring
    have h1 : 1 ≤ 2 ^ Nat.clog 2 (leafCount t) := Nat.one_le_two_pow
    omega

/-- Internal traversal nodes are odd, so validity propagates through
`right_descendant` in an odd-sized filled range. -/
theorem valid_of_lt_odd {n sfs : Nat} (hodd : sfs % 2 = 1) (hlt : n < sfs) :
    isLeaf n = true ∨ n + 1 < sfs := by
  by_cases hleaf : levelOf n = 0
  · left
    simp [isLeaf, hleaf]
  · right
    have := levelOf_pos_odd (n := n) (by omega)
    omega

/-! ### Adequacy of the post-order machine -/

theorem poNextAux_congr : ∀ f1 f2 (s : PostOrderNodeIter),
    2 * levelOf s.curr + 2 ≤ f1 → 2 * levelOf s.curr + 2 ≤ f2 →
    poNextAux f1 s = poNextAux f2 s := by
  intro f1
  induction f1 with
  | zero =>
    intro f2 s h1 h2
    omega
  | succ f1 ih =>
    intro f2 s h1 h2
    rcases f2 with _ | f2
    · omega
    · obtain ⟨len, curr, prev⟩ := s
      simp only at h1 h2
      rw [poNextAux, poNextAux]
      cases prev with
      | parent =>
        simp only
        rcases hlc : leftChild curr with _ | child
        · rfl
        · have hl := levelOf_of_leftChild hlc
          exact ih f2 ⟨len, child, .parent⟩ (by show 2 * levelOf child + 2 ≤ f1; omega)
            (by show 2 * levelOf child + 2 ≤ f2; omega)
      | left =>
        simp only
        rcases hrd : rightDescendant curr len with _ | rd
        · rfl
        · have hl := levelOf_rightDescendant hrd
          exact ih f2 ⟨len, rd, .parent⟩ (by show 2 * levelOf rd + 2 ≤ f1; omega)
            (by show 2 * levelOf rd + 2 ≤ f2; omega)
      | right => rfl
      | done => rfl

theorem poNext_parent_leaf {len n : Nat} (hlc : leftChild n = none) :
    poNext ⟨len, n, .parent⟩ = .yield n (goUp ⟨len, n, .parent⟩) := by
  rw [poNext]
  show poNextAux (2 * levelOf n + 1 + 1) ⟨len, n, .parent⟩ = _
  rw [poNextAux]
  simp only [hlc]

theorem poNext_parent_desc {len n c : Nat} (hlc : leftChild n = some c) :
    poNext ⟨len, n, .parent⟩ = poNext ⟨len, c, .parent⟩ := by
  have hl := levelOf_of_leftChild hlc
  rw [poNext, poNext]
  show poNextAux (2 * levelOf n + 1 + 1) ⟨len, n, .parent⟩ = _
  rw [poNextAux]
  simp only [hlc]
  exact poNextAux_congr _ _ ⟨len, c, .parent⟩ (by show 2 * levelOf c + 2 ≤ _; omega)
    (by show 2 * levelOf c + 2 ≤ _; omega)

theorem poNext_left_desc {len n r : Nat} (hrd : rightDescendant n len = some r) :
    poNext ⟨len, n, .left⟩ = poNext ⟨len, r, .parent⟩ := by
  have hl := levelOf_rightDescendant hrd
  rw [poNext, poNext]
  show poNextAux (2 * levelOf n + 1 + 1) ⟨len, n, .left⟩ = _
  rw [poNextAux]
  simp only [hrd]
  exact poNextAux_congr _ _ ⟨len, r, .parent⟩ (by show 2 * levelOf r + 2 ≤ _; omega)
    (by show 2 * levelOf r + 2 ≤ _; omega)

theorem poNext_right {len n : Nat} :
    poNext ⟨len, n, .right⟩ = .yield n (goUp ⟨len, n, .right⟩) := by
  rw [poNext]
  show poNextAux (2 * levelOf n + 1 + 1) ⟨len, n, .right⟩ = _
  rw [poNextAux]

theorem poNext_done {len n : Nat} : poNext ⟨len, n, .done⟩ = .done := by
  rw [poNext]
  show poNextAux (2 * levelOf n + 1 + 1) ⟨len, n, .done⟩ = _
  rw [poNextAux]

theorem goUp_prev {len n : Nat} (p1 p2 : Prev) :
    goUp ⟨len, n, p1⟩ = goUp ⟨len, n, p2⟩ := by
  rw [goUp, goUp]

theorem runIter_congr {σ ι : Type} (next : σ → Step ι σ) {s s' : σ}
    (h : next s = next s') :
    ∀ fuel, runIter next fuel s = runIter next fuel s'
  | 0 => rfl
  | fuel + 1 => by rw [runIter, runIter, h]

theorem postNodesRAux_congr : ∀ f1 f2 len n, levelOf n < f1 → levelOf n < f2 →
    postNodesRAux f1 len n = postNodesRAux f2 len n := by
  intro f1
  induction f1 with
  | zero =>
    intro f2 len n h1
    omega
  | succ f1 ih =>
    intro f2 len n h1 h2
    rcases f2 with _ | f2
    · omega
    · rw [postNodesRAux, postNodesRAux]
      by_cases hleaf : isLeaf n
      · rw [if_pos hleaf, if_pos hleaf]
      · rw [if_neg hleaf, if_neg hleaf]
        rcases hlc : leftChild n with _ | l
        · rfl
        · rcases hrd : rightDescendant n len with _ | r
          · rfl
          · have h3 := levelOf_of_leftChild hlc
            have h4 := levelOf_rightDescendant hrd
            simp only
            rw [ih f2 len l (by omega) (by omega), ih f2 len r (by omega) (by omega)]

theorem postNodesR_leaf {len n : Nat} (h : isLeaf n = true) :
    postNodesR len n = [n] := by
  rw [postNodesR, postNodesRAux, if_pos h]

theorem postNodesR_internal {len n l r : Nat} (hleaf : ¬ isLeaf n = true)
    (hl : leftChild n = some l) (hr : rightDescendant n len = some r) :
    postNodesR len n = postNodesR len l ++ postNodesR len r ++ [n] := by
  have h3 := levelOf_of_leftChild hl
  have h4 := levelOf_rightDescendant hr
  rw [postNodesR, postNodesRAux, if_neg hleaf]
  simp only [hl, hr]
  rw [postNodesR, postNodesR,
    postNodesRAux_congr (levelOf n) (levelOf l + 1) len l (by omega) (by omega),
    postNodesRAux_congr (levelOf n) (levelOf r + 1) len r (by omega) (by omega)]

theorem po_run {len : Nat} (hodd : len % 2 = 1) :
    ∀ lvl n, levelOf n ≤ lvl → n < len → levelOf n ≤ 63 →
    ∀ fuel,
      runIter poNext ((postNodesR len n).length + fuel) ⟨len, n, .parent⟩ =
        (postNodesR len n ++ (runIter poNext fuel (goUp ⟨len, n, .parent⟩)).1,
         (runIter poNext fuel (goUp ⟨len, n, .parent⟩)).2) := by
  intro lvl
  induction lvl using Nat.strong_induction_on with
  | _ lvl ih =>
    intro n hlvl hn h63 fuel
    by_cases hleaf : isLeaf n = true
    · have hlc : leftChild n = none := leftChild_leaf (by simpa [isLeaf] using hleaf)
      rw [postNodesR_leaf hleaf]
      show runIter poNext (1 + fuel) _ = _
      rw [show 1 + fuel = fuel + 1 by omega, runIter, poNext_parent_leaf hlc]
      rfl
    · have hV : n + 1 < len := by
        rcases valid_of_lt_odd hodd hn with h | h
        · exact absurd h hleaf
        · exact h
      have hlev1 : 1 ≤ levelOf n := by
        rcases Nat.eq_zero_or_pos (levelOf n) with h0 | h
        · exact absurd (by simp [isLeaf, h0]) hleaf
        · exact h
      obtain ⟨r, hrd, hrstart, hrlt, hrlev, hrend⟩ := rightDescendant_spec hlev1 hV
      obtain ⟨l, hlc⟩ : ∃ l, leftChild n = some l := by
        rw [leftChild, if_neg (by omega)]
        exact ⟨_, rfl⟩
      have hlevl := levelOf_of_leftChild hlc
      have hln : l < n := by
        rw [leftChild, if_neg (by omega)] at hlc
        injection hlc with hlc
        have h1 : 1 ≤ 2 ^ (levelOf n - 1) := Nat.one_le_two_pow
        have hnge : 2 ^ levelOf n - 1 ≤ n := by
          obtain ⟨p, hp⟩ := nodeAt_levelOf n
          conv_rhs => rw [hp]
          rw [nodeAt]
          omega
        have h2 : 2 ^ levelOf n = 2 * 2 ^ (levelOf n - 1) := by
          rcases Nat.exists_eq_add_of_le hlev1 with ⟨k, hk⟩
          rw [show levelOf n = k + 1 by omega]
          simp [Nat.pow_succ]
          ring
        omega
      have hnr : n < r := by
        have h1 : 1 ≤ 2 ^ levelOf r := Nat.one_le_two_pow
        have hsr : blockRangeStart r ≤ r := by
          rw [blockRangeStart]
          omega
        rw [hrstart, midBlock] at hsr
        omega
      rw [postNodesR_internal hleaf hlc hrd]
      have hgol : goUp ⟨len, l, .parent⟩ = ⟨len, n, .left⟩ := by
        rw [goUp]
        simp only [restrictedParent_leftChild hlc hn h63]
        simp [hln]
      have hgor : goUp ⟨len, r, .parent⟩ = ⟨len, n, .right⟩ := by
        rw [goUp]
        simp only [restrictedParent_rightDescendant hrd hn h63]
        simp [Nat.lt_asymm hnr]
      have e0 : (postNodesR len l ++ postNodesR len r ++ [n]).length + fuel =
          (postNodesR len l).length + ((postNodesR len r).length + (1 + fuel)) := by
        simp [List.length_append]
        omega
      rw [e0, runIter_congr poNext (poNext_parent_desc hlc) _]
      rw [ih (levelOf l) (by omega) l le_rfl (by omega) (by omega) _]
      rw [hgol, runIter_congr poNext (poNext_left_desc hrd) _]
      rw [ih (levelOf r) (by omega) r le_rfl (by omega) (by omega) _]
      rw [hgor]
      rw [show 1 + fuel = fuel + 1 by omega, runIter, poNext_right]
      simp only [goUp_prev Prev.right Prev.parent]
      simp [List.append_assoc]

theorem rootNode_nodeAt {t : BaoTree} (h0 : startBlock t = 0) :
    rootNode t = nodeAt (ceilLog2 (leafCount t)) 0 := by
  rw [rootNode, h0, nodeAt]
  omega

theorem levelOf_rootNode {t : BaoTree} (h0 : startBlock t = 0) :
    levelOf (rootNode t) = ceilLog2 (leafCount t) := by
  rw [rootNode_nodeAt h0, levelOf_nodeAt]

theorem rootNode_lt_filledSize {t : BaoTree} (h0 : startBlock t = 0) :
    rootNode t < filledSize t := by
  have hlc := leafCount_pos t
  rw [rootNode, filledSize, h0, ceilLog2_eq_clog]
  rcases Nat.lt_or_ge (leafCount t) 2 with hL | hL
  · have h1 : leafCount t = 1 := by omega
    rw [h1]
    simp [Nat.clog_one_right]
  · have hlow : 2 ^ (Nat.clog 2 (leafCount t) - 1) < leafCount t :=
      Nat.pow_pred_clog_lt_self (by norm_num) hL
    have hpos : 0 < Nat.clog 2 (leafCount t) := Nat.clog_pos (by norm_num) hL
    have hsplit : 2 ^ Nat.clog 2 (leafCount t) =
        2 * 2 ^ (Nat.clog 2 (leafCount t) - 1) := by
      rcases Nat.exists_eq_add_of_lt hpos with ⟨k, hk⟩
      have hck : Nat.clog 2 (leafCount t) = k + 1 := by omega
      rw [hck]
      simp [Nat.pow_succ]
      ring
    have h1 : 1 ≤ 2 ^ Nat.clog 2 (leafCount t) := Nat.one_le_two_pow
    omega

theorem restrictedParent_root_none {t : BaoTree} (h0 : startBlock t = 0) :
    restrictedParent (rootNode t) (filledSize t) = none := by
  have hle : leafCount t ≤ 2 ^ ceilLog2 (leafCount t) := by
    rw [ceilLog2_eq_clog]
    exact Nat.le_pow_clog (by norm_num) _
  rw [rootNode_nodeAt h0, restrictedParent]
  refine restrictedParentAux_none 64 (ceilLog2 (leafCount t)) (by omega) ?_
  intro k hk
  rw [nodeAt, filledSize, h0]
  have h2 : 2 ^ (ceilLog2 (leafCount t) + 1) ≤ 2 ^ k := Nat.pow_le_pow_right (by omega) (by omega)
  have h3 : 2 ^ (ceilLog2 (leafCount t) + 1) = 2 * 2 ^ ceilLog2 (leafCount t) := by ring
  have h4 : 1 ≤ 2 ^ ceilLog2 (leafCount t) := Nat.one_le_two_pow
  omega

/-- The post-order node iterator emits exactly the recursive post-order
traversal of the root, and terminates. -/
theorem postOrderNodes_eq {t : BaoTree} (h0 : startBlock t = 0)
    (h63 : ceilLog2 (leafCount t) ≤ 63) :
    postOrderNodes t = postNodesR (filledSize t) (rootNode t) := by
  have hodd := filledSize_odd h0
  have hlt := rootNode_lt_filledSize h0
  have hlev : levelOf (rootNode t) ≤ 63 := by
    rw [levelOf_rootNode h0]
    exact h63
  rw [postOrderNodes, poFuel, PostOrderNodeIter.new]
  rw [po_run hodd (levelOf (rootNode t)) (rootNode t) le_rfl hlt hlev 1]
  have hgo : goUp ⟨filledSize t, rootNode t, .parent⟩ =
      ⟨filledSize t, rootNode t, .done⟩ := by
    rw [goUp]
    simp only [restrictedParent_root_none h0]
  rw [hgo, runIter, poNext_done]
  simp

/-! ### Adequacy of the pre-order machine -/

theorem runIter_yield {σ ι : Type} (next : σ → Step ι σ) {s s' : σ} {i : ι}
    (h : next s = .yield i s') (fuel : Nat) :
    runIter next (fuel + 1) s =
      (i :: (runIter next fuel s').1, (runIter next fuel s').2) := by
  rw [runIter, h]

theorem preNodesRAux_congr (tree : BaoTree) (tfs msl : Nat) :
    ∀ f1 f2 n rn isR, levelOf n < f1 → levelOf n < f2 →
    preNodesRAux tree tfs msl f1 n rn isR = preNodesRAux tree tfs msl f2 n rn isR := by
  intro f1
  induction f1 with
  | zero =>
    intro f2 n rn isR h1
    omega
  | succ f1 ih =>
    intro f2 n rn isR h1 h2
    rcases f2 with _ | f2
    · omega
    · rw [preNodesRAux, preNodesRAux]
      by_cases hemp : rsIsEmpty rn
      · rw [if_pos hemp, if_pos hemp]
      · rw [if_neg hemp, if_neg hemp]
        simp only
        by_cases hql : (isLeaf n ||
            (rsFull rn (toChunks (blockRangeStart n) tree.block_size) &&
              decide (levelOf n ≤ msl))) = true
        · rw [if_pos hql, if_pos hql]
        · rw [if_neg hql, if_neg hql]
          rcases hlc : leftChild n with _ | l
          · rfl
          · rcases hrd : rightDescendant n tfs with _ | r
            · rfl
            · have h3 := levelOf_of_leftChild hlc
              have h4 := levelOf_rightDescendant hrd
              simp only
              rw [ih f2 l _ false (by omega) (by omega),
                ih f2 r _ false (by omega) (by omega)]

theorem preNodesR_empty {tree : BaoTree} {tfs msl n : Nat} {rn : ChunkRangesRef}
    {isR : Bool} (hemp : rsIsEmpty rn = true) :
    preNodesR tree tfs msl n rn isR = [] := by
  rw [preNodesR, preNodesRAux, if_pos hemp]

theorem preNodesR_query {tree : BaoTree} {tfs msl n : Nat} {rn : ChunkRangesRef}
    {isR : Bool} (hemp : ¬ rsIsEmpty rn = true)
    (hql : (isLeaf n || (rsFull rn (toChunks (blockRangeStart n) tree.block_size) &&
      decide (levelOf n ≤ msl))) = true) :
    preNodesR tree tfs msl n rn isR =
      [{ node := n, ranges := rn,
         l_ranges := (rsSplit (toChunks (midBlock n) tree.block_size) rn).1,
         r_ranges := (rsSplit (toChunks (midBlock n) tree.block_size) rn).2,
         full := rsFull rn (toChunks (blockRangeStart n) tree.block_size),
         query_leaf := isLeaf n ||
           (rsFull rn (toChunks (blockRangeStart n) tree.block_size) &&
             decide (levelOf n ≤ msl)),
         is_root := isR, is_half_leaf := !isPersisted tree n }] := by
  rw [preNodesR, preNodesRAux, if_neg hemp]
  simp only
  rw [if_pos hql]

theorem preNodesR_internal {tree : BaoTree} {tfs msl n l r : Nat}
    {rn : ChunkRangesRef} {isR : Bool} (hemp : ¬ rsIsEmpty rn = true)
    (hql : ¬ (isLeaf n || (rsFull rn (toChunks (blockRangeStart n) tree.block_size) &&
      decide (levelOf n ≤ msl))) = true)
    (hlc : leftChild n = some l) (hrd : rightDescendant n tfs = some r) :
    preNodesR tree tfs msl n rn isR =
      { node := n, ranges := rn,
        l_ranges := (rsSplit (toChunks (midBlock n) tree.block_size) rn).1,
        r_ranges := (rsSplit (toChunks (midBlock n) tree.block_size) rn).2,
        full := rsFull rn (toChunks (blockRangeStart n) tree.block_size),
        query_leaf := isLeaf n ||
          (rsFull rn (toChunks (blockRangeStart n) tree.block_size) &&
            decide (levelOf n ≤ msl)),
        is_root := isR, is_half_leaf := !isPersisted tree n } ::
      (preNodesR tree tfs msl l
          (rsSplit (toChunks (midBlock n) tree.block_size) rn).1 false ++
        preNodesR tree tfs msl r
          (rsSplit (toChunks (midBlock n) tree.block_size) rn).2 false) := by
  have h3 := levelOf_of_leftChild hlc
  have h4 := levelOf_rightDescendant hrd
  rw [preNodesR, preNodesRAux, if_neg hemp]
  simp only
  rw [if_neg hql]
  simp only [hlc, hrd]
  rw [preNodesR, preNodesR,
    preNodesRAux_congr tree tfs msl (levelOf n) (levelOf l + 1) l _ false (by omega)
      (by omega),
    preNodesRAux_congr tree tfs msl (levelOf n) (levelOf r + 1) r _ false (by omega)
      (by omega)]

theorem pre_run (tree : BaoTree) (tfs msl : Nat) (hodd : tfs % 2 = 1) :
    ∀ lvl n, levelOf n ≤ lvl → (isLeaf n = true ∨ n + 1 < tfs) →
    ∀ rn isR rest fuel,
      runIter pNext ((preNodesR tree tfs msl n rn isR).length + fuel)
        ⟨tree, tfs, msl, isR, (n, rn) :: rest⟩ =
      (preNodesR tree tfs msl n rn isR ++
        (runIter pNext fuel
          ⟨tree, tfs, msl, (if rsIsEmpty rn then isR else false), rest⟩).1,
       (runIter pNext fuel
          ⟨tree, tfs, msl, (if rsIsEmpty rn then isR else false), rest⟩).2) := by
  intro lvl
  induction lvl using Nat.strong_induction_on with
  | _ lvl ih =>
    intro n hlvl hval rn isR rest fuel
    by_cases hemp : rsIsEmpty rn
    · have hstep : pNext ⟨tree, tfs, msl, isR, (n, rn) :: rest⟩ =
          pNext ⟨tree, tfs, msl, isR, rest⟩ := by
        show pNextAux tree tfs msl isR ((n, rn) :: rest) = _
        rw [pNextAux, if_pos hemp]
        rfl
      rw [preNodesR_empty hemp, if_pos hemp]
      simp only [List.length_nil, Nat.zero_add, List.nil_append]
      rw [runIter_congr pNext hstep fuel]
    · by_cases hql : (isLeaf n ||
          (rsFull rn (toChunks (blockRangeStart n) tree.block_size) &&
            decide (levelOf n ≤ msl))) = true
      · rw [preNodesR_query hemp hql, if_neg hemp]
        have hstep : pNext ⟨tree, tfs, msl, isR, (n, rn) :: rest⟩ =
            .yield
              { node := n, ranges := rn,
                l_ranges := (rsSplit (toChunks (midBlock n) tree.block_size) rn).1,
                r_ranges := (rsSplit (toChunks (midBlock n) tree.block_size) rn).2,
                full := rsFull rn (toChunks (blockRangeStart n) tree.block_size),
                query_leaf := isLeaf n ||
                  (rsFull rn (toChunks (blockRangeStart n) tree.block_size) &&
                    decide (levelOf n ≤ msl)),
                is_root := isR, is_half_leaf := !isPersisted tree n }
              ⟨tree, tfs, msl, false, rest⟩ := by
          show pNextAux tree tfs msl isR ((n, rn) :: rest) = _
          rw [pNextAux, if_neg hemp]
          simp only
          rw [if_pos hql]
        show runIter pNext (1 + fuel) _ = _
        rw [show 1 + fuel = fuel + 1 by omega, runIter, hstep]
        rfl
      · have hleaf : isLeaf n = false := by
          cases h : isLeaf n with
          | false => rfl
          | true => exact absurd (by rw [h]; simp) hql
        have hV : n + 1 < tfs := by
          rcases hval with h | h
          · rw [h] at hleaf
            exact absurd hleaf (by simp)
          · exact h
        have hlev1 : 1 ≤ levelOf n := by
          rcases Nat.eq_zero_or_pos (levelOf n) with hz | h
          · have : isLeaf n = true := by
              simp [isLeaf, hz]
            rw [this] at hleaf
            exact absurd hleaf (by simp)
          · exact h
        obtain ⟨r, hrd, hrstart, hrlt, hrlev, hrend⟩ := rightDescendant_spec hlev1 hV
        obtain ⟨l, hlc⟩ : ∃ l, leftChild n = some l := by
          rw [leftChild, if_neg (by omega)]
          exact ⟨_, rfl⟩
        have hlevl := levelOf_of_leftChild hlc
        have hln : l < n := by
          rw [leftChild, if_neg (by omega)] at hlc
          injection hlc with hlc
          have h1 : 1 ≤ 2 ^ (levelOf n - 1) := Nat.one_le_two_pow
          have hnge : 2 ^ levelOf n - 1 ≤ n := by
            obtain ⟨p, hp⟩ := nodeAt_levelOf n
            conv_rhs => rw [hp]
            rw [nodeAt]
            omega
          have h2 : 2 ^ levelOf n = 2 * 2 ^ (levelOf n - 1) := by
            rcases Nat.exists_eq_add_of_le hlev1 with ⟨k, hk⟩
            rw [show levelOf n = k + 1 by omega]
            simp [Nat.pow_succ]
            ring
          omega
        have hvl : isLeaf l = true ∨ l + 1 < tfs := valid_of_lt_odd hodd (by omega)
        have hvr : isLeaf r = true ∨ r + 1 < tfs := valid_of_lt_odd hodd hrlt
        rw [preNodesR_internal hemp hql hlc hrd, if_neg hemp]
        have hstep : pNext ⟨tree, tfs, msl, isR, (n, rn) :: rest⟩ =
            .yield
              { node := n, ranges := rn,
                l_ranges := (rsSplit (toChunks (midBlock n) tree.block_size) rn).1,
                r_ranges := (rsSplit (toChunks (midBlock n) tree.block_size) rn).2,
                full := rsFull rn (toChunks (blockRangeStart n) tree.block_size),
                query_leaf := isLeaf n ||
                  (rsFull rn (toChunks (blockRangeStart n) tree.block_size) &&
                    decide (levelOf n ≤ msl)),
                is_root := isR, is_half_leaf := !isPersisted tree n }
              ⟨tree, tfs, msl, false,
                (l, (rsSplit (toChunks (midBlock n) tree.block_size) rn).1) ::
                (r, (rsSplit (toChunks (midBlock n) tree.block_size) rn).2) :: rest⟩ := by
          show pNextAux tree tfs msl isR ((n, rn) :: rest) = _
          rw [pNextAux, if_neg hemp]
          simp only
          rw [if_neg hql]
          simp only [hlc, hrd]
        rw [List.length_cons,
          show (preNodesR tree tfs msl l
              (rsSplit (toChunks (midBlock n) tree.block_size) rn).1 false ++
            preNodesR tree tfs msl r
              (rsSplit (toChunks (midBlock n) tree.block_size) rn).2 false).length + 1 + fuel =
            ((preNodesR tree tfs msl l
                (rsSplit (toChunks (midBlock n) tree.block_size) rn).1 false).length +
              ((preNodesR tree tfs msl r
                  (rsSplit (toChunks (midBlock n) tree.block_size) rn).2 false).length +
                fuel)) + 1 by simp [List.length_append]; omega,
          runIter_yield pNext hstep]
        have ihl := ih (levelOf l) (by omega) l le_rfl hvl
          (rsSplit (toChunks (midBlock n) tree.block_size) rn).1 false
          ((r, (rsSplit (toChunks (midBlock n) tree.block_size) rn).2) :: rest)
          ((preNodesR tree tfs msl r
              (rsSplit (toChunks (midBlock n) tree.block_size) rn).2 false).length + fuel)
        rw [ite_self] at ihl
        have ihr := ih (levelOf r) (by omega) r le_rfl hvr
          (rsSplit (toChunks (midBlock n) tree.block_size) rn).2 false rest fuel
        rw [ite_self] at ihr
        rw [ihl, ihr]
        simp [List.append_assoc]

/-- The pre-order partial iterator emits exactly the recursive pre-order
traversal of the root, and terminates. -/
theorem preOrderNodes_eq_of {t : BaoTree} (hodd : filledSize t % 2 = 1)
    (hval : isLeaf (rootNode t) = true ∨ rootNode t + 1 < filledSize t)
    (ranges : ChunkRangesRef) (msl : Nat) :
    preOrderNodes t ranges msl =
      preNodesR t (filledSize t) msl (rootNode t) ranges t.is_root := by
  rw [preOrderNodes, pFuel, PreOrderPartialIterRef.new]
  simp only [List.foldr_cons, List.foldr_nil]
  have hlen : (preNodesR t (filledSize t) msl (rootNode t) ranges true).length =
      (preNodesR t (filledSize t) msl (rootNode t) ranges t.is_root).length := by
    rcases hb : t.is_root
    · rcases hemp : rsIsEmpty ranges
      · by_cases hql : (isLeaf (rootNode t) ||
            (rsFull ranges (toChunks (blockRangeStart (rootNode t)) t.block_size) &&
              decide (levelOf (rootNode t) ≤ msl))) = true
        · rw [preNodesR_query (by simp [hemp]) hql, preNodesR_query (by simp [hemp]) hql]
          rfl
        · have hleaf : isLeaf (rootNode t) = false := by
            cases h : isLeaf (rootNode t) with
            | false => rfl
            | true => exact absurd (by rw [h]; simp) hql
          have hV : rootNode t + 1 < filledSize t := by
            rcases hval with h | h
            · rw [h] at hleaf
              exact absurd hleaf (by simp)
            · exact h
          have hlev1 : 1 ≤ levelOf (rootNode t) := by
            rcases Nat.eq_zero_or_pos (levelOf (rootNode t)) with hz | h
            · have : isLeaf (rootNode t) = true := by
                simp [isLeaf, hz]
              rw [this] at hleaf
              exact absurd hleaf (by simp)
            · exact h
          obtain ⟨r, hrd, _, _, _, _⟩ := rightDescendant_spec hlev1 hV
          obtain ⟨l, hlc⟩ : ∃ l, leftChild (rootNode t) = some l := by
            rw [leftChild, if_neg (by omega)]
            exact ⟨_, rfl⟩
          rw [preNodesR_internal (by simp [hemp]) hql hlc hrd,
            preNodesR_internal (by simp [hemp]) hql hlc hrd]
          simp
      · rw [preNodesR_empty (by simp [hemp]), preNodesR_empty (by simp [hemp])]
    · rfl
  rw [hlen, pre_run t (filledSize t) msl hodd (levelOf (rootNode t)) (rootNode t)
    le_rfl hval ranges t.is_root [] 1]
  have hdone : pNext ⟨t, filledSize t, msl,
      (if rsIsEmpty ranges then t.is_root else false), []⟩ = .done := by
    show pNextAux t (filledSize t) msl _ [] = _
    rw [pNextAux]
  rw [runIter, hdone]
  simp

/-- The pre-order partial iterator emits exactly the recursive pre-order
traversal of the root, and terminates. -/
theorem preOrderNodes_eq {t : BaoTree} (h0 : startBlock t = 0)
    (ranges : ChunkRangesRef) (msl : Nat) :
    preOrderNodes t ranges msl =
      preNodesR t (filledSize t) msl (rootNode t) ranges t.is_root :=
  preOrderNodes_eq_of (filledSize_odd h0) (rootNode_valid h0) ranges msl

/-! ### Root-node facts for trees with an aligned nonzero start

`ResponseIterRef` expands a partially-requested chunk group through a
little tree of block size 0 whose `start_chunk` is the group's absolute
start chunk, a multiple of `2^block_size`.  The root-node facts proved
above for start-zero trees hold for any tree whose start block is
suitably aligned. -/

theorem filledSize_odd_of_even {t : BaoTree} (h2 : startBlock t % 2 = 0) :
    filledSize t % 2 = 1 := by
  rw [filledSize]
  have := leafCount_pos t
  omega

theorem rootNode_valid_of_even {t : BaoTree} (h2 : startBlock t % 2 = 0) :
    isLeaf (rootNode t) = true ∨ rootNode t + 1 < filledSize t := by
  rcases Nat.lt_or_ge (leafCount t) 2 with hL | hL
  · left
    have h1 := leafCount_pos t
    have hL1 : leafCount t = 1 := by omega
    have he : rootNode t = startBlock t := by
      rw [rootNode, hL1, ceilLog2_eq_clog, Nat.clog_one_right]
      simp
    rw [he]
    simp [isLeaf, levelOf_even h2]
  · right
    rw [rootNode, filledSize, ceilLog2_eq_clog]
    have hlow : 2 ^ (Nat.clog 2 (leafCount t) - 1) < leafCount t :=
      Nat.pow_pred_clog_lt_self (by norm_num) hL
    have hpos : 0 < Nat.clog 2 (leafCount t) := Nat.clog_pos (by norm_num) hL
    have hsplit : 2 ^ Nat.clog 2 (leafCount t) =
        2 * 2 ^ (Nat.clog 2 (leafCount t) - 1) := by
      rcases Nat.exists_eq_add_of_lt hpos with ⟨k, hk⟩
      have hck : Nat.clog 2 (leafCount t) = k + 1 := by omega
      rw [hck]
      simp [Nat.pow_succ]
      ring
    have h1 : 1 ≤ 2 ^ Nat.clog 2 (leafCount t) := Nat.one_le_two_pow
    omega

theorem rootNode_lt_filledSize_any (t : BaoTree) :
    rootNode t < filledSize t := by
  have hlc := leafCount_pos t
  rw [rootNode, filledSize, ceilLog2_eq_clog]
  rcases Nat.lt_or_ge (leafCount t) 2 with hL | hL
  · have h1 : leafCount t = 1 := by omega
    rw [h1]
    simp [Nat.clog_one_right]
  · have hlow : 2 ^ (Nat.clog 2 (leafCount t) - 1) < leafCount t :=
      Nat.pow_pred_clog_lt_self (by norm_num) hL
    have hpos : 0 < Nat.clog 2 (leafCount t) := Nat.clog_pos (by norm_num) hL
    have hsplit : 2 ^ Nat.clog 2 (leafCount t) =
        2 * 2 ^ (Nat.clog 2 (leafCount t) - 1) := by
      rcases Nat.exists_eq_add_of_lt hpos with ⟨k, hk⟩
      have hck : Nat.clog 2 (leafCount t) = k + 1 := by omega
      rw [hck]
      simp [Nat.pow_succ]
      ring
    have h1 : 1 ≤ 2 ^ Nat.clog 2 (leafCount t) := Nat.one_le_two_pow
    omega

theorem levelOf_rootNode_of_dvd {t : BaoTree}
    (hdvd : 2 ^ (ceilLog2 (leafCount t) + 1) ∣ startBlock t) :
    levelOf (rootNode t) = ceilLog2 (leafCount t) := by
  obtain ⟨q, hq⟩ := hdvd
  have h1 : 1 ≤ 2 ^ ceilLog2 (leafCount t) := Nat.one_le_two_pow
  have he : rootNode t = nodeAt (ceilLog2 (leafCount t)) q := by
    rw [rootNode, nodeAt, hq, Nat.mul_comm]
    omega
  rw [he, levelOf_nodeAt]

/-! ### The reference subtree hash, unfolded -/

theorem sHashAux_congr (t : BaoTree) (blob : List Nat) :
    ∀ f1 f2 n isR, levelOf n < f1 → levelOf n < f2 →
    sHashAux t blob f1 n isR = sHashAux t blob f2 n isR := by
  intro f1
  induction f1 with
  | zero =>
    intro f2 n isR h1
    omega
  | succ f1 ih =>
    intro f2 n isR h1 h2
    rcases f2 with _ | f2
    · omega
    · rw [sHashAux, sHashAux]
      by_cases hleaf : isLeaf n
      · rw [if_pos hleaf, if_pos hleaf]
      · rw [if_neg hleaf, if_neg hleaf]
        rcases hlc : leftChild n with _ | l
        · rfl
        · rcases hrd : rightDescendant n (filledSize t) with _ | r
          · rfl
          · have h3 := levelOf_of_leftChild hlc
            have h4 := levelOf_rightDescendant hrd
            simp only
            rw [ih f2 l false (by omega) (by omega), ih f2 r false (by omega) (by omega)]

theorem sHash_leaf_half {t : BaoTree} {blob : List Nat} {n : Nat} (isR : Bool)
    (hleaf : isLeaf n = true)
    (hhalf : (leafByteRanges3 t n).2.1 = (leafByteRanges3 t n).2.2) :
    sHash t blob n isR =
      hashSubtree (chunkNum t n)
        (slice blob (leafByteRanges3 t n).1 (leafByteRanges3 t n).2.1) isR := by
  rw [sHash, sHashAux, if_pos hleaf]
  simp only [hhalf, if_true, eq_self_iff_true]

theorem sHash_leaf_full {t : BaoTree} {blob : List Nat} {n : Nat} (isR : Bool)
    (hleaf : isLeaf n = true)
    (hhalf : ¬ (leafByteRanges3 t n).2.1 = (leafByteRanges3 t n).2.2) :
    sHash t blob n isR =
      .parentCV
        (hashSubtree (chunkNum t n)
          (slice blob (leafByteRanges3 t n).1 (leafByteRanges3 t n).2.1) false)
        (hashSubtree (chunkNum t n + chunkGroupChunks t)
          (slice blob (leafByteRanges3 t n).2.1 (leafByteRanges3 t n).2.2) false)
        isR := by
  rw [sHash, sHashAux, if_pos hleaf]
  simp only [if_neg hhalf]

theorem sHash_internal {t : BaoTree} {blob : List Nat} {n l r : Nat} (isR : Bool)
    (hleaf : ¬ isLeaf n = true) (hl : leftChild n = some l)
    (hr : rightDescendant n (filledSize t) = some r) :
    sHash t blob n isR = .parentCV (sHash t blob l false) (sHash t blob r false) isR := by
  have h3 := levelOf_of_leftChild hl
  have h4 := levelOf_rightDescendant hr
  rw [sHash, sHashAux, if_neg hleaf]
  simp only [hl, hr]
  rw [sHash, sHash,
    sHashAux_congr t blob (levelOf n) (levelOf l + 1) l false (by omega) (by omega),
    sHashAux_congr t blob (levelOf n) (levelOf r + 1) r false (by omega) (by omega)]

/-! ### Block ranges of the children -/

theorem blockRangeStart_leftChild {n c : Nat} (h : leftChild n = some c) :
    blockRangeStart c = blockRangeStart n := by
  obtain ⟨p, hp⟩ := nodeAt_levelOf n
  rcases hl : levelOf n with _ | l
  · rw [leftChild_leaf hl] at h
    exact absurd h (by simp)
  · rw [hl] at hp
    rw [hp, leftChild_nodeAt] at h
    injection h with h
    rw [← h, hp, nodeAt_blockRangeStart, nodeAt_blockRangeStart]
    ring

theorem blockRangeEnd_leftChild {n c : Nat} (h : leftChild n = some c) :
    blockRangeEnd c = midBlock n := by
  obtain ⟨p, hp⟩ := nodeAt_levelOf n
  rcases hl : levelOf n with _ | l
  · rw [leftChild_leaf hl] at h
    exact absurd h (by simp)
  · rw [hl] at hp
    rw [hp, leftChild_nodeAt] at h
    injection h with h
    rw [← h, hp, nodeAt_blockRangeEnd, nodeAt_mid]
    ring

theorem blockRangeEnd_sub_start {n : Nat} :
    blockRangeEnd n = blockRangeStart n + 2 ^ (levelOf n + 1) := by
  have h1 : 1 ≤ 2 ^ levelOf n := Nat.one_le_two_pow
  have hge : 2 ^ levelOf n - 1 ≤ n := by
    obtain ⟨p, hp⟩ := nodeAt_levelOf n
    conv_rhs => rw [hp]
    rw [nodeAt]
    omega
  rw [blockRangeEnd, blockRangeStart]
  have e1 : 2 ^ (levelOf n + 1) = 2 * 2 ^ levelOf n := by ring
  omega

theorem drop_min_take (data : List Nat) (a k : Nat) :
    (data.drop (min a data.length)).take k = (data.drop a).take k := by
  rcases Nat.lt_or_ge data.length a with h | h
  · rw [min_eq_right (by omega), List.drop_length, List.drop_eq_nil_of_le (by omega)]
  · rw [min_eq_left h]

/-! ### The builder fold over a subtree -/

theorem except_bind_ok {ε α β : Type} (a : α) (f : α → Except ε β) :
    (Except.ok a : Except ε α) >>= f = f a := rfl

theorem build_run (t : BaoTree) (data : List Nat) (hsc : t.start_chunk = 0)
    (hsz : data.length = t.size) :
    ∀ lvl n, levelOf n ≤ lvl → n < filledSize t → levelOf n ≤ 63 →
      levelOf n ≤ levelOf (rootNode t) →
      ∀ (stack : List Hash) (w : ByteStream),
      ∃ wOut,
      List.foldlM (buildStep data)
          (min (blockRangeStart n * blockBytes t) t.size, stack, w)
          ((postNodesR (filledSize t) n).flatMap (postChunkItemsOf t (rootNode t))) =
        .ok (min (blockRangeEnd n * blockBytes t) t.size,
          sHash t data n (decide (n = rootNode t)) :: stack, w ++ wOut) := by
  have h0 : startBlock t = 0 := by
    rw [startBlock, hsc]
    simp
  have hodd := filledSize_odd h0
  have hbase : baseByte t = 0 := by
    rw [baseByte, hsc]
  have hbb : 1 ≤ blockBytes t := by
    rw [blockBytes]
    have h2 : 1 ≤ 2 ^ t.block_size := Nat.one_le_two_pow
    omega
  have hblocks : t.size ≤ blocksOf t * blockBytes t := by
    rw [blocksOf]
    rcases Nat.eq_zero_or_pos t.size with h | h
    · omega
    · have hq : t.size ≤ (t.size + blockBytes t - 1) / blockBytes t * blockBytes t := by
        by_contra hcon
        push_neg at hcon
        have h6 : t.size + blockBytes t - 1 <
            ((t.size + blockBytes t - 1) / blockBytes t + 1) * blockBytes t := by
          rw [← Nat.div_lt_iff_lt_mul (show 0 < blockBytes t by omega)]
          omega
        have h7 : ((t.size + blockBytes t - 1) / blockBytes t + 1) * blockBytes t =
            (t.size + blockBytes t - 1) / blockBytes t * blockBytes t + blockBytes t := by
          ring
        omega
      have h4 : max ((t.size + blockBytes t - 1) / blockBytes t) 1 * blockBytes t ≥
          (t.size + blockBytes t - 1) / blockBytes t * blockBytes t :=
        Nat.mul_le_mul (le_max_left _ _) (Nat.le_refl _)
      omega
  have hfs : filledSize t = 2 * leafCount t - 1 := by
    rw [filledSize, h0]
    omega
  have hblk2 : blocksOf t ≤ 2 * leafCount t := by
    rw [leafCount]
    omega
  intro lvl
  induction lvl using Nat.strong_induction_on with
  | _ lvl ih =>
    intro n hlvl hn h63 hroot stack w
    by_cases hleaf : isLeaf n = true
    · rw [postNodesR_leaf hleaf]
      have hl0 : levelOf n = 0 := by
        simpa [isLeaf] using hleaf
      have hbrs : blockRangeStart n = n := blockRangeStart_leaf hl0
      have hbre : blockRangeEnd n = n + 2 := by
        rw [blockRangeEnd, hl0]
        norm_num
      have hiso : isPersisted t n =
          (!(isLeaf n) || decide ((leafByteRanges3 t n).2.1 < (leafByteRanges3 t n).2.2)) := rfl
      have hsme1 : (leafByteRanges3 t n).1 = n * blockBytes t := rfl
      have hsme2 : (leafByteRanges3 t n).2.1 = min ((n + 1) * blockBytes t) t.size := by
        rw [leafByteRanges3]
        simp [hbase]
      have hsme3 : (leafByteRanges3 t n).2.2 = min ((n + 2) * blockBytes t) t.size := by
        rw [leafByteRanges3]
        simp [hbase]
      have hnb1 : n * blockBytes t ≤ (n + 1) * blockBytes t :=
        Nat.mul_le_mul (by omega) (Nat.le_refl _)
      have hnb2 : (n + 1) * blockBytes t ≤ (n + 2) * blockBytes t :=
        Nat.mul_le_mul (by omega) (Nat.le_refl _)
      rw [List.flatMap_cons, List.flatMap_nil, List.append_nil]
      rw [postChunkItemsOf]
      simp only [hleaf, if_true]
      by_cases hhalf : (leafByteRanges3 t n).2.1 = (leafByteRanges3 t n).2.2
      · have hpers : isPersisted t n = false := by
          rw [hiso, hleaf, hhalf]
          simp
        refine ⟨[], ?_⟩
        simp only [hpers, hhalf, decide_True, Bool.and_true, Bool.not_true,
          Bool.false_eq_true, if_false, List.append_nil, List.foldlM_cons,
          List.foldlM_nil, buildStep]
        have hcond : min (blockRangeStart n * blockBytes t) t.size +
            ((leafByteRanges3 t n).2.2 - (leafByteRanges3 t n).1) ≤ data.length := by
          rw [hsz, hbrs, hsme1, ← hhalf, hsme2]
          omega
        rw [if_pos hcond]
        have hbytes : (data.drop (min (blockRangeStart n * blockBytes t) t.size)).take
            ((leafByteRanges3 t n).2.2 - (leafByteRanges3 t n).1) =
            slice data (leafByteRanges3 t n).1 (leafByteRanges3 t n).2.2 := by
          rw [slice, hsme1, hbrs, ← hsz, drop_min_take]
        have hpos : min (blockRangeStart n * blockBytes t) t.size +
            ((leafByteRanges3 t n).2.2 - (leafByteRanges3 t n).1) =
            min (blockRangeEnd n * blockBytes t) t.size := by
          rw [hbrs, hbre, hsme1, ← hsme3, ← hhalf, hsme2]
          omega
        rw [hbytes, hpos, sHash_leaf_half (decide (n = rootNode t)) hleaf hhalf]
        rw [hhalf]
        rfl
      · have hmle : (leafByteRanges3 t n).2.1 ≤ (leafByteRanges3 t n).2.2 := by
          rw [hsme2, hsme3]
          omega
        have hpers : isPersisted t n = true := by
          rw [hiso, hleaf]
          simp
          omega
        refine ⟨[Sym.hsh (hashSubtree (chunkNum t n)
            (slice data (leafByteRanges3 t n).1 (leafByteRanges3 t n).2.1) false),
          Sym.hsh (hashSubtree (chunkNum t n + chunkGroupChunks t)
            (slice data (leafByteRanges3 t n).2.1 (leafByteRanges3 t n).2.2) false)], ?_⟩
        have hhalfb : decide ((leafByteRanges3 t n).2.1 = (leafByteRanges3 t n).2.2) = false := by
          simp [hhalf]
        simp only [hpers, if_true, hhalfb, Bool.and_false, Bool.not_false,
          List.append_nil, List.nil_append, List.singleton_append, List.cons_append,
          List.foldlM_cons, List.foldlM_nil, buildStep]
        have hcond1 : min (blockRangeStart n * blockBytes t) t.size +
            ((leafByteRanges3 t n).2.1 - (leafByteRanges3 t n).1) ≤ data.length := by
          rw [hsz, hbrs, hsme1, hsme2]
          omega
        rw [if_pos hcond1]
        have hbytes1 : (data.drop (min (blockRangeStart n * blockBytes t) t.size)).take
            ((leafByteRanges3 t n).2.1 - (leafByteRanges3 t n).1) =
            slice data (leafByteRanges3 t n).1 (leafByteRanges3 t n).2.1 := by
          rw [slice, hsme1, hbrs, ← hsz, drop_min_take]
        have hpos1 : min (blockRangeStart n * blockBytes t) t.size +
            ((leafByteRanges3 t n).2.1 - (leafByteRanges3 t n).1) =
            (leafByteRanges3 t n).2.1 := by
          rw [hbrs, hsme1, hsme2]
          omega
        rw [hbytes1, hpos1]
        simp only [except_bind_ok]
        have hcond2 : (leafByteRanges3 t n).2.1 +
            ((leafByteRanges3 t n).2.2 - (leafByteRanges3 t n).2.1) ≤ data.length := by
          rw [hsz, hsme2, hsme3]
          omega
        rw [if_pos hcond2]
        have hpos2 : (leafByteRanges3 t n).2.1 +
            ((leafByteRanges3 t n).2.2 - (leafByteRanges3 t n).2.1) =
            min (blockRangeEnd n * blockBytes t) t.size := by
          rw [hbre, ← hsme3]
          omega
        have hbytes2 : (data.drop (leafByteRanges3 t n).2.1).take
            ((leafByteRanges3 t n).2.2 - (leafByteRanges3 t n).2.1) =
            slice data (leafByteRanges3 t n).2.1 (leafByteRanges3 t n).2.2 := rfl
        rw [hbytes2, hpos2]
        simp only [except_bind_ok]
        rw [sHash_leaf_full (decide (n = rootNode t)) hleaf hhalf]
        rfl
    · have hV : n + 1 < filledSize t := by
        rcases valid_of_lt_odd hodd hn with h | h
        · exact absurd h hleaf
        · exact h
      have hlev1 : 1 ≤ levelOf n := by
        rcases Nat.eq_zero_or_pos (levelOf n) with hz | h
        · exact absurd (by simp [isLeaf, hz]) hleaf
        · exact h
      obtain ⟨r, hrd, hrstart, hrlt, hrlev, hrend⟩ := rightDescendant_spec hlev1 hV
      obtain ⟨l, hlc⟩ : ∃ l, leftChild n = some l := by
        rw [leftChild, if_neg (by omega)]
        exact ⟨_, rfl⟩
      have hlevl := levelOf_of_leftChild hlc
      have hln : l < n := by
        rw [leftChild, if_neg (by omega)] at hlc
        injection hlc with hlc
        have h1 : 1 ≤ 2 ^ (levelOf n - 1) := Nat.one_le_two_pow
        have hnge : 2 ^ levelOf n - 1 ≤ n := by
          obtain ⟨p, hp⟩ := nodeAt_levelOf n
          conv_rhs => rw [hp]
          rw [nodeAt]
          omega
        have h2 : 2 ^ levelOf n = 2 * 2 ^ (levelOf n - 1) := by
          rcases Nat.exists_eq_add_of_le hlev1 with ⟨k, hk⟩
          rw [show levelOf n = k + 1 by omega]
          simp [Nat.pow_succ]
          ring
        omega
      have hlne : decide (l = rootNode t) = false := by
        apply decide_eq_false
        intro he
        rw [← he] at hroot
        omega
      have hrne : decide (r = rootNode t) = false := by
        apply decide_eq_false
        intro he
        rw [← he] at hroot
        omega
      have hpers : isPersisted t n = true := by
        rw [isPersisted]
        simp [hleaf]
      obtain ⟨w1, hw1⟩ := ih (levelOf l) (by omega) l le_rfl (by omega) (by omega)
        (by omega) stack w
      rw [hlne] at hw1
      obtain ⟨w2, hw2⟩ := ih (levelOf r) (by omega) r le_rfl hrlt (by omega)
        (by omega) (sHash t data l false :: stack) (w ++ w1)
      rw [hrne] at hw2
      refine ⟨w1 ++ w2 ++ [Sym.hsh (sHash t data l false), Sym.hsh (sHash t data r false)], ?_⟩
      rw [postNodesR_internal hleaf hlc hrd, List.append_assoc, List.flatMap_append,
        List.flatMap_append, List.foldlM_append]
      have hstartl : min (blockRangeStart n * blockBytes t) t.size =
          min (blockRangeStart l * blockBytes t) t.size := by
        rw [blockRangeStart_leftChild hlc]
      rw [hstartl, hw1]
      simp only [except_bind_ok]
      rw [List.foldlM_append]
      have hstartr : min (blockRangeEnd l * blockBytes t) t.size =
          min (blockRangeStart r * blockBytes t) t.size := by
        rw [blockRangeEnd_leftChild hlc, hrstart]
      rw [hstartr, hw2]
      simp only [except_bind_ok]
      rw [List.flatMap_cons, List.flatMap_nil, List.append_nil, postChunkItemsOf]
      simp only [hleaf, if_false, hpers, if_true, List.foldlM_cons, List.foldlM_nil,
        buildStep]
      have hposend : min (blockRangeEnd r * blockBytes t) t.size =
          min (blockRangeEnd n * blockBytes t) t.size := by
        rcases hrend with he | he
        · rw [he]
        · have h1 := blockRangeEnd_sub_start (n := r)
          have h2 : 2 ^ (levelOf r + 1) ≤ 2 ^ levelOf n :=
            Nat.pow_le_pow_right (by omega) (by omega)
          have hle : blockRangeEnd r ≤ blockRangeEnd n := by
            rw [h1, hrstart, midBlock, blockRangeEnd]
            omega
          have h3 : blocksOf t ≤ blockRangeEnd r := by
            omega
          have h4 : blocksOf t * blockBytes t ≤ blockRangeEnd r * blockBytes t :=
            Nat.mul_le_mul h3 (Nat.le_refl _)
          have h5 : blockRangeEnd r * blockBytes t ≤ blockRangeEnd n * blockBytes t :=
            Nat.mul_le_mul hle (Nat.le_refl _)
          omega
      rw [hposend]
      simp [List.append_assoc]
      simp only [buildStep]
      rw [← sHash_internal (decide (n = rootNode t)) hleaf hlc hrd]
      simp only [List.append_assoc]

/-! ### Decoding an honestly encoded subtree -/

/-- The payload leaves of a list of decoder items. -/
def leavesOfItems (items : List (Except BaoError DecodeResponseItem)) :
    List (Nat × List Nat) :=
  items.filterMap (fun x => match x with
    | .ok (.leaf off data) => some (off, data)
    | _ => none)

/-- Write a list of leaves at their offsets: succeeds when the leaves are
contiguous from the given position, returning the assembled bytes and the
final position. -/
def joinLeaves : Nat → List (Nat × List Nat) → Option (List Nat × Nat)
  | pos, [] => some ([], pos)
  | pos, (off, bs) :: rest =>
    if off = pos then
      (joinLeaves (pos + bs.length) rest).map (fun r => (bs ++ r.1, r.2))
    else none

theorem joinLeaves_append (A B : List (Nat × List Nat)) :
    ∀ pos sa p', joinLeaves pos A = some (sa, p') →
    joinLeaves pos (A ++ B) =
      (joinLeaves p' B).map (fun r => (sa ++ r.1, r.2)) := by
  induction A with
  | nil =>
    intro pos sa p' h
    rw [joinLeaves] at h
    injection h with h
    injection h with h1 h2
    subst h1
    subst h2
    simp only [List.nil_append]
    rcases hb : joinLeaves pos B with _ | r
    · rfl
    · simp [hb]
  | cons hd tl ih =>
    intro pos sa p' h
    obtain ⟨off, bs⟩ := hd
    rw [joinLeaves] at h
    by_cases hoff : off = pos
    · rw [if_pos hoff] at h
      rcases hj : joinLeaves (pos + bs.length) tl with _ | r
      · rw [hj] at h
        exact absurd h (by simp [Option.map])
      · rw [hj] at h
        simp only [Option.map] at h
        injection h with h
        obtain ⟨r1, r2⟩ := r
        injection h with h1 h2
        rw [List.cons_append, joinLeaves, if_pos hoff, ih (pos + bs.length) r1 p'
          (by rw [hj, ← h2]), ← h1]
        rcases hb : joinLeaves p' B with _ | q
        · rfl
        · simp [List.append_assoc]
    · rw [if_neg hoff] at h
      exact absurd h (by simp)

theorem slice_append {data : List Nat} {a b c : Nat} (hab : a ≤ b) (hbc : b ≤ c) :
    slice data a b ++ slice data b c = slice data a c := by
  rw [slice, slice, slice]
  have h1 : List.take (b - a) (List.drop a data) ++
      List.take (c - b) (List.drop (b - a) (List.drop a data)) =
      List.take (b - a + (c - b)) (List.drop a data) := (List.take_add _ _ _).symm
  rw [List.drop_drop] at h1
  rw [show a + (b - a) = b by omega] at h1
  rw [show b - a + (c - b) = c - a by omega] at h1
  exact h1

theorem readData_map_dat (buf : List Nat) :
    ∀ rest, readData buf.length (buf.map Sym.dat ++ rest) = .ok (buf, rest) := by
  induction buf with
  | nil =>
    intro rest
    rfl
  | cons b tl ih =>
    intro rest
    rw [List.map_cons, List.length_cons, List.cons_append, readData, ih rest]
    rfl

theorem rsSplit_all {x : Nat} (hx : 1 ≤ x) : rsSplit x [0] = ([0], [0]) := by
  rw [rsSplit]
  have h : List.countP (fun b => decide (b < x)) [0] = 1 := by
    simp [List.countP_cons]
    omega
  rw [h]
  rfl

theorem mem_rsSplit_left {x c : Nat} {rn : ChunkRangesRef}
    (h : c ∈ (rsSplit x rn).1) : c ∈ rn := by
  rw [rsSplit] at h
  exact List.take_subset _ _ h

theorem mem_rsSplit_right {x c : Nat} {rn : ChunkRangesRef}
    (h : c ∈ (rsSplit x rn).2) : c ∈ rn := by
  rw [rsSplit] at h
  simp only at h
  by_cases hp : List.countP (fun b => decide (b < x)) rn % 2 = 0
  · rw [if_pos hp] at h
    exact List.drop_subset _ _ h
  · rw [if_neg hp] at h
    exact List.drop_subset _ _ h

theorem chunkNum_mul_1024 (t : BaoTree) (n : Nat) :
    chunkNum t n * 1024 = n * blockBytes t := by
  rw [chunkNum, chunkGroupChunks, blockBytes]
  ring

/-- On a zero-start tree with data of at least one byte, every block
strictly before the block count starts strictly inside the data. -/
theorem block_start_lt_size {t : BaoTree} (hpos : 1 ≤ t.size) {n : Nat}
    (hn : n < blocksOf t) : n * blockBytes t < t.size := by
  have hbb : 1 ≤ blockBytes t := by
    rw [blockBytes]
    have h2 : 1 ≤ 2 ^ t.block_size := Nat.one_le_two_pow
    omega
  rw [blocksOf] at hn
  have hceil : (t.size + blockBytes t - 1) / blockBytes t ≥ 1 := by
    apply Nat.le_div_iff_mul_le (by omega) |>.mpr
    omega
  have hmax : max ((t.size + blockBytes t - 1) / blockBytes t) 1 =
      (t.size + blockBytes t - 1) / blockBytes t := max_eq_left hceil
  rw [hmax] at hn
  have h3 : n + 1 ≤ (t.size + blockBytes t - 1) / blockBytes t := hn
  have h4 : (n + 1) * blockBytes t ≤ t.size + blockBytes t - 1 := by
    have := (Nat.le_div_iff_mul_le (show 0 < blockBytes t by omega)).mp h3
    omega
  have h5 : (n + 1) * blockBytes t = n * blockBytes t + blockBytes t := by ring
  omega

/-- A node of the filled range starts at a block strictly before the
block count. -/
theorem node_block_lt_blocks {t : BaoTree} (h0 : startBlock t = 0) {n : Nat}
    (hn : n < filledSize t) : blockRangeStart n < blocksOf t := by
  have h1 : blockRangeStart n ≤ n := by
    have hp : 1 ≤ 2 ^ levelOf n := Nat.one_le_two_pow
    rw [blockRangeStart]
    omega
  have h2 : 2 * leafCount t ≤ blocksOf t + 1 := by
    rw [leafCount]
    omega
  have h3 : filledSize t = startBlock t + (2 * leafCount t - 1) := rfl
  rw [h0] at h3
  have h4 := leafCount_pos t
  omega

theorem rsSplit_left_of_lt {x : Nat} {rn : ChunkRangesRef}
    (h : ∀ c ∈ rn, c < x) : (rsSplit x rn).1 = rn := by
  rw [rsSplit]
  simp only
  rw [List.countP_eq_length.mpr (by intro a ha; simpa using h a ha), List.take_length]

theorem rsSplit_not_both_empty {x : Nat} {rn : ChunkRangesRef}
    (hne : ¬ rsIsEmpty rn = true) (h1 : rsIsEmpty (rsSplit x rn).1 = true)
    (h2 : rsIsEmpty (rsSplit x rn).2 = true) : False := by
  rw [rsSplit] at h1 h2
  simp only [rsIsEmpty, List.isEmpty_iff] at hne h1 h2
  have hlen : 1 ≤ rn.length := by
    rcases rn with _ | ⟨a, tl⟩
    · exact absurd rfl hne
    · simp
  have hi : List.countP (fun b => decide (b < x)) rn = 0 := by
    have := congrArg List.length h1
    simp only [List.length_take, List.length_nil] at this
    have hle := List.countP_le_length (l := rn) (p := fun b => decide (b < x))
    omega
  rw [hi] at h2
  simp only [Nat.zero_mod, if_pos rfl, List.drop_zero] at h2
  exact hne h2

theorem chunksCeil_le {sz K : Nat} (h : sz ≤ K * 1024) : chunksCeil sz ≤ K := by
  rw [chunksCeil]
  omega

theorem toChunks_mid_mul (t : BaoTree) (n : Nat) :
    toChunks (midBlock n) t.block_size * 1024 = (n + 1) * blockBytes t := by
  rw [toChunks, midBlock, blockBytes]
  ring

theorem one_le_toChunks_mid (t : BaoTree) (n : Nat) :
    1 ≤ toChunks (midBlock n) t.block_size := by
  rw [toChunks, midBlock]
  have h1 : 1 ≤ 2 ^ t.block_size := Nat.one_le_two_pow
  have h2 : 1 * 1 ≤ (n + 1) * 2 ^ t.block_size := Nat.mul_le_mul (by omega) h1
  omega

theorem slice_length {data : List Nat} {a b : Nat} (hab : a ≤ b)
    (hb : b ≤ data.length) : (slice data a b).length = b - a := by
  rw [slice]
  simp only [List.length_take, List.length_drop]
  omega

/-- The start chunks of the leaf directives of a response stream. -/
def dirLeafChunks (items : List ResponseChunk) : List Nat :=
  items.filterMap (fun c => match c with
    | .leaf sc _ _ => some sc
    | _ => none)

theorem dirLeafChunks_append (A B : List ResponseChunk) :
    dirLeafChunks (A ++ B) = dirLeafChunks A ++ dirLeafChunks B := by
  simp [dirLeafChunks]

/-- The directives the encoder walks for one visited subtree. -/
def subDirs (t : BaoTree) (n : Nat) (rn : ChunkRangesRef) (b : Bool) :
    List (BaoChunk ChunkRangesRef) :=
  (preNodesR t (filledSize t) 0 n rn b).flatMap (chunkItemsOf t)

/-- C2's invariant, for one subtree: when the top of the decoder's hash
stack is the reference hash of the next subtree of the pre-order the
encoder produced, the decoder verifies that subtree's directives against
the encoder's bytes without error, popping exactly that hash; the items
are all `ok`, and for a full-range query the leaves assemble the
subtree's bytes contiguously. -/
def DecodeRunOk (t : BaoTree) (data : List Nat) (o : Outboard) (n : Nat)
    (rn : ChunkRangesRef) (b : Bool) : Prop :=
  ∃ B I,
    (∀ Irest, encodeItems data o (subDirs t n rn b ++ Irest) =
      (B ++ (encodeItems data o Irest).1, (encodeItems data o Irest).2)) ∧
    (∀ Drest Srest stack fuel,
      respRunAux (((subDirs t n rn b).flatMap (responseItemsOf t)).length + fuel)
          ⟨.content ((subDirs t n rn b).flatMap (responseItemsOf t) ++ Drest),
            sHash t data n b :: stack, B ++ Srest⟩ =
        I ++ respRunAux fuel ⟨.content Drest, stack, Srest⟩) ∧
    (∀ x ∈ I, ∃ it, x = Except.ok it) ∧
    (rn = [0] →
      joinLeaves (min (blockRangeStart n * blockBytes t) t.size) (leavesOfItems I) =
        some (slice data (min (blockRangeStart n * blockBytes t) t.size)
            (min (blockRangeEnd n * blockBytes t) t.size),
          min (blockRangeEnd n * blockBytes t) t.size)) ∧
    (leavesOfItems I).map Prod.fst =
      (dirLeafChunks ((subDirs t n rn b).flatMap (responseItemsOf t))).map (· * 1024)

theorem respRunAux_ok {fuel : Nat} {s s' : DecodeResponseIter}
    {item : DecodeResponseItem} (h : respNext0 s = (.ok (some item), s')) :
    respRunAux (fuel + 1) s = .ok item :: respRunAux fuel s' := by
  rw [respRunAux, h]

theorem respStep_header {ranges : ChunkRangesRef} {bs : Nat} {stack : List Hash}
    {size : Nat} {rest : ByteStream} :
    respNext0 ⟨.header ranges bs, stack, Sym.hdr size :: rest⟩ =
      (.ok (some (.header size)),
        ⟨.content (responseChunks (BaoTree.new size bs)
            (truncateRanges ranges (BaoTree.new size bs).size)), stack, rest⟩) := rfl

theorem respRunAux_end (fuel : Nat) (stack : List Hash) (enc : ByteStream) :
    respRunAux (fuel + 1) ⟨.content [], stack, enc⟩ = [] := by
  simp [respRunAux, respNext0]

theorem respStep_parent (fl fr : Bool) (stack2 : List Hash) {node : Option Nat}
    {ir : Bool} {rest : List ResponseChunk} {lh rh h : Hash} {stack : List Hash}
    {enc : ByteStream} (hhash : h = Hash.parentCV lh rh ir)
    (hp : stack2 = (if fl then [lh] else []) ++ (if fr then [rh] else []) ++ stack) :
    respNext0 ⟨.content (.parent node ir fl fr :: rest), h :: stack,
        Sym.hsh lh :: Sym.hsh rh :: enc⟩ =
      (.ok (some (.parent node (lh, rh))), ⟨.content rest, stack2, enc⟩) := by
  subst hp
  rw [respNext0]
  simp only [readParent]
  rw [if_neg (by rw [hhash]; simp)]

theorem respStep_leaf {sc sz : Nat} {ir : Bool} {rest : List ResponseChunk}
    {buf : List Nat} {h : Hash} {stack : List Hash} {enc : ByteStream}
    (hlen : buf.length = sz) (hhash : h = hashSubtree sc buf ir) :
    respNext0 ⟨.content (.leaf sc sz ir :: rest), h :: stack,
        buf.map Sym.dat ++ enc⟩ =
      (.ok (some (.leaf (sc * 1024) buf)), ⟨.content rest, stack, enc⟩) := by
  subst hlen
  subst hhash
  simp [respNext0, readData_map_dat buf enc]

theorem encodeItems_parent {data : List Nat} {o : Outboard} {n : Nat}
    {ir fl fr : Bool} {rs : ChunkRangesRef} {rest : List (BaoChunk ChunkRangesRef)}
    {lh rh : Hash} (hload : o.load n = .ok (some (lh, rh))) :
    encodeItems data o (.parent n ir fl fr rs :: rest) =
      (Sym.hsh lh :: Sym.hsh rh :: (encodeItems data o rest).1,
        (encodeItems data o rest).2) := by
  rw [encodeItems, hload]

theorem encodeItems_leaf {data : List Nat} {o : Outboard} {sc sz : Nat}
    {ir : Bool} {rs : ChunkRangesRef} {rest : List (BaoChunk ChunkRangesRef)}
    (hbound : sc * 1024 + sz ≤ data.length) :
    encodeItems data o (.leaf sc sz ir rs :: rest) =
      (((data.drop (sc * 1024)).take sz).map Sym.dat ++ (encodeItems data o rest).1,
        (encodeItems data o rest).2) := by
  rw [encodeItems, readExactAt, if_pos hbound]

theorem chunkNum_succ_mul_1024 (t : BaoTree) (n : Nat) :
    (chunkNum t n + chunkGroupChunks t) * 1024 = (n + 1) * blockBytes t := by
  rw [chunkNum, chunkGroupChunks, blockBytes]
  ring

theorem decode_run_leaf (t : BaoTree) (data : List Nat) (o : Outboard)
    (hsc : t.start_chunk = 0) (hsz : data.length = t.size)
    (hload : ∀ m, o.load m = .ok (refPair t data m))
    {n : Nat} (hleaf : isLeaf n = true) (hn : n < filledSize t)
    (rn : ChunkRangesRef) (b : Bool) (hne : ¬ rsIsEmpty rn = true)
    (hpass : t.block_size = 0 ∨ rn = [0])
    (hbound : ∀ x ∈ rn, x < chunksCeil t.size) :
    DecodeRunOk t data o n rn b := by
  have h0 : startBlock t = 0 := by
    rw [startBlock, hsc]
    simp
  have hbase : baseByte t = 0 := by
    rw [baseByte, hsc]
  have hbb : 1 ≤ blockBytes t := by
    rw [blockBytes]
    have h2 : 1 ≤ 2 ^ t.block_size := Nat.one_le_two_pow
    omega
  have hl0 : levelOf n = 0 := by
    simpa [isLeaf] using hleaf
  have hbrs : blockRangeStart n = n := blockRangeStart_leaf hl0
  have hbre : blockRangeEnd n = n + 2 := by
    rw [blockRangeEnd, hl0]
    norm_num
  have hsme1 : (leafByteRanges3 t n).1 = n * blockBytes t := rfl
  have hsme2 : (leafByteRanges3 t n).2.1 = min ((n + 1) * blockBytes t) t.size := by
    rw [leafByteRanges3]
    simp [hbase]
  have hsme3 : (leafByteRanges3 t n).2.2 = min ((n + 2) * blockBytes t) t.size := by
    rw [leafByteRanges3]
    simp [hbase]
  have hd1 : (n + 1) * blockBytes t = n * blockBytes t + blockBytes t := by ring
  have hd2 : (n + 2) * blockBytes t = n * blockBytes t + 2 * blockBytes t := by ring
  have hszpos : 1 ≤ t.size := by
    rcases rn with _ | ⟨a, tl⟩
    · exact absurd rfl hne
    · have := hbound a (by simp)
      rw [chunksCeil] at this
      omega
  have hnlt : n * blockBytes t < t.size := by
    have h1 := node_block_lt_blocks h0 hn
    rw [hbrs] at h1
    exact block_start_lt_size hszpos h1
  have hiso : isPersisted t n =
      (!(isLeaf n) || decide ((leafByteRanges3 t n).2.1 < (leafByteRanges3 t n).2.2)) := rfl
  have hql : (isLeaf n || (rsFull rn (toChunks (blockRangeStart n) t.block_size) &&
      decide (levelOf n ≤ 0))) = true := by
    rw [hleaf]
    rfl
  have hinfo := @preNodesR_query t (filledSize t) 0 n rn b hne hql
  by_cases hhalf : (leafByteRanges3 t n).2.1 = (leafByteRanges3 t n).2.2
  · -- half leaf: a single Leaf directive carrying the traversal root flag
    have hpers : isPersisted t n = false := by
      rw [hiso, hleaf, hhalf]
      simp
    have hszle : t.size ≤ (n + 1) * blockBytes t := by
      have hh := hhalf
      rw [hsme2, hsme3] at hh
      omega
    have hmid : ∀ c ∈ rn, c < toChunks (midBlock n) t.block_size := by
      intro c hc
      have h1 := hbound c hc
      have h2 : chunksCeil t.size ≤ toChunks (midBlock n) t.block_size :=
        chunksCeil_le (by rw [toChunks_mid_mul]; exact hszle)
      omega
    have hlr1 : (rsSplit (toChunks (midBlock n) t.block_size) rn).1 = rn :=
      rsSplit_left_of_lt hmid
    have hflr : rsIsEmpty rn = false := by
      rcases hEq : rsIsEmpty rn
      · rfl
      · exact absurd hEq hne
    have hfl : rsIsEmpty (rsSplit (toChunks (midBlock n) t.block_size) rn).1 = false := by
      rw [hlr1]
      exact hflr
    have hsub : subDirs t n rn b =
        [.leaf (chunkNum t n)
          ((leafByteRanges3 t n).2.1 - (leafByteRanges3 t n).1) b rn] := by
      rw [subDirs, hinfo, List.flatMap_cons, List.flatMap_nil, List.append_nil]
      simp [chunkItemsOf, hleaf, hpers, hlr1, hflr]
    have hpassit : (t.block_size = 0 || rsIsAll rn) = true := by
      rcases hpass with h | h
      · simp [h]
      · simp [h, rsIsAll]
    have hD : (subDirs t n rn b).flatMap (responseItemsOf t) =
        [.leaf (chunkNum t n)
          ((leafByteRanges3 t n).2.1 - (leafByteRanges3 t n).1) b] := by
      rw [hsub, List.flatMap_cons, List.flatMap_nil, List.append_nil, responseItemsOf,
        if_pos hpassit]
    have hm1le : (leafByteRanges3 t n).1 ≤ (leafByteRanges3 t n).2.1 := by
      rw [hsme1, hsme2]
      omega
    have hm1sz : (leafByteRanges3 t n).2.1 ≤ t.size := by
      rw [hsme2]
      omega
    have hlbuf : (slice data (leafByteRanges3 t n).1 (leafByteRanges3 t n).2.1).length =
        (leafByteRanges3 t n).2.1 - (leafByteRanges3 t n).1 :=
      slice_length hm1le (by rw [hsz]; exact hm1sz)
    refine ⟨(slice data (leafByteRanges3 t n).1 (leafByteRanges3 t n).2.1).map Sym.dat,
      [.ok (.leaf (chunkNum t n * 1024)
        (slice data (leafByteRanges3 t n).1 (leafByteRanges3 t n).2.1))],
      ?_, ?_, ?_, ?_, ?_⟩
    · intro Irest
      rw [hsub, List.cons_append, List.nil_append, encodeItems]
      have hre : readExactAt data (chunkNum t n * 1024)
          ((leafByteRanges3 t n).2.1 - (leafByteRanges3 t n).1) =
          .ok (slice data (leafByteRanges3 t n).1 (leafByteRanges3 t n).2.1) := by
        rw [readExactAt, chunkNum_mul_1024,
          if_pos (by rw [hsz, hsme1, hsme2]; omega), slice, hsme1]
      rw [hre]
    · intro Drest Srest stack fuel
      rw [hD]
      have hlen : ([ResponseChunk.leaf (chunkNum t n)
          ((leafByteRanges3 t n).2.1 - (leafByteRanges3 t n).1) b]).length + fuel =
          fuel + 1 := by
        simp only [List.length_cons, List.length_nil]
        omega
      rw [hlen, List.cons_append, List.nil_append,
        respRunAux_ok (respStep_leaf hlbuf (sHash_leaf_half b hleaf hhalf))]
      rfl
    · intro x hx
      simp only [List.mem_singleton] at hx
      exact ⟨_, hx⟩
    · intro hrn0
      have hpos0 : min (blockRangeStart n * blockBytes t) t.size = n * blockBytes t := by
        rw [hbrs]
        omega
      have hposE : min (blockRangeEnd n * blockBytes t) t.size =
          (leafByteRanges3 t n).2.1 := by
        rw [hbre, hhalf, hsme3]
      rw [show leavesOfItems [Except.ok (DecodeResponseItem.leaf (chunkNum t n * 1024)
          (slice data (leafByteRanges3 t n).1 (leafByteRanges3 t n).2.1))] =
        [(chunkNum t n * 1024,
          slice data (leafByteRanges3 t n).1 (leafByteRanges3 t n).2.1)] from rfl]
      rw [hpos0, hposE, joinLeaves, if_pos (by rw [chunkNum_mul_1024]), hlbuf]
      rw [show n * blockBytes t +
          ((leafByteRanges3 t n).2.1 - (leafByteRanges3 t n).1) =
          (leafByteRanges3 t n).2.1 from by rw [hsme1, hsme2]; omega]
      rw [joinLeaves]
      simp [hsme1]
    · rw [hD]
      rfl
  · -- persisted leaf: a Parent directive followed by the selected halves
    have hh' : (leafByteRanges3 t n).2.1 < (leafByteRanges3 t n).2.2 := by
      have hne' := hhalf
      rw [hsme2, hsme3] at hne' ⊢
      omega
    have hpers : isPersisted t n = true := by
      rw [hiso, hleaf]
      simp [hh']
    have hm : (leafByteRanges3 t n).2.1 = (n + 1) * blockBytes t := by
      have hne' := hhalf
      rw [hsme2, hsme3] at hne'
      rw [hsme2]
      omega
    have hmsz : (n + 1) * blockBytes t ≤ t.size := by
      have hne' := hhalf
      rw [hsme2, hsme3] at hne'
      omega
    have hm2le : (leafByteRanges3 t n).2.1 ≤ (leafByteRanges3 t n).2.2 := le_of_lt hh'
    have hm2sz : (leafByteRanges3 t n).2.2 ≤ t.size := by
      rw [hsme3]
      omega
    have hlbuf : (slice data (leafByteRanges3 t n).1 (leafByteRanges3 t n).2.1).length =
        (leafByteRanges3 t n).2.1 - (leafByteRanges3 t n).1 :=
      slice_length (by rw [hsme1, hm]; omega) (by rw [hsz, hm]; omega)
    have hrbuf : (slice data (leafByteRanges3 t n).2.1 (leafByteRanges3 t n).2.2).length =
        (leafByteRanges3 t n).2.2 - (leafByteRanges3 t n).2.1 :=
      slice_length hm2le (by rw [hsz]; exact hm2sz)
    have hrp : o.load n = .ok (some
        (hashSubtree (chunkNum t n)
          (slice data (leafByteRanges3 t n).1 (leafByteRanges3 t n).2.1) false,
         hashSubtree (chunkNum t n + chunkGroupChunks t)
          (slice data (leafByteRanges3 t n).2.1 (leafByteRanges3 t n).2.2) false)) := by
      rw [hload n, refPair, if_pos hpers]
      simp only [hleaf, if_true]
    have hreL : readExactAt data (chunkNum t n * 1024)
        ((leafByteRanges3 t n).2.1 - (leafByteRanges3 t n).1) =
        .ok (slice data (leafByteRanges3 t n).1 (leafByteRanges3 t n).2.1) := by
      rw [readExactAt, chunkNum_mul_1024,
        if_pos (by rw [hsz, hsme1, hm]; omega), slice, hsme1]
    have hreR : readExactAt data ((chunkNum t n + chunkGroupChunks t) * 1024)
        ((leafByteRanges3 t n).2.2 - (leafByteRanges3 t n).2.1) =
        .ok (slice data (leafByteRanges3 t n).2.1 (leafByteRanges3 t n).2.2) := by
      rw [readExactAt, chunkNum_succ_mul_1024, ← hm,
        if_pos (by rw [hsz]; omega), slice]
    by_cases hfl : rsIsEmpty (rsSplit (toChunks (midBlock n) t.block_size) rn).1 = true
    · by_cases hfr : rsIsEmpty (rsSplit (toChunks (midBlock n) t.block_size) rn).2 = true
      · exact absurd hfr (fun h => rsSplit_not_both_empty hne hfl h)
      · -- left half unqueried, right half queried
        have hfr' : rsIsEmpty (rsSplit (toChunks (midBlock n) t.block_size) rn).2 =
            false := by
          rcases hEq : rsIsEmpty (rsSplit (toChunks (midBlock n) t.block_size) rn).2
          · rfl
          · exact absurd hEq hfr
        have hsub : subDirs t n rn b =
            [.parent n b false true rn,
             .leaf (chunkNum t n + chunkGroupChunks t)
               ((leafByteRanges3 t n).2.2 - (leafByteRanges3 t n).2.1) false
               (rsSplit (toChunks (midBlock n) t.block_size) rn).2] := by
          rw [subDirs, hinfo, List.flatMap_cons, List.flatMap_nil, List.append_nil]
          simp [chunkItemsOf, hleaf, hpers, hfl, hfr']
        have hpassit : (t.block_size = 0 ||
            rsIsAll (rsSplit (toChunks (midBlock n) t.block_size) rn).2) = true := by
          rcases hpass with h | h
          · simp [h]
          · subst h
            rw [rsSplit_all (one_le_toChunks_mid t n)]
            simp [rsIsAll]
        have hD : (subDirs t n rn b).flatMap (responseItemsOf t) =
            [.parent (some n) b false true,
             .leaf (chunkNum t n + chunkGroupChunks t)
               ((leafByteRanges3 t n).2.2 - (leafByteRanges3 t n).2.1) false] := by
          rw [hsub, List.flatMap_cons, List.flatMap_cons, List.flatMap_nil,
            List.append_nil, responseItemsOf, responseItemsOf, if_pos hpassit]
          rfl
        refine ⟨Sym.hsh (hashSubtree (chunkNum t n)
            (slice data (leafByteRanges3 t n).1 (leafByteRanges3 t n).2.1) false) ::
          Sym.hsh (hashSubtree (chunkNum t n + chunkGroupChunks t)
            (slice data (leafByteRanges3 t n).2.1 (leafByteRanges3 t n).2.2) false) ::
          (slice data (leafByteRanges3 t n).2.1 (leafByteRanges3 t n).2.2).map Sym.dat,
          [.ok (.parent (some n)
            (hashSubtree (chunkNum t n)
              (slice data (leafByteRanges3 t n).1 (leafByteRanges3 t n).2.1) false,
             hashSubtree (chunkNum t n + chunkGroupChunks t)
              (slice data (leafByteRanges3 t n).2.1 (leafByteRanges3 t n).2.2) false)),
           .ok (.leaf ((chunkNum t n + chunkGroupChunks t) * 1024)
            (slice data (leafByteRanges3 t n).2.1 (leafByteRanges3 t n).2.2))],
          ?_, ?_, ?_, ?_, ?_⟩
        · intro Irest
          rw [hsub, List.cons_append, List.cons_append, List.nil_append,
            encodeItems, hrp, encodeItems, hreR]
          simp [List.append_assoc]
        · intro Drest Srest stack fuel
          rw [hD]
          have hlen : ([ResponseChunk.parent (some n) b false true,
              ResponseChunk.leaf (chunkNum t n + chunkGroupChunks t)
                ((leafByteRanges3 t n).2.2 - (leafByteRanges3 t n).2.1) false]).length +
              fuel = fuel + 1 + 1 := by
            simp only [List.length_cons, List.length_nil]
            omega
          rw [hlen, List.cons_append, List.cons_append, List.nil_append,
            List.cons_append, List.cons_append,
            respRunAux_ok (respStep_parent false true
              (hashSubtree (chunkNum t n + chunkGroupChunks t)
                (slice data (leafByteRanges3 t n).2.1 (leafByteRanges3 t n).2.2) false ::
                stack)
              (sHash_leaf_full b hleaf (by omega)) rfl),
            respRunAux_ok (respStep_leaf hrbuf rfl)]
          rfl
        · intro x hx
          simp only [List.mem_cons, List.mem_singleton] at hx
          rcases hx with h | h
          · exact ⟨_, h⟩
          · rcases h with h | h
            · exact ⟨_, h⟩
            · exact absurd h (by simp)
        · intro hrn0
          subst hrn0
          rw [rsSplit_all (one_le_toChunks_mid t n)] at hfl
          simp [rsIsEmpty] at hfl
        · rw [hD]
          rfl
    · by_cases hfr : rsIsEmpty (rsSplit (toChunks (midBlock n) t.block_size) rn).2 = true
      · -- right half unqueried, left half queried
        have hfl' : rsIsEmpty (rsSplit (toChunks (midBlock n) t.block_size) rn).1 =
            false := by
          rcases hEq : rsIsEmpty (rsSplit (toChunks (midBlock n) t.block_size) rn).1
          · rfl
          · exact absurd hEq hfl
        have hsub : subDirs t n rn b =
            [.parent n b true false rn,
             .leaf (chunkNum t n)
               ((leafByteRanges3 t n).2.1 - (leafByteRanges3 t n).1) false
               (rsSplit (toChunks (midBlock n) t.block_size) rn).1] := by
          rw [subDirs, hinfo, List.flatMap_cons, List.flatMap_nil, List.append_nil]
          simp [chunkItemsOf, hleaf, hpers, hfl', hfr]
        have hpassit : (t.block_size = 0 ||
            rsIsAll (rsSplit (toChunks (midBlock n) t.block_size) rn).1) = true := by
          rcases hpass with h | h
          · simp [h]
          · subst h
            rw [rsSplit_all (one_le_toChunks_mid t n)]
            simp [rsIsAll]
        have hD : (subDirs t n rn b).flatMap (responseItemsOf t) =
            [.parent (some n) b true false,
             .leaf (chunkNum t n)
               ((leafByteRanges3 t n).2.1 - (leafByteRanges3 t n).1) false] := by
          rw [hsub, List.flatMap_cons, List.flatMap_cons, List.flatMap_nil,
            List.append_nil, responseItemsOf, responseItemsOf, if_pos hpassit]
          rfl
        refine ⟨Sym.hsh (hashSubtree (chunkNum t n)
            (slice data (leafByteRanges3 t n).1 (leafByteRanges3 t n).2.1) false) ::
          Sym.hsh (hashSubtree (chunkNum t n + chunkGroupChunks t)
            (slice data (leafByteRanges3 t n).2.1 (leafByteRanges3 t n).2.2) false) ::
          (slice data (leafByteRanges3 t n).1 (leafByteRanges3 t n).2.1).map Sym.dat,
          [.ok (.parent (some n)
            (hashSubtree (chunkNum t n)
              (slice data (leafByteRanges3 t n).1 (leafByteRanges3 t n).2.1) false,
             hashSubtree (chunkNum t n + chunkGroupChunks t)
              (slice data (leafByteRanges3 t n).2.1 (leafByteRanges3 t n).2.2) false)),
           .ok (.leaf (chunkNum t n * 1024)
            (slice data (leafByteRanges3 t n).1 (leafByteRanges3 t n).2.1))],
          ?_, ?_, ?_, ?_, ?_⟩
        · intro Irest
          rw [hsub, List.cons_append, List.cons_append, List.nil_append,
            encodeItems, hrp, encodeItems, hreL]
          simp [List.append_assoc]
        · intro Drest Srest stack fuel
          rw [hD]
          have hlen : ([ResponseChunk.parent (some n) b true false,
              ResponseChunk.leaf (chunkNum t n)
                ((leafByteRanges3 t n).2.1 - (leafByteRanges3 t n).1) false]).length +
              fuel = fuel + 1 + 1 := by
            simp only [List.length_cons, List.length_nil]
            omega
          rw [hlen, List.cons_append, List.cons_append, List.nil_append,
            List.cons_append, List.cons_append,
            respRunAux_ok (respStep_parent true false
              (hashSubtree (chunkNum t n)
                (slice data (leafByteRanges3 t n).1 (leafByteRanges3 t n).2.1) false ::
                stack)
              (sHash_leaf_full b hleaf (by omega)) rfl),
            respRunAux_ok (respStep_leaf hlbuf rfl)]
          rfl
        · intro x hx
          simp only [List.mem_cons, List.mem_singleton] at hx
          rcases hx with h | h
          · exact ⟨_, h⟩
          · rcases h with h | h
            · exact ⟨_, h⟩
            · exact absurd h (by simp)
        · intro hrn0
          subst hrn0
          rw [rsSplit_all (one_le_toChunks_mid t n)] at hfr
          simp [rsIsEmpty] at hfr
        · rw [hD]
          rfl
      · -- both halves queried
        have hfl' : rsIsEmpty (rsSplit (toChunks (midBlock n) t.block_size) rn).1 =
            false := by
          rcases hEq : rsIsEmpty (rsSplit (toChunks (midBlock n) t.block_size) rn).1
          · rfl
          · exact absurd hEq hfl
        have hfr' : rsIsEmpty (rsSplit (toChunks (midBlock n) t.block_size) rn).2 =
            false := by
          rcases hEq : rsIsEmpty (rsSplit (toChunks (midBlock n) t.block_size) rn).2
          · rfl
          · exact absurd hEq hfr
        have hsub : subDirs t n rn b =
            [.parent n b true true rn,
             .leaf (chunkNum t n)
               ((leafByteRanges3 t n).2.1 - (leafByteRanges3 t n).1) false
               (rsSplit (toChunks (midBlock n) t.block_size) rn).1,
             .leaf (chunkNum t n + chunkGroupChunks t)
               ((leafByteRanges3 t n).2.2 - (leafByteRanges3 t n).2.1) false
               (rsSplit (toChunks (midBlock n) t.block_size) rn).2] := by
          rw [subDirs, hinfo, List.flatMap_cons, List.flatMap_nil, List.append_nil]
          simp [chunkItemsOf, hleaf, hpers, hfl', hfr']
        have hpassitL : (t.block_size = 0 ||
            rsIsAll (rsSplit (toChunks (midBlock n) t.block_size) rn).1) = true := by
          rcases hpass with h | h
          · simp [h]
          · subst h
            rw [rsSplit_all (one_le_toChunks_mid t n)]
            simp [rsIsAll]
        have hpassitR : (t.block_size = 0 ||
            rsIsAll (rsSplit (toChunks (midBlock n) t.block_size) rn).2) = true := by
          rcases hpass with h | h
          · simp [h]
          · subst h
            rw [rsSplit_all (one_le_toChunks_mid t n)]
            simp [rsIsAll]
        have hD : (subDirs t n rn b).flatMap (responseItemsOf t) =
            [.parent (some n) b true true,
             .leaf (chunkNum t n)
               ((leafByteRanges3 t n).2.1 - (leafByteRanges3 t n).1) false,
             .leaf (chunkNum t n + chunkGroupChunks t)
               ((leafByteRanges3 t n).2.2 - (leafByteRanges3 t n).2.1) false] := by
          rw [hsub, List.flatMap_cons, List.flatMap_cons, List.flatMap_cons,
            List.flatMap_nil, List.append_nil, responseItemsOf, responseItemsOf,
            responseItemsOf, if_pos hpassitL, if_pos hpassitR]
          rfl
        refine ⟨Sym.hsh (hashSubtree (chunkNum t n)
            (slice data (leafByteRanges3 t n).1 (leafByteRanges3 t n).2.1) false) ::
          Sym.hsh (hashSubtree (chunkNum t n + chunkGroupChunks t)
            (slice data (leafByteRanges3 t n).2.1 (leafByteRanges3 t n).2.2) false) ::
          ((slice data (leafByteRanges3 t n).1 (leafByteRanges3 t n).2.1).map Sym.dat ++
           (slice data (leafByteRanges3 t n).2.1 (leafByteRanges3 t n).2.2).map Sym.dat),
          [.ok (.parent (some n)
            (hashSubtree (chunkNum t n)
              (slice data (leafByteRanges3 t n).1 (leafByteRanges3 t n).2.1) false,
             hashSubtree (chunkNum t n + chunkGroupChunks t)
              (slice data (leafByteRanges3 t n).2.1 (leafByteRanges3 t n).2.2) false)),
           .ok (.leaf (chunkNum t n * 1024)
            (slice data (leafByteRanges3 t n).1 (leafByteRanges3 t n).2.1)),
           .ok (.leaf ((chunkNum t n + chunkGroupChunks t) * 1024)
            (slice data (leafByteRanges3 t n).2.1 (leafByteRanges3 t n).2.2))],
          ?_, ?_, ?_, ?_, ?_⟩
        · intro Irest
          rw [hsub, List.cons_append, List.cons_append, List.cons_append,
            List.nil_append, encodeItems, hrp, encodeItems, hreL, encodeItems, hreR]
          simp [List.append_assoc]
        · intro Drest Srest stack fuel
          rw [hD]
          have hlen : ([ResponseChunk.parent (some n) b true true,
              ResponseChunk.leaf (chunkNum t n)
                ((leafByteRanges3 t n).2.1 - (leafByteRanges3 t n).1) false,
              ResponseChunk.leaf (chunkNum t n + chunkGroupChunks t)
                ((leafByteRanges3 t n).2.2 - (leafByteRanges3 t n).2.1) false]).length +
              fuel = fuel + 1 + 1 + 1 := by
            simp only [List.length_cons, List.length_nil]
            omega
          rw [hlen, List.cons_append, List.cons_append, List.cons_append,
            List.nil_append, List.cons_append, List.cons_append, List.append_assoc,
            respRunAux_ok (respStep_parent true true
              (hashSubtree (chunkNum t n)
                (slice data (leafByteRanges3 t n).1 (leafByteRanges3 t n).2.1) false ::
               hashSubtree (chunkNum t n + chunkGroupChunks t)
                (slice data (leafByteRanges3 t n).2.1 (leafByteRanges3 t n).2.2) false ::
               stack)
              (sHash_leaf_full b hleaf (by omega)) rfl),
            respRunAux_ok (respStep_leaf hlbuf rfl),
            respRunAux_ok (respStep_leaf hrbuf rfl)]
          rfl
        · intro x hx
          simp only [List.mem_cons, List.mem_singleton] at hx
          rcases hx with h | h
          · exact ⟨_, h⟩
          · rcases h with h | h
            · exact ⟨_, h⟩
            · rcases h with h | h
              · exact ⟨_, h⟩
              · exact absurd h (by simp)
        · intro hrn0
          have hpos0 : min (blockRangeStart n * blockBytes t) t.size =
              n * blockBytes t := by
            rw [hbrs]
            omega
          have hposE : min (blockRangeEnd n * blockBytes t) t.size =
              (leafByteRanges3 t n).2.2 := by
            rw [hbre, hsme3]
          rw [show leavesOfItems [Except.ok (DecodeResponseItem.parent (some n)
              (hashSubtree (chunkNum t n)
                (slice data (leafByteRanges3 t n).1 (leafByteRanges3 t n).2.1) false,
               hashSubtree (chunkNum t n + chunkGroupChunks t)
                (slice data (leafByteRanges3 t n).2.1 (leafByteRanges3 t n).2.2) false)),
             Except.ok (DecodeResponseItem.leaf (chunkNum t n * 1024)
              (slice data (leafByteRanges3 t n).1 (leafByteRanges3 t n).2.1)),
             Except.ok (DecodeResponseItem.leaf ((chunkNum t n + chunkGroupChunks t) * 1024)
              (slice data (leafByteRanges3 t n).2.1 (leafByteRanges3 t n).2.2))] =
            [(chunkNum t n * 1024,
              slice data (leafByteRanges3 t n).1 (leafByteRanges3 t n).2.1),
             ((chunkNum t n + chunkGroupChunks t) * 1024,
              slice data (leafByteRanges3 t n).2.1 (leafByteRanges3 t n).2.2)] from rfl]
          rw [hpos0, hposE, joinLeaves, if_pos (by rw [chunkNum_mul_1024]), hlbuf]
          rw [show n * blockBytes t +
              ((leafByteRanges3 t n).2.1 - (leafByteRanges3 t n).1) =
              (leafByteRanges3 t n).2.1 from by rw [hsme1, hm]; omega]
          rw [joinLeaves, if_pos (by rw [chunkNum_succ_mul_1024, hm]), hrbuf]
          rw [show (leafByteRanges3 t n).2.1 +
              ((leafByteRanges3 t n).2.2 - (leafByteRanges3 t n).2.1) =
              (leafByteRanges3 t n).2.2 from by omega]
          have hsl : slice data (n * blockBytes t) (leafByteRanges3 t n).2.1 ++
              slice data (leafByteRanges3 t n).2.1 (leafByteRanges3 t n).2.2 =
              slice data (n * blockBytes t) (leafByteRanges3 t n).2.2 :=
            slice_append (by rw [hm]; omega) hm2le
          rw [joinLeaves]
          simp [hsl, hsme1]
        · rw [hD]
          rfl

theorem leavesOfItems_append (A B : List (Except BaoError DecodeResponseItem)) :
    leavesOfItems (A ++ B) = leavesOfItems A ++ leavesOfItems B := by
  simp [leavesOfItems]

set_option maxHeartbeats 1000000 in
theorem decode_run (t : BaoTree) (data : List Nat) (o : Outboard)
    (hsc : t.start_chunk = 0) (hsz : data.length = t.size)
    (hload : ∀ m, o.load m = .ok (refPair t data m)) :
    ∀ lvl n, levelOf n ≤ lvl → n < filledSize t →
      ∀ rn (b : Bool), ¬ rsIsEmpty rn = true →
      (t.block_size = 0 ∨ rn = [0]) →
      (∀ x ∈ rn, x < chunksCeil t.size) →
      DecodeRunOk t data o n rn b := by
  have h0 : startBlock t = 0 := by
    rw [startBlock, hsc]
    simp
  have hodd := filledSize_odd h0
  have hbb : 1 ≤ blockBytes t := by
    rw [blockBytes]
    have h2 : 1 ≤ 2 ^ t.block_size := Nat.one_le_two_pow
    omega
  have hblocks : t.size ≤ blocksOf t * blockBytes t := by
    rw [blocksOf]
    rcases Nat.eq_zero_or_pos t.size with h | h
    · omega
    · have hq : t.size ≤ (t.size + blockBytes t - 1) / blockBytes t * blockBytes t := by
        by_contra hcon
        push_neg at hcon
        have h6 : t.size + blockBytes t - 1 <
            ((t.size + blockBytes t - 1) / blockBytes t + 1) * blockBytes t := by
          rw [← Nat.div_lt_iff_lt_mul (show 0 < blockBytes t by omega)]
          omega
        have h7 : ((t.size + blockBytes t - 1) / blockBytes t + 1) * blockBytes t =
            (t.size + blockBytes t - 1) / blockBytes t * blockBytes t + blockBytes t := by
          ring
        omega
      have h4 : max ((t.size + blockBytes t - 1) / blockBytes t) 1 * blockBytes t ≥
          (t.size + blockBytes t - 1) / blockBytes t * blockBytes t :=
        Nat.mul_le_mul (le_max_left _ _) (Nat.le_refl _)
      omega
  have hfs : filledSize t = 2 * leafCount t - 1 := by
    rw [filledSize, h0]
    omega
  have hblk2 : blocksOf t ≤ 2 * leafCount t := by
    rw [leafCount]
    omega
  intro lvl
  induction lvl using Nat.strong_induction_on with
  | _ lvl ih =>
    intro n hlvl hn rn b hne hpass hbound
    by_cases hleaf : isLeaf n = true
    · exact decode_run_leaf t data o hsc hsz hload hleaf hn rn b hne hpass hbound
    · have hV : n + 1 < filledSize t := by
        rcases valid_of_lt_odd hodd hn with h | h
        · exact absurd h hleaf
        · exact h
      have hleaf' : isLeaf n = false := by
        rcases hEq : isLeaf n
        · rfl
        · exact absurd hEq hleaf
      have hlev1 : 1 ≤ levelOf n := by
        rcases Nat.eq_zero_or_pos (levelOf n) with hz | h
        · exact absurd (by simp [isLeaf, hz]) hleaf
        · exact h
      obtain ⟨r, hrd, hrstart, hrlt, hrlev, hrend⟩ := rightDescendant_spec hlev1 hV
      obtain ⟨l, hlc⟩ : ∃ l, leftChild n = some l := by
        rw [leftChild, if_neg (by omega)]
        exact ⟨_, rfl⟩
      have hlevl := levelOf_of_leftChild hlc
      have hllt : l < filledSize t := by
        have hle : l ≤ n := by
          rw [leftChild, if_neg (by omega)] at hlc
          injection hlc with hlc
          have hq : 1 ≤ 2 ^ (levelOf n - 1) := Nat.one_le_two_pow
          omega
        omega
      have hlevND : ¬ levelOf n = 0 := by omega
      have hpers : isPersisted t n = true := by
        rw [isPersisted, hleaf']
        simp
      have hqlF : ¬ (isLeaf n || (rsFull rn (toChunks (blockRangeStart n) t.block_size) &&
          decide (levelOf n ≤ 0))) = true := by
        simp [hleaf', hlevND]
      have hinfo := @preNodesR_internal t (filledSize t) 0 n l r rn b hne hqlF hlc hrd
      have hrp : o.load n = .ok (some (sHash t data l false, sHash t data r false)) := by
        rw [hload n, refPair, if_pos hpers]
        simp [hleaf', hlc, hrd]
      have hpassL : t.block_size = 0 ∨
          (rsSplit (toChunks (midBlock n) t.block_size) rn).1 = [0] := by
        rcases hpass with h | h
        · exact Or.inl h
        · right
          rw [h, rsSplit_all (one_le_toChunks_mid t n)]
      have hpassR : t.block_size = 0 ∨
          (rsSplit (toChunks (midBlock n) t.block_size) rn).2 = [0] := by
        rcases hpass with h | h
        · exact Or.inl h
        · right
          rw [h, rsSplit_all (one_le_toChunks_mid t n)]
      have hboundL : ∀ x ∈ (rsSplit (toChunks (midBlock n) t.block_size) rn).1,
          x < chunksCeil t.size := fun x hx => hbound x (mem_rsSplit_left hx)
      have hboundR : ∀ x ∈ (rsSplit (toChunks (midBlock n) t.block_size) rn).2,
          x < chunksCeil t.size := fun x hx => hbound x (mem_rsSplit_right hx)
      by_cases hfl : rsIsEmpty (rsSplit (toChunks (midBlock n) t.block_size) rn).1 = true
      · by_cases hfr : rsIsEmpty (rsSplit (toChunks (midBlock n) t.block_size) rn).2 = true
        · exact absurd hfr (fun h => rsSplit_not_both_empty hne hfl h)
        · -- only the right side is queried
          have hfr' : rsIsEmpty (rsSplit (toChunks (midBlock n) t.block_size) rn).2 =
              false := by
            rcases hEq : rsIsEmpty (rsSplit (toChunks (midBlock n) t.block_size) rn).2
            · rfl
            · exact absurd hEq hfr
          have hEmpL : subDirs t l (rsSplit (toChunks (midBlock n) t.block_size) rn).1
              false = [] := by
            rw [subDirs, preNodesR_empty hfl]
            rfl
          obtain ⟨Br, Ir, hEr, hDr, hOkr, hJr, hLr⟩ :=
            ih (levelOf r) (by omega) r le_rfl hrlt
              (rsSplit (toChunks (midBlock n) t.block_size) rn).2 false
              (by simp [hfr']) hpassR hboundR
          have hsub : subDirs t n rn b =
              .parent n b false true rn ::
                (subDirs t l (rsSplit (toChunks (midBlock n) t.block_size) rn).1 false ++
                 subDirs t r (rsSplit (toChunks (midBlock n) t.block_size) rn).2 false) := by
            rw [subDirs, hinfo]
            simp only [List.flatMap_cons, List.flatMap_append, subDirs]
            simp [chunkItemsOf, hleaf', hpers, hlevND, hfl, hfr']
          have hDn : (subDirs t n rn b).flatMap (responseItemsOf t) =
              .parent (some n) b false true ::
                (subDirs t r (rsSplit (toChunks (midBlock n) t.block_size) rn).2
                  false).flatMap (responseItemsOf t) := by
            rw [hsub, List.flatMap_cons, hEmpL]
            simp [responseItemsOf]
          refine ⟨Sym.hsh (sHash t data l false) :: Sym.hsh (sHash t data r false) :: Br,
            .ok (.parent (some n) (sHash t data l false, sHash t data r false)) :: Ir,
            ?_, ?_, ?_, ?_, ?_⟩
          · intro Irest
            rw [hsub, hEmpL, List.cons_append, List.nil_append, encodeItems_parent hrp,
              hEr Irest]
            rfl
          · intro Drest Srest stack fuel
            rw [hDn]
            have hlen : (ResponseChunk.parent (some n) b false true ::
                (subDirs t r (rsSplit (toChunks (midBlock n) t.block_size) rn).2
                  false).flatMap (responseItemsOf t)).length + fuel =
                ((subDirs t r (rsSplit (toChunks (midBlock n) t.block_size) rn).2
                  false).flatMap (responseItemsOf t)).length + fuel + 1 := by
              simp only [List.length_cons]
              omega
            rw [hlen]
            simp only [List.cons_append, List.append_assoc]
            rw [respRunAux_ok (respStep_parent false true (sHash t data r false :: stack)
                (sHash_internal b hleaf hlc hrd) rfl),
              hDr Drest Srest stack fuel]
          · intro x hx
            rcases List.mem_cons.mp hx with h | h
            · exact ⟨_, h⟩
            · exact hOkr x h
          · intro hrn0
            subst hrn0
            rw [rsSplit_all (one_le_toChunks_mid t n)] at hfl
            simp [rsIsEmpty] at hfl
          · rw [hDn]
            rw [show leavesOfItems (Except.ok (DecodeResponseItem.parent (some n)
                (sHash t data l false, sHash t data r false)) :: Ir) =
              leavesOfItems Ir from rfl]
            rw [show dirLeafChunks (ResponseChunk.parent (some n) b false true ::
                (subDirs t r (rsSplit (toChunks (midBlock n) t.block_size) rn).2
                  false).flatMap (responseItemsOf t)) =
              dirLeafChunks ((subDirs t r
                (rsSplit (toChunks (midBlock n) t.block_size) rn).2
                  false).flatMap (responseItemsOf t)) from rfl]
            exact hLr
      · by_cases hfr : rsIsEmpty (rsSplit (toChunks (midBlock n) t.block_size) rn).2 = true
        · -- only the left side is queried
          have hfl' : rsIsEmpty (rsSplit (toChunks (midBlock n) t.block_size) rn).1 =
              false := by
            rcases hEq : rsIsEmpty (rsSplit (toChunks (midBlock n) t.block_size) rn).1
            · rfl
            · exact absurd hEq hfl
          have hEmpR : subDirs t r (rsSplit (toChunks (midBlock n) t.block_size) rn).2
              false = [] := by
            rw [subDirs, preNodesR_empty hfr]
            rfl
          obtain ⟨Bl, Il, hEl, hDl, hOkl, hJl, hLl⟩ :=
            ih (levelOf l) (by omega) l le_rfl hllt
              (rsSplit (toChunks (midBlock n) t.block_size) rn).1 false
              (by simp [hfl']) hpassL hboundL
          have hsub : subDirs t n rn b =
              .parent n b true false rn ::
                (subDirs t l (rsSplit (toChunks (midBlock n) t.block_size) rn).1 false ++
                 subDirs t r (rsSplit (toChunks (midBlock n) t.block_size) rn).2 false) := by
            rw [subDirs, hinfo]
            simp only [List.flatMap_cons, List.flatMap_append, subDirs]
            simp [chunkItemsOf, hleaf', hpers, hlevND, hfl', hfr]
          have hDn : (subDirs t n rn b).flatMap (responseItemsOf t) =
              .parent (some n) b true false ::
                (subDirs t l (rsSplit (toChunks (midBlock n) t.block_size) rn).1
                  false).flatMap (responseItemsOf t) := by
            rw [hsub, List.flatMap_cons, hEmpR]
            simp [responseItemsOf]
          refine ⟨Sym.hsh (sHash t data l false) :: Sym.hsh (sHash t data r false) :: Bl,
            .ok (.parent (some n) (sHash t data l false, sHash t data r false)) :: Il,
            ?_, ?_, ?_, ?_, ?_⟩
          · intro Irest
            rw [hsub, hEmpR, List.cons_append, List.append_nil, encodeItems_parent hrp,
              hEl Irest]
            rfl
          · intro Drest Srest stack fuel
            rw [hDn]
            have hlen : (ResponseChunk.parent (some n) b true false ::
                (subDirs t l (rsSplit (toChunks (midBlock n) t.block_size) rn).1
                  false).flatMap (responseItemsOf t)).length + fuel =
                ((subDirs t l (rsSplit (toChunks (midBlock n) t.block_size) rn).1
                  false).flatMap (responseItemsOf t)).length + fuel + 1 := by
              simp only [List.length_cons]
              omega
            rw [hlen]
            simp only [List.cons_append, List.append_assoc]
            rw [respRunAux_ok (respStep_parent true false (sHash t data l false :: stack)
                (sHash_internal b hleaf hlc hrd) rfl),
              hDl Drest Srest stack fuel]
          · intro x hx
            rcases List.mem_cons.mp hx with h | h
            · exact ⟨_, h⟩
            · exact hOkl x h
          · intro hrn0
            subst hrn0
            rw [rsSplit_all (one_le_toChunks_mid t n)] at hfr
            simp [rsIsEmpty] at hfr
          · rw [hDn]
            rw [show leavesOfItems (Except.ok (DecodeResponseItem.parent (some n)
                (sHash t data l false, sHash t data r false)) :: Il) =
              leavesOfItems Il from rfl]
            rw [show dirLeafChunks (ResponseChunk.parent (some n) b true false ::
                (subDirs t l (rsSplit (toChunks (midBlock n) t.block_size) rn).1
                  false).flatMap (responseItemsOf t)) =
              dirLeafChunks ((subDirs t l
                (rsSplit (toChunks (midBlock n) t.block_size) rn).1
                  false).flatMap (responseItemsOf t)) from rfl]
            exact hLl
        · -- both sides are queried
          have hfl' : rsIsEmpty (rsSplit (toChunks (midBlock n) t.block_size) rn).1 =
              false := by
            rcases hEq : rsIsEmpty (rsSplit (toChunks (midBlock n) t.block_size) rn).1
            · rfl
            · exact absurd hEq hfl
          have hfr' : rsIsEmpty (rsSplit (toChunks (midBlock n) t.block_size) rn).2 =
              false := by
            rcases hEq : rsIsEmpty (rsSplit (toChunks (midBlock n) t.block_size) rn).2
            · rfl
            · exact absurd hEq hfr
          obtain ⟨Bl, Il, hEl, hDl, hOkl, hJl, hLl⟩ :=
            ih (levelOf l) (by omega) l le_rfl hllt
              (rsSplit (toChunks (midBlock n) t.block_size) rn).1 false
              (by simp [hfl']) hpassL hboundL
          obtain ⟨Br, Ir, hEr, hDr, hOkr, hJr, hLr⟩ :=
            ih (levelOf r) (by omega) r le_rfl hrlt
              (rsSplit (toChunks (midBlock n) t.block_size) rn).2 false
              (by simp [hfr']) hpassR hboundR
          have hsub : subDirs t n rn b =
              .parent n b true true rn ::
                (subDirs t l (rsSplit (toChunks (midBlock n) t.block_size) rn).1 false ++
                 subDirs t r (rsSplit (toChunks (midBlock n) t.block_size) rn).2 false) := by
            rw [subDirs, hinfo]
            simp only [List.flatMap_cons, List.flatMap_append, subDirs]
            simp [chunkItemsOf, hleaf', hpers, hlevND, hfl', hfr']
          have hDn : (subDirs t n rn b).flatMap (responseItemsOf t) =
              .parent (some n) b true true ::
                ((subDirs t l (rsSplit (toChunks (midBlock n) t.block_size) rn).1
                   false).flatMap (responseItemsOf t) ++
                 (subDirs t r (rsSplit (toChunks (midBlock n) t.block_size) rn).2
                   false).flatMap (responseItemsOf t)) := by
            rw [hsub]
            simp [responseItemsOf]
          refine ⟨Sym.hsh (sHash t data l false) :: Sym.hsh (sHash t data r false) ::
              (Bl ++ Br),
            .ok (.parent (some n) (sHash t data l false, sHash t data r false)) ::
              (Il ++ Ir),
            ?_, ?_, ?_, ?_, ?_⟩
          · intro Irest
            rw [hsub, List.cons_append, encodeItems_parent hrp, List.append_assoc,
              hEl (subDirs t r (rsSplit (toChunks (midBlock n) t.block_size) rn).2
                false ++ Irest),
              hEr Irest]
            simp [List.append_assoc]
          · intro Drest Srest stack fuel
            rw [hDn]
            have hlen : (ResponseChunk.parent (some n) b true true ::
                ((subDirs t l (rsSplit (toChunks (midBlock n) t.block_size) rn).1
                   false).flatMap (responseItemsOf t) ++
                 (subDirs t r (rsSplit (toChunks (midBlock n) t.block_size) rn).2
                   false).flatMap (responseItemsOf t))).length + fuel =
                ((subDirs t l (rsSplit (toChunks (midBlock n) t.block_size) rn).1
                   false).flatMap (responseItemsOf t)).length +
                (((subDirs t r (rsSplit (toChunks (midBlock n) t.block_size) rn).2
                   false).flatMap (responseItemsOf t)).length + fuel) + 1 := by
              simp only [List.length_cons, List.length_append]
              omega
            rw [hlen]
            simp only [List.cons_append, List.append_assoc]
            rw [respRunAux_ok (respStep_parent true true
                (sHash t data l false :: sHash t data r false :: stack)
                (sHash_internal b hleaf hlc hrd) rfl),
              hDl (((subDirs t r (rsSplit (toChunks (midBlock n) t.block_size) rn).2
                  false).flatMap (responseItemsOf t)) ++ Drest) (Br ++ Srest)
                (sHash t data r false :: stack)
                (((subDirs t r (rsSplit (toChunks (midBlock n) t.block_size) rn).2
                  false).flatMap (responseItemsOf t)).length + fuel),
              hDr Drest Srest stack fuel]
          · intro x hx
            rcases List.mem_cons.mp hx with h | h
            · exact ⟨_, h⟩
            · rcases List.mem_append.mp h with h | h
              · exact hOkl x h
              · exact hOkr x h
          · intro hrn0
            have hlr : rsSplit (toChunks (midBlock n) t.block_size) rn = ([0], [0]) := by
              rw [hrn0]
              exact rsSplit_all (one_le_toChunks_mid t n)
            have hJl' := hJl (by rw [hlr])
            have hJr' := hJr (by rw [hlr])
            have hstartl : min (blockRangeStart n * blockBytes t) t.size =
                min (blockRangeStart l * blockBytes t) t.size := by
              rw [blockRangeStart_leftChild hlc]
            have hstartr : min (blockRangeEnd l * blockBytes t) t.size =
                min (blockRangeStart r * blockBytes t) t.size := by
              rw [blockRangeEnd_leftChild hlc, hrstart]
            have hposend : min (blockRangeEnd r * blockBytes t) t.size =
                min (blockRangeEnd n * blockBytes t) t.size := by
              rcases hrend with he | he
              · rw [he]
              · have h1 := @blockRangeEnd_sub_start r
                have h2 : 2 ^ (levelOf r + 1) ≤ 2 ^ levelOf n :=
                  Nat.pow_le_pow_right (by omega) (by omega)
                have hle : blockRangeEnd r ≤ blockRangeEnd n := by
                  rw [h1, hrstart, midBlock, blockRangeEnd]
                  omega
                have h3 : blocksOf t ≤ blockRangeEnd r := by
                  omega
                have h4 : blocksOf t * blockBytes t ≤ blockRangeEnd r * blockBytes t :=
                  Nat.mul_le_mul h3 (Nat.le_refl _)
                have h5 : blockRangeEnd r * blockBytes t ≤
                    blockRangeEnd n * blockBytes t :=
                  Nat.mul_le_mul hle (Nat.le_refl _)
                omega
            have hab : min (blockRangeStart l * blockBytes t) t.size ≤
                min (blockRangeStart r * blockBytes t) t.size := by
              have hbl : blockRangeStart l ≤ blockRangeStart r := by
                have hp1 : 1 ≤ 2 ^ levelOf n := Nat.one_le_two_pow
                rw [blockRangeStart_leftChild hlc, hrstart, blockRangeStart, midBlock]
                omega
              exact min_le_min (Nat.mul_le_mul hbl (Nat.le_refl _)) le_rfl
            have hbc : min (blockRangeStart r * blockBytes t) t.size ≤
                min (blockRangeEnd n * blockBytes t) t.size := by
              have hbl : blockRangeStart r ≤ blockRangeEnd n := by
                have hp1 : 1 ≤ 2 ^ levelOf n := Nat.one_le_two_pow
                rw [hrstart, midBlock, blockRangeEnd]
                omega
              exact min_le_min (Nat.mul_le_mul hbl (Nat.le_refl _)) le_rfl
            have hsl := @slice_append data _ _ _ hab hbc
            rw [show leavesOfItems (Except.ok (DecodeResponseItem.parent (some n)
                (sHash t data l false, sHash t data r false)) :: (Il ++ Ir)) =
              leavesOfItems (Il ++ Ir) from rfl, leavesOfItems_append]
            rw [hstartl, joinLeaves_append _ _ _ _ _ hJl', hstartr, hJr', hposend]
            simp only [Option.map_some']
            rw [hsl]
          · rw [hDn]
            rw [show leavesOfItems (Except.ok (DecodeResponseItem.parent (some n)
                (sHash t data l false, sHash t data r false)) :: (Il ++ Ir)) =
              leavesOfItems (Il ++ Ir) from rfl]
            rw [show dirLeafChunks (ResponseChunk.parent (some n) b true true ::
                ((subDirs t l (rsSplit (toChunks (midBlock n) t.block_size) rn).1
                   false).flatMap (responseItemsOf t) ++
                 (subDirs t r (rsSplit (toChunks (midBlock n) t.block_size) rn).2
                   false).flatMap (responseItemsOf t))) =
              dirLeafChunks ((subDirs t l
                  (rsSplit (toChunks (midBlock n) t.block_size) rn).1
                   false).flatMap (responseItemsOf t) ++
                (subDirs t r (rsSplit (toChunks (midBlock n) t.block_size) rn).2
                   false).flatMap (responseItemsOf t)) from rfl]
            rw [leavesOfItems_append, dirLeafChunks_append, List.map_append,
              List.map_append, hLl, hLr]

/-- C2: the decoder's stack invariant.  When the top of the hash stack is
the reference hash of the next subtree of the encoder's pre-order, the
decoder verifies that subtree's directives against the encoder's bytes,
popping exactly that hash and yielding only `Ok` items
(`DecodeRunOk`); and on every Parent directive the left hash is pushed
above the right hash — the stack becomes
`(if left then [lh] else []) ++ (if right then [rh] else []) ++ rest` —
so the left subtree's hash is popped first, matching the pre-order. -/
theorem c2_verifier_stack_invariant (t : BaoTree) (data : List Nat) (o : Outboard)
    (hsc : t.start_chunk = 0) (hsz : data.length = t.size)
    (hload : ∀ m, o.load m = .ok (refPair t data m))
    (n : Nat) (hn : n < filledSize t) (rn : ChunkRangesRef) (b : Bool)
    (hne : ¬ rsIsEmpty rn = true) (hpass : t.block_size = 0 ∨ rn = [0])
    (hbound : ∀ x ∈ rn, x < chunksCeil t.size) :
    DecodeRunOk t data o n rn b ∧
    (∀ (node : Option Nat) (ir fl fr : Bool) (rest : List ResponseChunk)
       (lh rh h : Hash) (stack : List Hash) (enc : ByteStream),
      h = Hash.parentCV lh rh ir →
      respNext0 ⟨.content (.parent node ir fl fr :: rest), h :: stack,
          Sym.hsh lh :: Sym.hsh rh :: enc⟩ =
        (.ok (some (.parent node (lh, rh))),
          ⟨.content rest,
            (if fl then [lh] else []) ++ (if fr then [rh] else []) ++ stack, enc⟩)) :=
  ⟨decode_run t data o hsc hsz hload (levelOf n) n le_rfl hn rn b hne hpass hbound,
   fun _ _ fl fr _ _ _ _ _ _ hh => respStep_parent fl fr _ hh rfl⟩

/-- Witness for C2: a one-byte blob with block size 0, decoding the root
subtree over the full range. -/
theorem c2_verifier_stack_invariant_witness :
    ((BaoTree.new 1 0).start_chunk = 0 ∧
     ([7] : List Nat).length = (BaoTree.new 1 0).size ∧
     (∀ m, (refOutboard [7] 0).load m = .ok (refPair (BaoTree.new 1 0) [7] m)) ∧
     0 < filledSize (BaoTree.new 1 0) ∧
     ¬ rsIsEmpty [0] = true ∧
     ((BaoTree.new 1 0).block_size = 0 ∨ ([0] : ChunkRangesRef) = [0]) ∧
     (∀ x ∈ ([0] : ChunkRangesRef), x < chunksCeil (BaoTree.new 1 0).size)) ∧
    (DecodeRunOk (BaoTree.new 1 0) [7] (refOutboard [7] 0) 0 [0] true ∧
     (∀ (node : Option Nat) (ir fl fr : Bool) (rest : List ResponseChunk)
        (lh rh h : Hash) (stack : List Hash) (enc : ByteStream),
       h = Hash.parentCV lh rh ir →
       respNext0 ⟨.content (.parent node ir fl fr :: rest), h :: stack,
           Sym.hsh lh :: Sym.hsh rh :: enc⟩ =
         (.ok (some (.parent node (lh, rh))),
           ⟨.content rest,
             (if fl then [lh] else []) ++ (if fr then [rh] else []) ++ stack, enc⟩))) :=
  ⟨⟨rfl, rfl, fun _ => rfl, by decide, by decide, Or.inl rfl, by decide⟩,
   c2_verifier_stack_invariant (BaoTree.new 1 0) [7] (refOutboard [7] 0) rfl rfl
     (fun _ => rfl) 0 (by decide) [0] true (by decide) (Or.inl rfl) (by decide)⟩

theorem ok_run_no_error {e : BaoError}
    {rest items : List (Except BaoError DecodeResponseItem)}
    (heq : items = .error e :: rest)
    (hok : ∀ x ∈ items, ∃ it, x = Except.ok it) : False := by
  obtain ⟨it, hit⟩ := hok (.error e) (by rw [heq]; exact List.mem_cons_self _ _)
  exact absurd hit (by simp)

/-- In a run of the decoder that yields only `Ok` items, the emitted leaf
offsets are exactly 1024 times the start chunks of the leaf directives of
the processed prefix of the directive list, in order: the decoder
processes one directive per step and the offset of an accepted leaf is
the directive's start chunk times the chunk size. -/
theorem respRun_ok_leaf_offsets :
    ∀ (fuel : Nat) (D : List ResponseChunk) (stack : List Hash) (enc : ByteStream),
      (∀ x ∈ respRunAux fuel ⟨.content D, stack, enc⟩, ∃ it, x = Except.ok it) →
      ∃ k, (leavesOfItems (respRunAux fuel ⟨.content D, stack, enc⟩)).map Prod.fst =
        (dirLeafChunks (D.take k)).map (· * 1024) := by
  intro fuel
  induction fuel with
  | zero =>
    intro D stack enc _
    exact ⟨0, by simp [respRunAux, leavesOfItems, dirLeafChunks]⟩
  | succ fuel ih =>
    intro D stack enc hok
    rcases D with _ | ⟨d, Drest⟩
    · exact ⟨0, by simp [respRunAux, respNext0, leavesOfItems, dirLeafChunks]⟩
    · rcases d with ⟨node, ir, fl, fr⟩ | ⟨sc, sz, ir2⟩
      · -- a Parent directive
        rcases hrp : readParent enc with e | ⟨⟨lh, rh⟩, st⟩
        · have hrun : respRunAux (fuel + 1)
              ⟨.content (.parent node ir fl fr :: Drest), stack, enc⟩ =
              .error (.parentNotFound node) ::
                respRunAux fuel ⟨.content Drest, stack, enc⟩ := by
            rw [respRunAux]
            simp [respNext0, hrp]
          exact (ok_run_no_error hrun hok).elim
        · rcases stack with _ | ⟨h, stackRest⟩
          · have hrun : respRunAux (fuel + 1)
                ⟨.content (.parent node ir fl fr :: Drest), [], enc⟩ =
                .error .unwrapPanic ::
                  respRunAux fuel ⟨.content Drest, [], st⟩ := by
              rw [respRunAux]
              simp [respNext0, hrp]
            exact (ok_run_no_error hrun hok).elim
          · by_cases hmatch : h = Hash.parentCV lh rh ir
            · have hrun : respRunAux (fuel + 1)
                  ⟨.content (.parent node ir fl fr :: Drest), h :: stackRest, enc⟩ =
                  .ok (.parent node (lh, rh)) ::
                    respRunAux fuel ⟨.content Drest,
                      (if fl then [lh] else []) ++ (if fr then [rh] else []) ++ stackRest,
                      st⟩ := by
                rw [respRunAux]
                simp [respNext0, hrp, hmatch]
              obtain ⟨k, hk⟩ := ih Drest
                ((if fl then [lh] else []) ++ (if fr then [rh] else []) ++ stackRest) st
                (fun x hx => hok x (by rw [hrun]; exact List.mem_cons_of_mem _ hx))
              refine ⟨k + 1, ?_⟩
              rw [hrun]
              rw [show leavesOfItems (Except.ok (DecodeResponseItem.parent node (lh, rh)) ::
                  respRunAux fuel ⟨.content Drest,
                    (if fl then [lh] else []) ++ (if fr then [rh] else []) ++ stackRest,
                    st⟩) =
                leavesOfItems (respRunAux fuel ⟨.content Drest,
                  (if fl then [lh] else []) ++ (if fr then [rh] else []) ++ stackRest,
                  st⟩) from rfl]
              rw [hk]
              rfl
            · have hrun : respRunAux (fuel + 1)
                  ⟨.content (.parent node ir fl fr :: Drest), h :: stackRest, enc⟩ =
                  .error (.parentHashMismatch node) ::
                    respRunAux fuel ⟨.content Drest, stackRest, st⟩ := by
                rw [respRunAux]
                simp [respNext0, hrp, hmatch]
              exact (ok_run_no_error hrun hok).elim
      · -- a Leaf directive
        rcases hrd : readData sz enc with e | ⟨buf, st⟩
        · have hrun : respRunAux (fuel + 1)
              ⟨.content (.leaf sc sz ir2 :: Drest), stack, enc⟩ =
              .error (.leafNotFound sc) ::
                respRunAux fuel ⟨.content Drest, stack, enc⟩ := by
            rw [respRunAux]
            simp [respNext0, hrd]
          exact (ok_run_no_error hrun hok).elim
        · rcases stack with _ | ⟨h, stackRest⟩
          · have hrun : respRunAux (fuel + 1)
                ⟨.content (.leaf sc sz ir2 :: Drest), [], enc⟩ =
                .error .unwrapPanic ::
                  respRunAux fuel ⟨.content Drest, [], st⟩ := by
              rw [respRunAux]
              simp [respNext0, hrd]
            exact (ok_run_no_error hrun hok).elim
          · by_cases hmatch : h = hashSubtree sc buf ir2
            · have hrun : respRunAux (fuel + 1)
                  ⟨.content (.leaf sc sz ir2 :: Drest), h :: stackRest, enc⟩ =
                  .ok (.leaf (sc * 1024) buf) ::
                    respRunAux fuel ⟨.content Drest, stackRest, st⟩ := by
                rw [respRunAux]
                simp [respNext0, hrd, hmatch]
              obtain ⟨k, hk⟩ := ih Drest stackRest st
                (fun x hx => hok x (by rw [hrun]; exact List.mem_cons_of_mem _ hx))
              refine ⟨k + 1, ?_⟩
              rw [hrun]
              rw [show leavesOfItems (Except.ok (DecodeResponseItem.leaf (sc * 1024) buf) ::
                  respRunAux fuel ⟨.content Drest, stackRest, st⟩) =
                (sc * 1024, buf) ::
                  leavesOfItems (respRunAux fuel ⟨.content Drest, stackRest, st⟩) from rfl]
              rw [List.map_cons, hk]
              rfl
            · have hrun : respRunAux (fuel + 1)
                  ⟨.content (.leaf sc sz ir2 :: Drest), h :: stackRest, enc⟩ =
                  .error (.leafHashMismatch sc) ::
                    respRunAux fuel ⟨.content Drest, stackRest, st⟩ := by
                rw [respRunAux]
                simp [respNext0, hrd, hmatch]
              exact (ok_run_no_error hrun hok).elim

/-! ### Ordering of the emitted leaf chunks -/

/-- The start chunks of the leaf items of a chunk-iterator item list. -/
def chunkLeafChunks (items : List (BaoChunk ChunkRangesRef)) : List Nat :=
  items.filterMap (fun c => match c with
    | .leaf sc _ _ _ => some sc
    | _ => none)

theorem chunkLeafChunks_append (A B : List (BaoChunk ChunkRangesRef)) :
    chunkLeafChunks (A ++ B) = chunkLeafChunks A ++ chunkLeafChunks B := by
  simp [chunkLeafChunks]

theorem chunkLeafChunks_cons_parent (nd : Nat) (ir lf rt : Bool) (rg : ChunkRangesRef)
    (L : List (BaoChunk ChunkRangesRef)) :
    chunkLeafChunks (.parent nd ir lf rt rg :: L) = chunkLeafChunks L := rfl

theorem dirLeafChunks_cons_parent (nd : Option Nat) (ir lf rt : Bool)
    (L : List ResponseChunk) :
    dirLeafChunks (.parent nd ir lf rt :: L) = dirLeafChunks L := rfl

theorem chunksCeil_mul_1024 (b : Nat) : chunksCeil (b * 1024) = b := by
  rw [chunksCeil]
  omega

/-- Mapping the little tree's chunk items to response chunks keeps the
leaf start chunks. -/
theorem dirLeafChunks_map (l : List (BaoChunk ChunkRangesRef)) :
    dirLeafChunks (l.map (fun c =>
      match c with
      | .parent _ is_root left right _ => ResponseChunk.parent none is_root left right
      | .leaf sc sz ir _ => ResponseChunk.leaf sc sz ir)) = chunkLeafChunks l := by
  induction l with
  | nil => rfl
  | cons a l ih =>
    cases a with
    | parent nd ir lf rt rg => simpa [dirLeafChunks, chunkLeafChunks] using ih
    | leaf sc sz ir rg => simpa [dirLeafChunks, chunkLeafChunks] using ih

set_option maxHeartbeats 1000000 in
/-- The leaf items of the pre-order chunk traversal of one subtree of a
block-size-0 tree, at any `max_skip_level`, have strictly increasing
start chunks, all inside the node's block span. -/
theorem chunk_leaf_chunks (u : BaoTree) (hbs : u.block_size = 0)
    (hodd : filledSize u % 2 = 1) (msl : Nat) :
    ∀ lvl n, levelOf n ≤ lvl → n < filledSize u → ∀ rn (b : Bool),
      List.Chain' (· < ·)
        (chunkLeafChunks ((preNodesR u (filledSize u) msl n rn b).flatMap
          (chunkItemsOf u))) ∧
      ∀ c ∈ chunkLeafChunks ((preNodesR u (filledSize u) msl n rn b).flatMap
          (chunkItemsOf u)),
        blockRangeStart n ≤ c ∧ c < blockRangeEnd n := by
  have hcgc : chunkGroupChunks u = 1 := by
    rw [chunkGroupChunks, hbs]
    rfl
  intro lvl
  induction lvl using Nat.strong_induction_on with
  | _ lvl ih =>
    intro n hlvl hn rn b
    by_cases hemp : rsIsEmpty rn = true
    · rw [preNodesR_empty hemp]
      exact ⟨by simp [chunkLeafChunks], by simp [chunkLeafChunks]⟩
    · by_cases hql : (isLeaf n || (rsFull rn (toChunks (blockRangeStart n) u.block_size) &&
          decide (levelOf n ≤ msl))) = true
      · have hinfo := @preNodesR_query u (filledSize u) msl n rn b hemp hql
        by_cases hleaf : isLeaf n = true
        · -- a physical leaf: at most its two half blocks, in order
          have hl0 : levelOf n = 0 := by
            simpa [isLeaf] using hleaf
          have hbrs : blockRangeStart n = n := blockRangeStart_leaf hl0
          have hbre : blockRangeEnd n = n + 2 := by
            rw [blockRangeEnd, hl0]
            norm_num
          have hiso : isPersisted u n =
              (!(isLeaf n) || decide ((leafByteRanges3 u n).2.1 <
                (leafByteRanges3 u n).2.2)) := rfl
          by_cases hhalf : (leafByteRanges3 u n).2.1 = (leafByteRanges3 u n).2.2
          · have hpers : isPersisted u n = false := by
              rw [hiso, hleaf, hhalf]
              simp
            by_cases hfl : rsIsEmpty (rsSplit (toChunks (midBlock n) u.block_size) rn).1 = true
            · have hsub : chunkLeafChunks
                  ((preNodesR u (filledSize u) msl n rn b).flatMap (chunkItemsOf u)) =
                  [] := by
                rw [hinfo, List.flatMap_cons, List.flatMap_nil, List.append_nil]
                simp [chunkItemsOf, chunkLeafChunks, hleaf, hpers, hfl]
              rw [hsub]
              exact ⟨List.chain'_nil, by simp⟩
            · have hfl' : rsIsEmpty (rsSplit (toChunks (midBlock n) u.block_size) rn).1 =
                  false := by
                rcases hEq : rsIsEmpty (rsSplit (toChunks (midBlock n) u.block_size) rn).1
                · rfl
                · exact absurd hEq hfl
              have hsub : chunkLeafChunks
                  ((preNodesR u (filledSize u) msl n rn b).flatMap (chunkItemsOf u)) =
                  [n] := by
                rw [hinfo, List.flatMap_cons, List.flatMap_nil, List.append_nil]
                simp [chunkItemsOf, chunkLeafChunks, hleaf, hpers, hfl', chunkNum, hcgc]
              rw [hsub]
              refine ⟨List.chain'_singleton _, ?_⟩
              intro c hc
              simp only [List.mem_singleton] at hc
              subst hc
              omega
          · have hpers : isPersisted u n = true := by
              rw [hiso, hleaf]
              have hle : (leafByteRanges3 u n).2.1 ≤ (leafByteRanges3 u n).2.2 := by
                rw [leafByteRanges3]
                simp only
                have hbb : 1 ≤ blockBytes u := by
                  rw [blockBytes]
                  have h2 : 1 ≤ 2 ^ u.block_size := Nat.one_le_two_pow
                  omega
                have h1 : (n + 1) * blockBytes u ≤ (n + 2) * blockBytes u :=
                  Nat.mul_le_mul (by omega) (Nat.le_refl _)
                omega
              simp
              omega
            by_cases hfl : rsIsEmpty (rsSplit (toChunks (midBlock n) u.block_size) rn).1 = true
            · by_cases hfr : rsIsEmpty (rsSplit (toChunks (midBlock n) u.block_size) rn).2 = true
              · exact absurd hfr (fun h => rsSplit_not_both_empty hemp hfl h)
              · have hfr' : rsIsEmpty (rsSplit (toChunks (midBlock n) u.block_size) rn).2 =
                    false := by
                  rcases hEq : rsIsEmpty (rsSplit (toChunks (midBlock n) u.block_size) rn).2
                  · rfl
                  · exact absurd hEq hfr
                have hsub : chunkLeafChunks
                    ((preNodesR u (filledSize u) msl n rn b).flatMap (chunkItemsOf u)) =
                    [n + 1] := by
                  rw [hinfo, List.flatMap_cons, List.flatMap_nil, List.append_nil]
                  simp [chunkItemsOf, chunkLeafChunks, hleaf, hpers, hfl, hfr',
                    chunkNum, hcgc]
                rw [hsub]
                refine ⟨List.chain'_singleton _, ?_⟩
                intro c hc
                simp only [List.mem_singleton] at hc
                subst hc
                omega
            · have hfl' : rsIsEmpty (rsSplit (toChunks (midBlock n) u.block_size) rn).1 =
                  false := by
                rcases hEq : rsIsEmpty (rsSplit (toChunks (midBlock n) u.block_size) rn).1
                · rfl
                · exact absurd hEq hfl
              by_cases hfr : rsIsEmpty (rsSplit (toChunks (midBlock n) u.block_size) rn).2 = true
              · have hsub : chunkLeafChunks
                    ((preNodesR u (filledSize u) msl n rn b).flatMap (chunkItemsOf u)) =
                    [n] := by
                  rw [hinfo, List.flatMap_cons, List.flatMap_nil, List.append_nil]
                  simp [chunkItemsOf, chunkLeafChunks, hleaf, hpers, hfl', hfr,
                    chunkNum, hcgc]
                rw [hsub]
                refine ⟨List.chain'_singleton _, ?_⟩
                intro c hc
                simp only [List.mem_singleton] at hc
                subst hc
                omega
              · have hfr' : rsIsEmpty (rsSplit (toChunks (midBlock n) u.block_size) rn).2 =
                    false := by
                  rcases hEq : rsIsEmpty (rsSplit (toChunks (midBlock n) u.block_size) rn).2
                  · rfl
                  · exact absurd hEq hfr
                have hsub : chunkLeafChunks
                    ((preNodesR u (filledSize u) msl n rn b).flatMap (chunkItemsOf u)) =
                    [n, n + 1] := by
                  rw [hinfo, List.flatMap_cons, List.flatMap_nil, List.append_nil]
                  simp [chunkItemsOf, chunkLeafChunks, hleaf, hpers, hfl', hfr',
                    chunkNum, hcgc]
                rw [hsub]
                refine ⟨List.chain'_cons.mpr ⟨by omega, List.chain'_singleton _⟩, ?_⟩
                intro c hc
                simp only [List.mem_cons, List.not_mem_nil, or_false] at hc
                rcases hc with hc | hc
                · subst hc
                  omega
                · subst hc
                  omega
        · -- a skipped internal subtree: one spanning leaf
          have hleaf' : isLeaf n = false := by
            rcases hEq : isLeaf n
            · rfl
            · exact absurd hEq hleaf
          have hfull2 : (rsFull rn (toChunks (blockRangeStart n) u.block_size) &&
              decide (levelOf n ≤ msl)) = true := by
            simpa [hleaf'] using hql
          have hpers : isPersisted u n = true := by
            rw [isPersisted, hleaf']
            simp
          have h1 : 1 ≤ 2 ^ levelOf n := Nat.one_le_two_pow
          have hbb : blockBytes u = 1024 := by
            rw [blockBytes, hbs]
            rfl
          have hsub : chunkLeafChunks
              ((preNodesR u (filledSize u) msl n rn b).flatMap (chunkItemsOf u)) =
              [chunksCeil (blockRangeStart n * blockBytes u)] := by
            rw [hinfo, List.flatMap_cons, List.flatMap_nil, List.append_nil]
            simp [chunkItemsOf, chunkLeafChunks, hleaf', hfull2, hpers, byteRange]
          rw [hsub, hbb, chunksCeil_mul_1024]
          refine ⟨List.chain'_singleton _, ?_⟩
          intro c hc
          simp only [List.mem_singleton] at hc
          subst hc
          rw [blockRangeEnd, blockRangeStart]
          omega
      · -- an internal node that is recursed into
        have hleaf' : isLeaf n = false := by
          rcases hEq : isLeaf n
          · rfl
          · exact absurd (by rw [hEq]; rfl) hql
        have hleafN : ¬ isLeaf n = true := by
          rw [hleaf']
          simp
        have hV : n + 1 < filledSize u := by
          rcases valid_of_lt_odd hodd hn with h | h
          · exact absurd h hleafN
          · exact h
        have hlev1 : 1 ≤ levelOf n := by
          rcases Nat.eq_zero_or_pos (levelOf n) with hz | h
          · exact absurd (by simp [isLeaf, hz]) hleafN
          · exact h
        obtain ⟨r, hrd, hrstart, hrlt, hrlev, hrend⟩ := rightDescendant_spec hlev1 hV
        obtain ⟨l, hlc⟩ : ∃ l, leftChild n = some l := by
          rw [leftChild, if_neg (by omega)]
          exact ⟨_, rfl⟩
        have hlevl := levelOf_of_leftChild hlc
        have hllt : l < filledSize u := by
          have hle : l ≤ n := by
            rw [leftChild, if_neg (by omega)] at hlc
            injection hlc with hlc
            have hq : 1 ≤ 2 ^ (levelOf n - 1) := Nat.one_le_two_pow
            omega
          omega
        have hpers : isPersisted u n = true := by
          rw [isPersisted, hleaf']
          simp
        have hX : (rsFull rn (toChunks (blockRangeStart n) u.block_size) &&
            decide (levelOf n ≤ msl)) = false := by
          rcases hEq : (rsFull rn (toChunks (blockRangeStart n) u.block_size) &&
              decide (levelOf n ≤ msl))
          · rfl
          · exact absurd (by rw [hEq]; simp) hql
        have hinfo := @preNodesR_internal u (filledSize u) msl n l r rn b hemp hql hlc hrd
        have hsub : (preNodesR u (filledSize u) msl n rn b).flatMap (chunkItemsOf u) =
            BaoChunk.parent n b
              (!(rsIsEmpty (rsSplit (toChunks (midBlock n) u.block_size) rn).1))
              (!(rsIsEmpty (rsSplit (toChunks (midBlock n) u.block_size) rn).2)) rn ::
            ((preNodesR u (filledSize u) msl l
                (rsSplit (toChunks (midBlock n) u.block_size) rn).1 false).flatMap
                  (chunkItemsOf u) ++
             (preNodesR u (filledSize u) msl r
                (rsSplit (toChunks (midBlock n) u.block_size) rn).2 false).flatMap
                  (chunkItemsOf u)) := by
          rw [hinfo]
          simp only [List.flatMap_cons, List.flatMap_append]
          simp [chunkItemsOf, hleaf', hX, hpers]
        have hdir : chunkLeafChunks ((preNodesR u (filledSize u) msl n rn b).flatMap
              (chunkItemsOf u)) =
            chunkLeafChunks ((preNodesR u (filledSize u) msl l
              (rsSplit (toChunks (midBlock n) u.block_size) rn).1 false).flatMap
                (chunkItemsOf u)) ++
            chunkLeafChunks ((preNodesR u (filledSize u) msl r
              (rsSplit (toChunks (midBlock n) u.block_size) rn).2 false).flatMap
                (chunkItemsOf u)) := by
          rw [hsub, chunkLeafChunks_cons_parent, chunkLeafChunks_append]
        have hLside : List.Chain' (· < ·)
            (chunkLeafChunks ((preNodesR u (filledSize u) msl l
              (rsSplit (toChunks (midBlock n) u.block_size) rn).1 false).flatMap
                (chunkItemsOf u))) ∧
            ∀ c ∈ chunkLeafChunks ((preNodesR u (filledSize u) msl l
              (rsSplit (toChunks (midBlock n) u.block_size) rn).1 false).flatMap
                (chunkItemsOf u)),
              blockRangeStart l ≤ c ∧ c < blockRangeEnd l :=
          ih (levelOf l) (by omega) l le_rfl hllt _ false
        have hRside : List.Chain' (· < ·)
            (chunkLeafChunks ((preNodesR u (filledSize u) msl r
              (rsSplit (toChunks (midBlock n) u.block_size) rn).2 false).flatMap
                (chunkItemsOf u))) ∧
            ∀ c ∈ chunkLeafChunks ((preNodesR u (filledSize u) msl r
              (rsSplit (toChunks (midBlock n) u.block_size) rn).2 false).flatMap
                (chunkItemsOf u)),
              blockRangeStart r ≤ c ∧ c < blockRangeEnd r :=
          ih (levelOf r) (by omega) r le_rfl hrlt _ false
        have hbrel : blockRangeEnd l = midBlock n := blockRangeEnd_leftChild hlc
        have hbrsl : blockRangeStart l = blockRangeStart n := blockRangeStart_leftChild hlc
        have hp1 : 1 ≤ 2 ^ levelOf n := Nat.one_le_two_pow
        have hbren : blockRangeEnd n = blockRangeStart n + 2 ^ (levelOf n + 1) :=
          blockRangeEnd_sub_start
        have hbrer : blockRangeEnd r = blockRangeStart r + 2 ^ (levelOf r + 1) :=
          blockRangeEnd_sub_start
        have hpow : 2 ^ (levelOf r + 1) ≤ 2 ^ levelOf n :=
          Nat.pow_le_pow_right (by omega) (by omega)
        have hbrele : blockRangeEnd r ≤ blockRangeEnd n := by
          have hh1 : blockRangeEnd r = n + 1 + 2 ^ (levelOf r + 1) := by
            rw [hbrer, hrstart, midBlock]
          have hh2 : blockRangeEnd n = n + 1 + 2 ^ levelOf n := by
            rw [blockRangeEnd]
          omega
        rw [hdir]
        constructor
        · refine List.Chain'.append hLside.1 hRside.1 ?_
          intro x hx y hy
          have hxm := hLside.2 x (List.mem_of_mem_getLast? hx)
          have hym := hRside.2 y (List.mem_of_mem_head? hy)
          rw [hbrel, midBlock] at hxm
          rw [hrstart, midBlock] at hym
          omega
        · intro c hc
          rcases List.mem_append.mp hc with h | h
          · have hm := hLside.2 c h
            rw [hbrsl] at hm
            rw [hbrel, midBlock] at hm
            have hx : n + 1 ≤ blockRangeEnd n := by
              rw [blockRangeEnd]
              omega
            exact ⟨hm.1, by omega⟩
          · have hm := hRside.2 c h
            rw [hrstart, midBlock] at hm
            have hy : blockRangeStart n ≤ n + 1 := by
              rw [blockRangeStart]
              omega
            exact ⟨by omega, by omega⟩

set_option maxHeartbeats 1000000 in
/-- The little tree a partially-requested chunk group is expanded
through: its leaf start chunks are strictly increasing and stay inside
the chunk group. -/
theorem little_chunks (sc sz bs : Nat) (ir : Bool) (rg : ChunkRangesRef)
    (hbs1 : 1 ≤ bs) (hdvd : 2 ^ bs ∣ sc) (hsz : sz ≤ 1024 * 2 ^ bs) :
    List.Chain' (· < ·)
      (chunkLeafChunks (preOrderChunks ⟨sc, sz, 0, ir⟩ rg 255)) ∧
    ∀ c ∈ chunkLeafChunks (preOrderChunks ⟨sc, sz, 0, ir⟩ rg 255),
      sc ≤ c ∧ c < sc + 2 ^ bs := by
  have hsb : startBlock ⟨sc, sz, 0, ir⟩ = sc := by
    rw [startBlock, chunkGroupChunks]
    simp
  have heven : sc % 2 = 0 := by
    obtain ⟨q, hq⟩ := (pow_dvd_pow 2 hbs1).trans hdvd
    rw [pow_one] at hq
    omega
  have hodd : filledSize ⟨sc, sz, 0, ir⟩ % 2 = 1 :=
    filledSize_odd_of_even (by rw [hsb]; exact heven)
  have hval := rootNode_valid_of_even (t := ⟨sc, sz, 0, ir⟩) (by rw [hsb]; exact heven)
  have hlt := rootNode_lt_filledSize_any ⟨sc, sz, 0, ir⟩
  have hbb : blockBytes ⟨sc, sz, 0, ir⟩ = 1024 := by
    rw [blockBytes]
    rfl
  have h2bs : 1 ≤ 2 ^ bs := Nat.one_le_two_pow
  have hblocks : blocksOf ⟨sc, sz, 0, ir⟩ ≤ 2 ^ bs := by
    rw [blocksOf, hbb]
    show max ((sz + 1024 - 1) / 1024) 1 ≤ 2 ^ bs
    omega
  have hlc2 : leafCount ⟨sc, sz, 0, ir⟩ ≤ 2 ^ (bs - 1) := by
    rw [leafCount]
    have h2 : 2 ^ bs = 2 * 2 ^ (bs - 1) := by
      rcases Nat.exists_eq_add_of_le hbs1 with ⟨k, hk⟩
      rw [show bs = k + 1 by omega, show k + 1 - 1 = k from rfl]
      ring
    omega
  have hk : ceilLog2 (leafCount ⟨sc, sz, 0, ir⟩) + 1 ≤ bs := by
    have hm : ceilLog2 (leafCount ⟨sc, sz, 0, ir⟩) ≤ bs - 1 := by
      rw [ceilLog2_eq_clog]
      calc Nat.clog 2 (leafCount ⟨sc, sz, 0, ir⟩) ≤ Nat.clog 2 (2 ^ (bs - 1)) :=
            Nat.clog_mono_right 2 hlc2
        _ = bs - 1 := Nat.clog_pow 2 (bs - 1) (by norm_num)
    omega
  have hdvd2 : 2 ^ (ceilLog2 (leafCount ⟨sc, sz, 0, ir⟩) + 1) ∣
      startBlock ⟨sc, sz, 0, ir⟩ := by
    rw [hsb]
    exact (pow_dvd_pow 2 hk).trans hdvd
  have hlev := levelOf_rootNode_of_dvd hdvd2
  have hroot : rootNode ⟨sc, sz, 0, ir⟩ =
      sc + (2 ^ ceilLog2 (leafCount ⟨sc, sz, 0, ir⟩) - 1) := by
    rw [rootNode, hsb]
  have h2k : 2 ^ (ceilLog2 (leafCount ⟨sc, sz, 0, ir⟩) + 1) ≤ 2 ^ bs :=
    Nat.pow_le_pow_right (by norm_num) hk
  have h2k' : 2 ^ (ceilLog2 (leafCount ⟨sc, sz, 0, ir⟩) + 1) =
      2 * 2 ^ ceilLog2 (leafCount ⟨sc, sz, 0, ir⟩) := by ring
  have h1k : 1 ≤ 2 ^ ceilLog2 (leafCount ⟨sc, sz, 0, ir⟩) := Nat.one_le_two_pow
  have hpc : preOrderChunks ⟨sc, sz, 0, ir⟩ rg 255 =
      (preNodesR ⟨sc, sz, 0, ir⟩ (filledSize ⟨sc, sz, 0, ir⟩) 255
        (rootNode ⟨sc, sz, 0, ir⟩) rg ir).flatMap (chunkItemsOf ⟨sc, sz, 0, ir⟩) := by
    rw [preOrderChunks, preOrderNodes_eq_of hodd hval rg 255]
  obtain ⟨hch, hmem⟩ := chunk_leaf_chunks ⟨sc, sz, 0, ir⟩ rfl hodd 255
    (levelOf (rootNode ⟨sc, sz, 0, ir⟩)) (rootNode ⟨sc, sz, 0, ir⟩) le_rfl hlt rg ir
  have hbrs : blockRangeStart (rootNode ⟨sc, sz, 0, ir⟩) = sc := by
    rw [blockRangeStart, hlev, hroot]
    omega
  have hbre : blockRangeEnd (rootNode ⟨sc, sz, 0, ir⟩) =
      sc + 2 ^ (ceilLog2 (leafCount ⟨sc, sz, 0, ir⟩) + 1) := by
    rw [blockRangeEnd, hlev, hroot]
    omega
  refine ⟨by rw [hpc]; exact hch, ?_⟩
  intro c hc
  rw [hpc] at hc
  have hm := hmem c hc
  rw [hbrs, hbre] at hm
  omega

set_option maxHeartbeats 1000000 in
/-- The response items of one leaf directive of the wire traversal: leaf
start chunks strictly increasing, all inside the directive's chunk
group. -/
theorem leaf_directive_chunks (t : BaoTree) (sc sz : Nat) (fl : Bool)
    (rg : ChunkRangesRef) (hsc : 2 ^ t.block_size ∣ sc) (hsz : sz ≤ blockBytes t) :
    List.Chain' (· < ·)
      (dirLeafChunks (responseItemsOf t (.leaf sc sz fl rg))) ∧
    ∀ c ∈ dirLeafChunks (responseItemsOf t (.leaf sc sz fl rg)),
      sc ≤ c ∧ c < sc + chunkGroupChunks t := by
  have hg1 : 1 ≤ chunkGroupChunks t := Nat.one_le_two_pow
  by_cases hpass : (t.block_size = 0 || rsIsAll rg) = true
  · rw [responseItemsOf, if_pos hpass]
    refine ⟨List.chain'_singleton _, ?_⟩
    intro c hc
    simp only [dirLeafChunks, List.filterMap_cons, List.filterMap_nil] at hc
    simp only [List.mem_singleton] at hc
    subst hc
    omega
  · have hbsne : ¬ t.block_size = 0 := by
      intro h
      exact hpass (by rw [h]; rfl)
    have hbs1 : 1 ≤ t.block_size := by omega
    have hre : responseItemsOf t (.leaf sc sz fl rg) =
        (preOrderChunks ⟨sc, sz, 0, fl⟩ rg 255).map (fun c =>
          match c with
          | .parent _ is_root left right _ => ResponseChunk.parent none is_root left right
          | .leaf sc sz ir _ => ResponseChunk.leaf sc sz ir) := by
      rw [responseItemsOf, if_neg hpass]
    rw [hre, dirLeafChunks_map]
    have hszb : sz ≤ 1024 * 2 ^ t.block_size := by
      rw [blockBytes] at hsz
      exact hsz
    obtain ⟨hch, hmem⟩ := little_chunks sc sz t.block_size fl rg hbs1 hsc hszb
    refine ⟨hch, ?_⟩
    intro c hc
    have hm := hmem c hc
    rw [chunkGroupChunks]
    omega

set_option maxHeartbeats 1000000 in
/-- The leaf directives of one visited subtree of the canonical wire
traversal have strictly increasing start chunks, all inside the node's
chunk span. -/
theorem dirs_leaf_chunks (t : BaoTree) (h0 : startBlock t = 0) :
    ∀ lvl n, levelOf n ≤ lvl → n < filledSize t → ∀ rn (b : Bool),
      List.Chain' (· < ·)
        (dirLeafChunks ((subDirs t n rn b).flatMap (responseItemsOf t))) ∧
      ∀ c ∈ dirLeafChunks ((subDirs t n rn b).flatMap (responseItemsOf t)),
        blockRangeStart n * chunkGroupChunks t ≤ c ∧
        c < blockRangeEnd n * chunkGroupChunks t := by
  have hodd := filledSize_odd h0
  have hg1 : 1 ≤ chunkGroupChunks t := Nat.one_le_two_pow
  intro lvl
  induction lvl using Nat.strong_induction_on with
  | _ lvl ih =>
    intro n hlvl hn rn b
    by_cases hemp : rsIsEmpty rn = true
    · have hsub : subDirs t n rn b = [] := by
        rw [subDirs, preNodesR_empty hemp]
        rfl
      rw [hsub]
      exact ⟨by simp [dirLeafChunks], by simp [dirLeafChunks]⟩
    · by_cases hleaf : isLeaf n = true
      · -- a physical leaf: each emitted half stays inside its chunk group
        have hl0 : levelOf n = 0 := by
          simpa [isLeaf] using hleaf
        have hbrs : blockRangeStart n = n := blockRangeStart_leaf hl0
        have hbre : blockRangeEnd n = n + 2 := by
          rw [blockRangeEnd, hl0]
          norm_num
        have hql : (isLeaf n || (rsFull rn (toChunks (blockRangeStart n) t.block_size) &&
            decide (levelOf n ≤ 0))) = true := by
          rw [hleaf]
          rfl
        have hinfo := @preNodesR_query t (filledSize t) 0 n rn b hemp hql
        have hiso : isPersisted t n =
            (!(isLeaf n) || decide ((leafByteRanges3 t n).2.1 <
              (leafByteRanges3 t n).2.2)) := rfl
        have hcn2 : chunkNum t n = n * chunkGroupChunks t := rfl
        have hdvdl : 2 ^ t.block_size ∣ chunkNum t n :=
          ⟨n, by rw [chunkNum, chunkGroupChunks, Nat.mul_comm]⟩
        have hdvdr : 2 ^ t.block_size ∣ chunkNum t n + chunkGroupChunks t :=
          ⟨n + 1, by rw [chunkNum, chunkGroupChunks]; ring⟩
        have hd0 : (n + 1) * blockBytes t = n * blockBytes t + blockBytes t := by ring
        have hd1 : (n + 2) * blockBytes t =
            n * blockBytes t + blockBytes t + blockBytes t := by ring
        have hszl : (leafByteRanges3 t n).2.1 - (leafByteRanges3 t n).1 ≤
            blockBytes t := by
          rw [leafByteRanges3]
          simp only
          omega
        have hszr : (leafByteRanges3 t n).2.2 - (leafByteRanges3 t n).2.1 ≤
            blockBytes t := by
          rw [leafByteRanges3]
          simp only
          omega
        have he1 : (n + 2) * chunkGroupChunks t =
            n * chunkGroupChunks t + chunkGroupChunks t + chunkGroupChunks t := by ring
        by_cases hhalf : (leafByteRanges3 t n).2.1 = (leafByteRanges3 t n).2.2
        · have hpers : isPersisted t n = false := by
            rw [hiso, hleaf, hhalf]
            simp
          by_cases hfl : rsIsEmpty (rsSplit (toChunks (midBlock n) t.block_size) rn).1 = true
          · have hsub : subDirs t n rn b = [] := by
              rw [subDirs, hinfo, List.flatMap_cons, List.flatMap_nil, List.append_nil]
              simp [chunkItemsOf, hleaf, hpers, hfl]
            rw [hsub]
            exact ⟨by simp [dirLeafChunks], by simp [dirLeafChunks]⟩
          · have hfl' : rsIsEmpty (rsSplit (toChunks (midBlock n) t.block_size) rn).1 =
                false := by
              rcases hEq : rsIsEmpty (rsSplit (toChunks (midBlock n) t.block_size) rn).1
              · rfl
              · exact absurd hEq hfl
            have hsub : subDirs t n rn b =
                [.leaf (chunkNum t n)
                  ((leafByteRanges3 t n).2.1 - (leafByteRanges3 t n).1) b
                  (rsSplit (toChunks (midBlock n) t.block_size) rn).1] := by
              rw [subDirs, hinfo, List.flatMap_cons, List.flatMap_nil, List.append_nil]
              simp [chunkItemsOf, hleaf, hpers, hfl']
            have hD : (subDirs t n rn b).flatMap (responseItemsOf t) =
                responseItemsOf t (.leaf (chunkNum t n)
                  ((leafByteRanges3 t n).2.1 - (leafByteRanges3 t n).1) b
                  (rsSplit (toChunks (midBlock n) t.block_size) rn).1) := by
              rw [hsub, List.flatMap_cons, List.flatMap_nil, List.append_nil]
            rw [hD]
            obtain ⟨hch, hmem⟩ := leaf_directive_chunks t (chunkNum t n)
              ((leafByteRanges3 t n).2.1 - (leafByteRanges3 t n).1) b
              (rsSplit (toChunks (midBlock n) t.block_size) rn).1 hdvdl hszl
            refine ⟨hch, ?_⟩
            intro c hc
            have hm := hmem c hc
            rw [hcn2] at hm
            rw [hbrs, hbre]
            omega
        · have hpers : isPersisted t n = true := by
            rw [hiso, hleaf]
            have hle : (leafByteRanges3 t n).2.1 ≤ (leafByteRanges3 t n).2.2 := by
              rw [leafByteRanges3]
              simp only
              have hbb : 1 ≤ blockBytes t := by
                rw [blockBytes]
                have h2 : 1 ≤ 2 ^ t.block_size := Nat.one_le_two_pow
                omega
              have h1 : (n + 1) * blockBytes t ≤ (n + 2) * blockBytes t :=
                Nat.mul_le_mul (by omega) (Nat.le_refl _)
              omega
            simp
            omega
          by_cases hfl : rsIsEmpty (rsSplit (toChunks (midBlock n) t.block_size) rn).1 = true
          · by_cases hfr : rsIsEmpty (rsSplit (toChunks (midBlock n) t.block_size) rn).2 = true
            · exact absurd hfr (fun h => rsSplit_not_both_empty hemp hfl h)
            · have hfr' : rsIsEmpty (rsSplit (toChunks (midBlock n) t.block_size) rn).2 =
                  false := by
                rcases hEq : rsIsEmpty (rsSplit (toChunks (midBlock n) t.block_size) rn).2
                · rfl
                · exact absurd hEq hfr
              have hsub : subDirs t n rn b =
                  [.parent n b false true rn,
                   .leaf (chunkNum t n + chunkGroupChunks t)
                     ((leafByteRanges3 t n).2.2 - (leafByteRanges3 t n).2.1) false
                     (rsSplit (toChunks (midBlock n) t.block_size) rn).2] := by
                rw [subDirs, hinfo, List.flatMap_cons, List.flatMap_nil, List.append_nil]
                simp [chunkItemsOf, hleaf, hpers, hfl, hfr']
              have hD : (subDirs t n rn b).flatMap (responseItemsOf t) =
                  ResponseChunk.parent (some n) b false true ::
                    responseItemsOf t (.leaf (chunkNum t n + chunkGroupChunks t)
                      ((leafByteRanges3 t n).2.2 - (leafByteRanges3 t n).2.1) false
                      (rsSplit (toChunks (midBlock n) t.block_size) rn).2) := by
                rw [hsub, List.flatMap_cons, List.flatMap_cons, List.flatMap_nil,
                  List.append_nil]
                rfl
              rw [hD, dirLeafChunks_cons_parent]
              obtain ⟨hch, hmem⟩ := leaf_directive_chunks t
                (chunkNum t n + chunkGroupChunks t)
                ((leafByteRanges3 t n).2.2 - (leafByteRanges3 t n).2.1) false
                (rsSplit (toChunks (midBlock n) t.block_size) rn).2 hdvdr hszr
              refine ⟨hch, ?_⟩
              intro c hc
              have hm := hmem c hc
              rw [hcn2] at hm
              rw [hbrs, hbre]
              omega
          · have hfl' : rsIsEmpty (rsSplit (toChunks (midBlock n) t.block_size) rn).1 =
                false := by
              rcases hEq : rsIsEmpty (rsSplit (toChunks (midBlock n) t.block_size) rn).1
              · rfl
              · exact absurd hEq hfl
            by_cases hfr : rsIsEmpty (rsSplit (toChunks (midBlock n) t.block_size) rn).2 = true
            · have hsub : subDirs t n rn b =
                  [.parent n b true false rn,
                   .leaf (chunkNum t n)
                     ((leafByteRanges3 t n).2.1 - (leafByteRanges3 t n).1) false
                     (rsSplit (toChunks (midBlock n) t.block_size) rn).1] := by
                rw [subDirs, hinfo, List.flatMap_cons, List.flatMap_nil, List.append_nil]
                simp [chunkItemsOf, hleaf, hpers, hfl', hfr]
              have hD : (subDirs t n rn b).flatMap (responseItemsOf t) =
                  ResponseChunk.parent (some n) b true false ::
                    responseItemsOf t (.leaf (chunkNum t n)
                      ((leafByteRanges3 t n).2.1 - (leafByteRanges3 t n).1) false
                      (rsSplit (toChunks (midBlock n) t.block_size) rn).1) := by
                rw [hsub, List.flatMap_cons, List.flatMap_cons, List.flatMap_nil,
                  List.append_nil]
                rfl
              rw [hD, dirLeafChunks_cons_parent]
              obtain ⟨hch, hmem⟩ := leaf_directive_chunks t (chunkNum t n)
                ((leafByteRanges3 t n).2.1 - (leafByteRanges3 t n).1) false
                (rsSplit (toChunks (midBlock n) t.block_size) rn).1 hdvdl hszl
              refine ⟨hch, ?_⟩
              intro c hc
              have hm := hmem c hc
              rw [hcn2] at hm
              rw [hbrs, hbre]
              omega
            · have hfr' : rsIsEmpty (rsSplit (toChunks (midBlock n) t.block_size) rn).2 =
                  false := by
                rcases hEq : rsIsEmpty (rsSplit (toChunks (midBlock n) t.block_size) rn).2
                · rfl
                · exact absurd hEq hfr
              have hsub : subDirs t n rn b =
                  [.parent n b true true rn,
                   .leaf (chunkNum t n)
                     ((leafByteRanges3 t n).2.1 - (leafByteRanges3 t n).1) false
                     (rsSplit (toChunks (midBlock n) t.block_size) rn).1,
                   .leaf (chunkNum t n + chunkGroupChunks t)
                     ((leafByteRanges3 t n).2.2 - (leafByteRanges3 t n).2.1) false
                     (rsSplit (toChunks (midBlock n) t.block_size) rn).2] := by
                rw [subDirs, hinfo, List.flatMap_cons, List.flatMap_nil, List.append_nil]
                simp [chunkItemsOf, hleaf, hpers, hfl', hfr']
              have hD : (subDirs t n rn b).flatMap (responseItemsOf t) =
                  ResponseChunk.parent (some n) b true true ::
                    (responseItemsOf t (.leaf (chunkNum t n)
                      ((leafByteRanges3 t n).2.1 - (leafByteRanges3 t n).1) false
                      (rsSplit (toChunks (midBlock n) t.block_size) rn).1) ++
                     responseItemsOf t (.leaf (chunkNum t n + chunkGroupChunks t)
                      ((leafByteRanges3 t n).2.2 - (leafByteRanges3 t n).2.1) false
                      (rsSplit (toChunks (midBlock n) t.block_size) rn).2)) := by
                rw [hsub, List.flatMap_cons, List.flatMap_cons, List.flatMap_cons,
                  List.flatMap_nil, List.append_nil]
                rfl
              rw [hD, dirLeafChunks_cons_parent, dirLeafChunks_append]
              obtain ⟨hchL, hmemL⟩ := leaf_directive_chunks t (chunkNum t n)
                ((leafByteRanges3 t n).2.1 - (leafByteRanges3 t n).1) false
                (rsSplit (toChunks (midBlock n) t.block_size) rn).1 hdvdl hszl
              obtain ⟨hchR, hmemR⟩ := leaf_directive_chunks t
                (chunkNum t n + chunkGroupChunks t)
                ((leafByteRanges3 t n).2.2 - (leafByteRanges3 t n).2.1) false
                (rsSplit (toChunks (midBlock n) t.block_size) rn).2 hdvdr hszr
              constructor
              · refine List.Chain'.append hchL hchR ?_
                intro x hx y hy
                have hxm := hmemL x (List.mem_of_mem_getLast? hx)
                have hym := hmemR y (List.mem_of_mem_head? hy)
                omega
              · intro c hc
                rcases List.mem_append.mp hc with h | h
                · have hm := hmemL c h
                  rw [hcn2] at hm
                  rw [hbrs, hbre]
                  omega
                · have hm := hmemR c h
                  rw [hcn2] at hm
                  rw [hbrs, hbre]
                  omega
      · -- an internal node: the parent directive and the two pruned sides
        have hV : n + 1 < filledSize t := by
          rcases valid_of_lt_odd hodd hn with h | h
          · exact absurd h hleaf
          · exact h
        have hleaf' : isLeaf n = false := by
          rcases hEq : isLeaf n
          · rfl
          · exact absurd hEq hleaf
        have hlev1 : 1 ≤ levelOf n := by
          rcases Nat.eq_zero_or_pos (levelOf n) with hz | h
          · exact absurd (by simp [isLeaf, hz]) hleaf
          · exact h
        obtain ⟨r, hrd, hrstart, hrlt, hrlev, hrend⟩ := rightDescendant_spec hlev1 hV
        obtain ⟨l, hlc⟩ : ∃ l, leftChild n = some l := by
          rw [leftChild, if_neg (by omega)]
          exact ⟨_, rfl⟩
        have hlevl := levelOf_of_leftChild hlc
        have hllt : l < filledSize t := by
          have hle : l ≤ n := by
            rw [leftChild, if_neg (by omega)] at hlc
            injection hlc with hlc
            have hq : 1 ≤ 2 ^ (levelOf n - 1) := Nat.one_le_two_pow
            omega
          omega
        have hlevND : ¬ levelOf n = 0 := by omega
        have hpers : isPersisted t n = true := by
          rw [isPersisted, hleaf']
          simp
        have hqlF : ¬ (isLeaf n || (rsFull rn (toChunks (blockRangeStart n) t.block_size) &&
            decide (levelOf n ≤ 0))) = true := by
          simp [hleaf', hlevND]
        have hinfo := @preNodesR_internal t (filledSize t) 0 n l r rn b hemp hqlF hlc hrd
        have hsub : subDirs t n rn b =
            .parent n b (!(rsIsEmpty (rsSplit (toChunks (midBlock n) t.block_size) rn).1))
              (!(rsIsEmpty (rsSplit (toChunks (midBlock n) t.block_size) rn).2)) rn ::
              (subDirs t l (rsSplit (toChunks (midBlock n) t.block_size) rn).1 false ++
               subDirs t r (rsSplit (toChunks (midBlock n) t.block_size) rn).2 false) := by
          rw [subDirs, hinfo]
          simp only [List.flatMap_cons, List.flatMap_append, subDirs]
          simp [chunkItemsOf, hleaf', hpers, hlevND]
        have hdir : dirLeafChunks ((subDirs t n rn b).flatMap (responseItemsOf t)) =
            dirLeafChunks ((subDirs t l
                (rsSplit (toChunks (midBlock n) t.block_size) rn).1 false).flatMap
                  (responseItemsOf t)) ++
            dirLeafChunks ((subDirs t r
                (rsSplit (toChunks (midBlock n) t.block_size) rn).2 false).flatMap
                  (responseItemsOf t)) := by
          rw [hsub, List.flatMap_cons, List.flatMap_append, responseItemsOf]
          rw [show dirLeafChunks ([ResponseChunk.parent (some n) b
              (!(rsIsEmpty (rsSplit (toChunks (midBlock n) t.block_size) rn).1))
              (!(rsIsEmpty (rsSplit (toChunks (midBlock n) t.block_size) rn).2))] ++
              ((subDirs t l (rsSplit (toChunks (midBlock n) t.block_size) rn).1
                false).flatMap (responseItemsOf t) ++
               (subDirs t r (rsSplit (toChunks (midBlock n) t.block_size) rn).2
                false).flatMap (responseItemsOf t))) =
            dirLeafChunks
              ((subDirs t l (rsSplit (toChunks (midBlock n) t.block_size) rn).1
                false).flatMap (responseItemsOf t) ++
               (subDirs t r (rsSplit (toChunks (midBlock n) t.block_size) rn).2
                false).flatMap (responseItemsOf t)) from rfl]
          exact dirLeafChunks_append _ _
        have hLside : List.Chain' (· < ·)
            (dirLeafChunks ((subDirs t l
              (rsSplit (toChunks (midBlock n) t.block_size) rn).1 false).flatMap
                (responseItemsOf t))) ∧
            ∀ c ∈ dirLeafChunks ((subDirs t l
              (rsSplit (toChunks (midBlock n) t.block_size) rn).1 false).flatMap
                (responseItemsOf t)),
              blockRangeStart l * chunkGroupChunks t ≤ c ∧
              c < blockRangeEnd l * chunkGroupChunks t :=
          ih (levelOf l) (by omega) l le_rfl hllt _ false
        have hRside : List.Chain' (· < ·)
            (dirLeafChunks ((subDirs t r
              (rsSplit (toChunks (midBlock n) t.block_size) rn).2 false).flatMap
                (responseItemsOf t))) ∧
            ∀ c ∈ dirLeafChunks ((subDirs t r
              (rsSplit (toChunks (midBlock n) t.block_size) rn).2 false).flatMap
                (responseItemsOf t)),
              blockRangeStart r * chunkGroupChunks t ≤ c ∧
              c < blockRangeEnd r * chunkGroupChunks t :=
          ih (levelOf r) (by omega) r le_rfl hrlt _ false
        have hbrel : blockRangeEnd l = midBlock n := blockRangeEnd_leftChild hlc
        have hbrsl : blockRangeStart l = blockRangeStart n := blockRangeStart_leftChild hlc
        have hp1 : 1 ≤ 2 ^ levelOf n := Nat.one_le_two_pow
        have hbren : blockRangeEnd n = blockRangeStart n + 2 ^ (levelOf n + 1) :=
          blockRangeEnd_sub_start
        have hbrer : blockRangeEnd r = blockRangeStart r + 2 ^ (levelOf r + 1) :=
          blockRangeEnd_sub_start
        have hpow : 2 ^ (levelOf r + 1) ≤ 2 ^ levelOf n :=
          Nat.pow_le_pow_right (by omega) (by omega)
        have hbrele : blockRangeEnd r ≤ blockRangeEnd n := by
          have hh1 : blockRangeEnd r = n + 1 + 2 ^ (levelOf r + 1) := by
            rw [hbrer, hrstart, midBlock]
          have hh2 : blockRangeEnd n = n + 1 + 2 ^ levelOf n := by
            rw [blockRangeEnd]
          omega
        rw [hdir]
        constructor
        · refine List.Chain'.append hLside.1 hRside.1 ?_
          intro x hx y hy
          have hxm := hLside.2 x (List.mem_of_mem_getLast? hx)
          have hym := hRside.2 y (List.mem_of_mem_head? hy)
          rw [hbrel, midBlock] at hxm
          rw [hrstart, midBlock] at hym
          omega
        · intro c hc
          rcases List.mem_append.mp hc with h | h
          · have hm := hLside.2 c h
            rw [hbrsl] at hm
            rw [hbrel, midBlock] at hm
            have hx : n + 1 ≤ blockRangeEnd n := by
              rw [blockRangeEnd]
              omega
            have hx2 : (n + 1) * chunkGroupChunks t ≤
                blockRangeEnd n * chunkGroupChunks t :=
              Nat.mul_le_mul_right _ hx
            exact ⟨hm.1, by omega⟩
          · have hm := hRside.2 c h
            rw [hrstart, midBlock] at hm
            have hy : blockRangeStart n ≤ n + 1 := by
              rw [blockRangeStart]
              omega
            have hy2 : blockRangeStart n * chunkGroupChunks t ≤
                (n + 1) * chunkGroupChunks t :=
              Nat.mul_le_mul_right _ hy
            have hz2 : blockRangeEnd r * chunkGroupChunks t ≤
                blockRangeEnd n * chunkGroupChunks t :=
              Nat.mul_le_mul_right _ hbrele
            exact ⟨by omega, by omega⟩

theorem leavesOfItems_cons_header (s : Nat)
    (rest : List (Except BaoError DecodeResponseItem)) :
    leavesOfItems (.ok (.header s) :: rest) = leavesOfItems rest := rfl

/-- Any all-`Ok` run of the decoder over the canonical wire traversal of
some tree yields leaf offsets in strictly increasing order. -/
theorem respRun_chain_of_responseChunks (sz bs : Nat) (rn : ChunkRangesRef)
    (fuel : Nat) (stack : List Hash) (enc : ByteStream)
    (hok : ∀ x ∈ respRunAux fuel
        ⟨.content (responseChunks (BaoTree.new sz bs) rn), stack, enc⟩,
      ∃ it, x = Except.ok it) :
    List.Chain' (· < ·)
      ((leavesOfItems (respRunAux fuel
        ⟨.content (responseChunks (BaoTree.new sz bs) rn), stack, enc⟩)).map
          Prod.fst) := by
  obtain ⟨k, hk⟩ := respRun_ok_leaf_offsets fuel _ stack enc hok
  rw [hk]
  have h0 : startBlock (BaoTree.new sz bs) = 0 := startBlock_new _ _
  have hroot : rootNode (BaoTree.new sz bs) < filledSize (BaoTree.new sz bs) :=
    rootNode_lt_filledSize h0
  have hpc : responseChunks (BaoTree.new sz bs) rn =
      (subDirs (BaoTree.new sz bs) (rootNode (BaoTree.new sz bs)) rn
        (BaoTree.new sz bs).is_root).flatMap (responseItemsOf (BaoTree.new sz bs)) := by
    rw [responseChunks, preOrderChunks, preOrderNodes_eq h0, subDirs]
  have hchain := (dirs_leaf_chunks (BaoTree.new sz bs) h0
    (levelOf (rootNode (BaoTree.new sz bs))) (rootNode (BaoTree.new sz bs)) le_rfl hroot
    rn (BaoTree.new sz bs).is_root).1
  rw [← hpc] at hchain
  have hsubl : List.Sublist
      (dirLeafChunks ((responseChunks (BaoTree.new sz bs) rn).take k))
      (dirLeafChunks (responseChunks (BaoTree.new sz bs) rn)) :=
    (List.take_sublist _ _).filterMap _
  have hchain' := hchain.sublist hsubl
  exact (List.chain'_map _).mpr (hchain'.imp (fun a b h => by omega))

set_option maxHeartbeats 1000000 in
/-- C9 (corrected): on a successful run (only `Ok` items) of
`DecodeResponseIter`, at any root hash, block size, range set and input
stream, the emitted `Leaf` items have strictly increasing offsets (hence
strictly increasing start chunks).  The containment half of the claim is
refuted separately: an emitted leaf need not lie inside the
chunk-aligned closure of the requested ranges. -/
theorem c9_decoder_leaf_ordering (root : Hash) (bs : Nat) (encoded : ByteStream)
    (ranges : ChunkRangesRef)
    (hok : ∀ x ∈ decodeResponseItems root bs encoded ranges, ∃ it, x = Except.ok it) :
    List.Chain' (· < ·)
      ((leavesOfItems (decodeResponseItems root bs encoded ranges)).map Prod.fst) := by
  rw [decodeResponseItems, DecodeResponseIter.new] at hok ⊢
  rcases encoded with _ | ⟨s1, enc'⟩
  · exact (ok_run_no_error
      (show respRunAux (respFuel ⟨.header ranges bs, [root], []⟩)
          ⟨.header ranges bs, [root], []⟩ =
        .error .notFound :: respRunAux 1 ⟨.header ranges bs, [root], []⟩ from rfl)
      hok).elim
  · rcases s1 with size | h | bb
    · have hitems : respRunAux
          (respFuel ⟨.header ranges bs, [root], Sym.hdr size :: enc'⟩)
          ⟨.header ranges bs, [root], Sym.hdr size :: enc'⟩ =
          .ok (.header size) ::
            respRunAux
              ((responseChunks (BaoTree.new size bs)
                (truncateRanges ranges size)).length + 1)
              ⟨.content (responseChunks (BaoTree.new size bs)
                  (truncateRanges ranges (BaoTree.new size bs).size)),
                [root], enc'⟩ := by
        rw [show respFuel ⟨.header ranges bs, [root], Sym.hdr size :: enc'⟩ =
          ((responseChunks (BaoTree.new size bs)
            (truncateRanges ranges size)).length + 1) + 1 from rfl]
        exact respRunAux_ok respStep_header
      rw [hitems, leavesOfItems_cons_header]
      refine respRun_chain_of_responseChunks size bs _ _ _ _ ?_
      intro x hx
      exact hok x (by rw [hitems]; exact List.mem_cons_of_mem _ hx)
    · exact (ok_run_no_error
        (show respRunAux (respFuel ⟨.header ranges bs, [root], Sym.hsh h :: enc'⟩)
            ⟨.header ranges bs, [root], Sym.hsh h :: enc'⟩ =
          .error .notFound ::
            respRunAux 1 ⟨.header ranges bs, [root], Sym.hsh h :: enc'⟩ from rfl)
        hok).elim
    · exact (ok_run_no_error
        (show respRunAux (respFuel ⟨.header ranges bs, [root], Sym.dat bb :: enc'⟩)
            ⟨.header ranges bs, [root], Sym.dat bb :: enc'⟩ =
          .error .notFound ::
            respRunAux 1 ⟨.header ranges bs, [root], Sym.dat bb :: enc'⟩ from rfl)
        hok).elim

/-- Witness for C9: the trivial successful run of a header-only stream. -/
theorem c9_decoder_leaf_ordering_witness :
    (∀ x ∈ decodeResponseItems (Hash.fromBytes 0) 0 [Sym.hdr 0] [0],
      ∃ it, x = Except.ok it) ∧
    List.Chain' (· < ·)
      ((leavesOfItems (decodeResponseItems (Hash.fromBytes 0) 0 [Sym.hdr 0] [0])).map
        Prod.fst) :=
  ⟨fun x hx => ⟨.header 0, by
      rw [show decodeResponseItems (Hash.fromBytes 0) 0 [Sym.hdr 0] [0] =
        [Except.ok (DecodeResponseItem.header 0)] from rfl] at hx
      simpa using hx⟩,
   c9_decoder_leaf_ordering (Hash.fromBytes 0) 0 [Sym.hdr 0] [0]
     (fun x hx => ⟨.header 0, by
       rw [show decodeResponseItems (Hash.fromBytes 0) 0 [Sym.hdr 0] [0] =
         [Except.ok (DecodeResponseItem.header 0)] from rfl] at hx
       simpa using hx⟩)⟩

set_option maxHeartbeats 1000000 in
set_option maxRecDepth 4000 in
/-- Counterexample to C9's containment half: decoding the honest
encoding of a 2049-byte blob (three chunks, block size 0) for the
requested ranges `{1}` (boundaries `[1, 2)`) emits a leaf at offset
2048 — start chunk 2 — although chunk 2 is not in the requested set:
the boundary 2 falls exactly on the rightmost half leaf's split point,
so the left slice of its range split is a nonempty boundary list
denoting the empty set, and the leaf is emitted anyway. -/
theorem c9_leaf_outside_requested_ranges :
    (∃ buf, (2048, buf) ∈ leavesOfItems (decodeResponseItems
        (sHash (BaoTree.new 2049 0) (List.replicate 2049 7)
          (rootNode (BaoTree.new 2049 0)) true) 0
        (encodeRangesSync (List.replicate 2049 7)
          (refOutboard (List.replicate 2049 7) 0) [1, 2]).1 [1, 2])) ∧
    rsMem 2 (truncateRanges [1, 2] 2049) = false := by
  constructor
  · have hlen : (List.replicate 2049 7).length = 2049 := by
      rw [List.length_replicate]
    have hszr : (List.replicate 2049 7).length = (BaoTree.new 2049 0).size := by
      rw [List.length_replicate]; rfl
    have h0 : startBlock (BaoTree.new 2049 0) = 0 := startBlock_new _ _
    have hload : ∀ m, (refOutboard (List.replicate 2049 7) 0).load m =
        .ok (refPair (BaoTree.new 2049 0) (List.replicate 2049 7) m) := by
      intro m
      rw [show (refOutboard (List.replicate 2049 7) 0).load m =
        .ok (refPair (BaoTree.new (List.replicate 2049 7).length 0)
          (List.replicate 2049 7) m) from rfl, hlen]
    have hot2 : (refOutboard (List.replicate 2049 7) 0).tree = BaoTree.new 2049 0 := by
      rw [show (refOutboard (List.replicate 2049 7) 0).tree =
        BaoTree.new (List.replicate 2049 7).length 0 from rfl, hlen]
    have hpc2 : preOrderChunks (BaoTree.new 2049 0) [1, 2] 0 =
        subDirs (BaoTree.new 2049 0) (rootNode (BaoTree.new 2049 0)) [1, 2]
          (BaoTree.new 2049 0).is_root := by
      rw [preOrderChunks, preOrderNodes_eq h0, subDirs]
    obtain ⟨B, I, hE, hD, hOk, hJ, hL⟩ := decode_run (BaoTree.new 2049 0)
      (List.replicate 2049 7) (refOutboard (List.replicate 2049 7) 0) rfl hszr hload
      (levelOf (rootNode (BaoTree.new 2049 0))) (rootNode (BaoTree.new 2049 0)) le_rfl
      (rootNode_lt_filledSize h0) [1, 2] (BaoTree.new 2049 0).is_root
      (by decide) (Or.inl rfl) (by decide)
    have hEncB : encodeRangesSync (List.replicate 2049 7)
        (refOutboard (List.replicate 2049 7) 0) [1, 2] =
        (Sym.hdr (BaoTree.new 2049 0).size :: (B ++ []), none) := by
      simp only [encodeRangesSync, hot2]
      rw [hpc2, show subDirs (BaoTree.new 2049 0) (rootNode (BaoTree.new 2049 0)) [1, 2]
          (BaoTree.new 2049 0).is_root =
        subDirs (BaoTree.new 2049 0) (rootNode (BaoTree.new 2049 0)) [1, 2]
          (BaoTree.new 2049 0).is_root ++ [] from (List.append_nil _).symm,
        hE []]
      rfl
    have hTeq : BaoTree.new (BaoTree.new 2049 0).size 0 = BaoTree.new 2049 0 := rfl
    have htrB : truncateRanges [1, 2] (BaoTree.new 2049 0).size = [1, 2] := by decide
    have hitems : decodeResponseItems
        (sHash (BaoTree.new 2049 0) (List.replicate 2049 7)
          (rootNode (BaoTree.new 2049 0)) true) 0
        (Sym.hdr (BaoTree.new 2049 0).size :: (B ++ [])) [1, 2] =
        .ok (.header (BaoTree.new 2049 0).size) :: (I ++ []) := by
      rw [decodeResponseItems, DecodeResponseIter.new]
      have hfuelB : respFuel ⟨.header [1, 2] 0,
          [sHash (BaoTree.new 2049 0) (List.replicate 2049 7)
            (rootNode (BaoTree.new 2049 0)) true],
          Sym.hdr (BaoTree.new 2049 0).size :: (B ++ [])⟩ =
          ((subDirs (BaoTree.new 2049 0) (rootNode (BaoTree.new 2049 0)) [1, 2]
            (BaoTree.new 2049 0).is_root).flatMap
              (responseItemsOf (BaoTree.new 2049 0))).length + 2 := by
        simp only [respFuel, readLen]
        rw [hTeq, htrB, responseChunks, hpc2]
      rw [hfuelB]
      rw [show ((subDirs (BaoTree.new 2049 0) (rootNode (BaoTree.new 2049 0)) [1, 2]
          (BaoTree.new 2049 0).is_root).flatMap
            (responseItemsOf (BaoTree.new 2049 0))).length + 2 =
        (((subDirs (BaoTree.new 2049 0) (rootNode (BaoTree.new 2049 0)) [1, 2]
          (BaoTree.new 2049 0).is_root).flatMap
            (responseItemsOf (BaoTree.new 2049 0))).length + 1) + 1 from rfl]
      rw [respRunAux_ok respStep_header, hTeq, htrB, responseChunks, hpc2]
      rw [show sHash (BaoTree.new 2049 0) (List.replicate 2049 7)
          (rootNode (BaoTree.new 2049 0)) true =
        sHash (BaoTree.new 2049 0) (List.replicate 2049 7)
          (rootNode (BaoTree.new 2049 0)) (BaoTree.new 2049 0).is_root from rfl]
      nth_rewrite 2 [show (subDirs (BaoTree.new 2049 0)
          (rootNode (BaoTree.new 2049 0)) [1, 2]
          (BaoTree.new 2049 0).is_root).flatMap
            (responseItemsOf (BaoTree.new 2049 0)) =
        (subDirs (BaoTree.new 2049 0) (rootNode (BaoTree.new 2049 0)) [1, 2]
          (BaoTree.new 2049 0).is_root).flatMap
            (responseItemsOf (BaoTree.new 2049 0)) ++ []
        from (List.append_nil _).symm]
      rw [hD [] [] [] 1, respRunAux_end]
    have hdir : dirLeafChunks ((subDirs (BaoTree.new 2049 0)
        (rootNode (BaoTree.new 2049 0)) [1, 2]
        (BaoTree.new 2049 0).is_root).flatMap
          (responseItemsOf (BaoTree.new 2049 0))) = [1, 2] := by decide
    rw [hdir] at hL
    rw [show List.map (fun x => x * 1024) [1, 2] = [1024, 2048] from rfl] at hL
    have h2048 : 2048 ∈ (leavesOfItems I).map Prod.fst := by
      rw [hL]
      simp
    obtain ⟨p, hp, hfst⟩ := List.mem_map.mp h2048
    refine ⟨p.2, ?_⟩
    rw [hEncB, show ((Sym.hdr (BaoTree.new 2049 0).size :: (B ++ []),
        (none : Option BaoError))).1 =
      Sym.hdr (BaoTree.new 2049 0).size :: (B ++ []) from rfl]
    rw [hitems, leavesOfItems_cons_header, List.append_nil]
    rw [show ((2048 : Nat), p.2) = p from by rw [← hfst]]
    exact hp
  · decide

/-! ## Validators never fail on hash mismatches -/

theorem validateRecOb_no_mismatch (t : BaoTree)
    (load : Nat → Except BaoError (Option (Hash × Hash))) {sfs : Nat}
    (hodd : sfs % 2 = 1) :
    ∀ lvl n ph isR, levelOf n ≤ lvl → (isLeaf n = true ∨ n + 1 < sfs) →
    (∃ rs, validateRecOb t load sfs ph n isR = .ok rs) ∨
      validateRecOb t load sfs ph n isR = .error .ioError := by
  intro lvl
  induction lvl with
  | zero =>
    intro n ph isR hlvl hV
    rw [validateRecOb]
    simp only [subtractBlockSize]
    rcases hload : load n with e | lr
    · right
      rfl
    · left
      have hleaf : isLeaf n = true := by
        simp [isLeaf]
        omega
      rcases lr with _ | ⟨l, r⟩
      · simp [hleaf]
      · by_cases hm : Hash.parentCV l r isR = ph
        · simp [hm, hleaf]
        · simp [hm]
  | succ lvl ih =>
    intro n ph isR hlvl hV
    rw [validateRecOb]
    simp only [subtractBlockSize]
    rcases hload : load n with e | lr
    · right
      rfl
    · by_cases hleaf : isLeaf n = true
      · left
        rcases lr with _ | ⟨l, r⟩
        · simp [hleaf]
        · by_cases hm : Hash.parentCV l r isR = ph
          · simp [hm, hleaf]
          · simp [hm]
      · -- internal node: both children exist and are valid
        have hlev : 1 ≤ levelOf n := by
          simp [isLeaf] at hleaf
          omega
        have hVn : n + 1 < sfs := by
          rcases hV with hV | hV
          · exact absurd hV hleaf
          · exact hV
        have hlc : leftChild n = some (n - 2 ^ (levelOf n - 1)) := by
          rw [leftChild, if_neg (by omega)]
        obtain ⟨rd, hrd, hrs, hrlt, hrlev, hrend⟩ := rightDescendant_spec hlev hVn
        have hVl : isLeaf (n - 2 ^ (levelOf n - 1)) = true ∨ n - 2 ^ (levelOf n - 1) + 1 < sfs := by
          right
          have h1 : 1 ≤ 2 ^ (levelOf n - 1) := Nat.one_le_two_pow
          omega
        have hVr : isLeaf rd = true ∨ rd + 1 < sfs := valid_of_lt_odd hodd hrlt
        have hlevl : levelOf (n - 2 ^ (levelOf n - 1)) ≤ lvl := by
          have := levelOf_of_leftChild hlc
          omega
        have hlevr : levelOf rd ≤ lvl := by omega
        have main : ∀ lh rh : Hash,
            (∃ rs, (match _hl : leftChild n, _hr : rightDescendant n sfs with
              | some left, some right => do
                let a ← validateRecOb t load sfs lh left false
                let b ← validateRecOb t load sfs rh right false
                pure (a ++ b)
              | _, _ => (.error .unwrapPanic : Except BaoError (List (Nat × Nat)))) = .ok rs) ∨
            (match _hl : leftChild n, _hr : rightDescendant n sfs with
              | some left, some right => do
                let a ← validateRecOb t load sfs lh left false
                let b ← validateRecOb t load sfs rh right false
                pure (a ++ b)
              | _, _ => (.error .unwrapPanic : Except BaoError (List (Nat × Nat)))) =
              .error .ioError := by
          intro lh rh
          rcases ih (n - 2 ^ (levelOf n - 1)) lh false hlevl hVl with ⟨rs1, h1⟩ | h1 <;>
            rcases ih rd rh false hlevr hVr with ⟨rs2, h2⟩ | h2
          · left
            refine ⟨rs1 ++ rs2, ?_⟩
            split
            next left right hl hr =>
              rw [hlc] at hl
              rw [hrd] at hr
              injection hl with hl
              injection hr with hr
              rw [← hl, ← hr]
              simp only [h1, h2]
              rfl
            next hno => exact (hno _ _ hlc hrd).elim
          · right
            split
            next left right hl hr =>
              rw [hlc] at hl
              rw [hrd] at hr
              injection hl with hl
              injection hr with hr
              rw [← hl, ← hr]
              simp only [h1, h2]
              rfl
            next hno => exact (hno _ _ hlc hrd).elim
          · right
            split
            next left right hl hr =>
              rw [hlc] at hl
              rw [hrd] at hr
              injection hl with hl
              injection hr with hr
              rw [← hl, ← hr]
              simp only [h1]
              rfl
            next hno => exact (hno _ _ hlc hrd).elim
          · right
            split
            next left right hl hr =>
              rw [hlc] at hl
              rw [hrd] at hr
              injection hl with hl
              injection hr with hr
              rw [← hl, ← hr]
              simp only [h1]
              rfl
            next hno => exact (hno _ _ hlc hrd).elim
        rcases lr with _ | ⟨lh, rh⟩
        · simpa [hleaf] using main ph (Hash.fromBytes 0)
        · by_cases hm : Hash.parentCV lh rh isR = ph
          · simpa [hm, hleaf] using main lh rh
          · left
            simp [hm]

theorem validateRecFile_leaf_ok (t : BaoTree)
    (load : Nat → Except BaoError (Option (Hash × Hash))) (reader : List Nat) (sfs : Nat)
    (n : Nat) (ph : Hash) (isR : Bool) (hleaf : isLeaf n = true) :
    (∃ rs, validateRecFile t load reader sfs ph n isR = .ok rs) ∨
      validateRecFile t load reader sfs ph n isR = .error .ioError := by
  rw [validateRecFile]
  rcases hload : load n with e | lr
  · right
    rfl
  · rcases lr with _ | ⟨lh, rh⟩
    · simp only [hleaf, if_true]
      rcases hre : readExactAt reader (leafByteRanges3 t n).1
          ((leafByteRanges3 t n).2.1 - (leafByteRanges3 t n).1) with e | l_data
      · right
        rfl
      · left
        exact ⟨_, rfl⟩
    · by_cases hm : Hash.parentCV lh rh isR = ph
      · simp only [hm, ne_eq, not_true_eq_false, if_false, hleaf, dite_true]
        rcases hre : readExactAt reader (leafByteRanges3 t n).1
            ((leafByteRanges3 t n).2.1 - (leafByteRanges3 t n).1) with e | l_data
        · right
          rfl
        · rcases hre2 : readExactAt reader (leafByteRanges3 t n).2.1
              ((leafByteRanges3 t n).2.2 - (leafByteRanges3 t n).2.1) with e | r_data
          · right
            rfl
          · left
            exact ⟨_, rfl⟩
      · left
        refine ⟨[], ?_⟩
        simp [hm]

theorem validateRecFile_no_mismatch (t : BaoTree)
    (load : Nat → Except BaoError (Option (Hash × Hash))) (reader : List Nat) {sfs : Nat}
    (hodd : sfs % 2 = 1) :
    ∀ lvl n ph isR, levelOf n ≤ lvl → (isLeaf n = true ∨ n + 1 < sfs) →
    (∃ rs, validateRecFile t load reader sfs ph n isR = .ok rs) ∨
      validateRecFile t load reader sfs ph n isR = .error .ioError := by
  intro lvl
  induction lvl with
  | zero =>
    intro n ph isR hlvl hV
    exact validateRecFile_leaf_ok t load reader sfs n ph isR (by simp [isLeaf]; omega)
  | succ lvl ih =>
    intro n ph isR hlvl hV
    by_cases hleaf : isLeaf n = true
    · exact validateRecFile_leaf_ok t load reader sfs n ph isR hleaf
    · have hlev : 1 ≤ levelOf n := by
        simp [isLeaf] at hleaf
        omega
      have hVn : n + 1 < sfs := by
        rcases hV with hV | hV
        · exact absurd hV hleaf
        · exact hV
      have hlc : leftChild n = some (n - 2 ^ (levelOf n - 1)) := by
        rw [leftChild, if_neg (by omega)]
      obtain ⟨rd, hrd, hrs, hrlt, hrlev, hrend⟩ := rightDescendant_spec hlev hVn
      have hVl : isLeaf (n - 2 ^ (levelOf n - 1)) = true ∨ n - 2 ^ (levelOf n - 1) + 1 < sfs := by
        right
        have h1 : 1 ≤ 2 ^ (levelOf n - 1) := Nat.one_le_two_pow
        omega
      have hVr : isLeaf rd = true ∨ rd + 1 < sfs := valid_of_lt_odd hodd hrlt
      have hlevl : levelOf (n - 2 ^ (levelOf n - 1)) ≤ lvl := by
        have := levelOf_of_leftChild hlc
        omega
      have hlevr : levelOf rd ≤ lvl := by omega
      have main : ∀ lh rh : Hash,
          (∃ rs, (match _hl : leftChild n, _hr : rightDescendant n sfs with
            | some left, some right => do
              let a ← validateRecFile t load reader sfs lh left false
              let b ← validateRecFile t load reader sfs rh right false
              pure (a ++ b)
            | _, _ => (.error .unwrapPanic : Except BaoError (List (Nat × Nat)))) = .ok rs) ∨
          (match _hl : leftChild n, _hr : rightDescendant n sfs with
            | some left, some right => do
              let a ← validateRecFile t load reader sfs lh left false
              let b ← validateRecFile t load reader sfs rh right false
              pure (a ++ b)
            | _, _ => (.error .unwrapPanic : Except BaoError (List (Nat × Nat)))) =
            .error .ioError := by
        intro lh rh
        rcases ih (n - 2 ^ (levelOf n - 1)) lh false hlevl hVl with ⟨rs1, h1⟩ | h1 <;>
          rcases ih rd rh false hlevr hVr with ⟨rs2, h2⟩ | h2
        · left
          refine ⟨rs1 ++ rs2, ?_⟩
          split
          next left right hl hr =>
            rw [hlc] at hl
            rw [hrd] at hr
            injection hl with hl
            injection hr with hr
            rw [← hl, ← hr]
            simp only [h1, h2]
            rfl
          next hno => exact (hno _ _ hlc hrd).elim
        · right
          split
          next left right hl hr =>
            rw [hlc] at hl
            rw [hrd] at hr
            injection hl with hl
            injection hr with hr
            rw [← hl, ← hr]
            simp only [h1, h2]
            rfl
          next hno => exact (hno _ _ hlc hrd).elim
        · right
          split
          next left right hl hr =>
            rw [hlc] at hl
            rw [hrd] at hr
            injection hl with hl
            injection hr with hr
            rw [← hl, ← hr]
            simp only [h1]
            rfl
          next hno => exact (hno _ _ hlc hrd).elim
        · right
          split
          next left right hl hr =>
            rw [hlc] at hl
            rw [hrd] at hr
            injection hl with hl
            injection hr with hr
            rw [← hl, ← hr]
            simp only [h1]
            rfl
          next hno => exact (hno _ _ hlc hrd).elim
      rw [validateRecFile]
      rcases hload : load n with e | lr
      · right
        rfl
      · rcases lr with _ | ⟨lh, rh⟩
        · left
          refine ⟨[], ?_⟩
          simp [hleaf]
        · by_cases hm : Hash.parentCV lh rh isR = ph
          · simpa [hm, hleaf] using main lh rh
          · left
            refine ⟨[], ?_⟩
            simp [hm]

/-- **C8**: `valid_outboard_ranges` and `valid_file_ranges` never return a
hash-mismatch error: for every outboard (whatever hash pairs its `load`
returns, including arbitrarily corrupted ones) and every blob content,
they either succeed — a parent or leaf hash mismatch only omits ranges
from the returned set — or fail with an I/O error coming from an
underlying read; the embedding is pure, so neither function mutates the
outboard. -/
theorem c8_validators_only_io_errors (o : Outboard) (reader : List Nat)
    (h0 : startBlock o.tree = 0) :
    ((∃ rs, validOutboardRanges o = .ok rs) ∨ validOutboardRanges o = .error .ioError) ∧
    ((∃ rs, validFileRanges o reader = .ok rs) ∨ validFileRanges o reader = .error .ioError) := by
  have hodd := filledSize_odd h0
  have hV := rootNode_valid h0
  constructor
  · exact validateRecOb_no_mismatch o.tree o.load hodd (levelOf (rootNode o.tree)) _ _ _
      (le_refl _) hV
  · exact validateRecFile_no_mismatch o.tree o.load reader hodd (levelOf (rootNode o.tree)) _ _ _
      (le_refl _) hV

/-- Witness for C8 at a concrete outboard (the reference outboard of a
two-and-a-half-chunk blob) and a concrete (wrong) file. -/
theorem c8_validators_only_io_errors_witness :
    startBlock (refOutboard (List.replicate 2500 7) 0).tree = 0 ∧
    (((∃ rs, validOutboardRanges (refOutboard (List.replicate 2500 7) 0) = .ok rs) ∨
        validOutboardRanges (refOutboard (List.replicate 2500 7) 0) = .error .ioError) ∧
      ((∃ rs, validFileRanges (refOutboard (List.replicate 2500 7) 0) [1, 2, 3] = .ok rs) ∨
        validFileRanges (refOutboard (List.replicate 2500 7) 0) [1, 2, 3] = .error .ioError)) :=
  ⟨rfl, c8_validators_only_io_errors (refOutboard (List.replicate 2500 7) 0) [1, 2, 3] rfl⟩

/-- All loads succeeding (no I/O errors), the outboard validator always
returns a result: hash mismatches only prune. -/
theorem validateRecOb_ok_of_loads (t : BaoTree)
    (load : Nat → Except BaoError (Option (Hash × Hash))) {sfs : Nat}
    (hodd : sfs % 2 = 1) (hloads : ∀ m, ∃ v, load m = .ok v) :
    ∀ lvl n ph isR, levelOf n ≤ lvl → (isLeaf n = true ∨ n + 1 < sfs) →
    ∃ rs, validateRecOb t load sfs ph n isR = .ok rs := by
  intro lvl
  induction lvl with
  | zero =>
    intro n ph isR hlvl hV
    have hleaf : isLeaf n = true := by
      simp [isLeaf]
      omega
    rw [validateRecOb]
    obtain ⟨lr, hload⟩ := hloads n
    simp only [subtractBlockSize, hload]
    rcases lr with _ | ⟨l, r⟩
    · simp [hleaf]
    · by_cases hm : Hash.parentCV l r isR = ph
      · simp [hm, hleaf]
      · simp [hm]
  | succ lvl ih =>
    intro n ph isR hlvl hV
    rw [validateRecOb]
    obtain ⟨lr, hload⟩ := hloads n
    simp only [subtractBlockSize, hload]
    by_cases hleaf : isLeaf n = true
    · rcases lr with _ | ⟨l, r⟩
      · simp [hleaf]
      · by_cases hm : Hash.parentCV l r isR = ph
        · simp [hm, hleaf]
        · simp [hm]
    · have hlev : 1 ≤ levelOf n := by
        simp [isLeaf] at hleaf
        omega
      have hVn : n + 1 < sfs := by
        rcases hV with hV | hV
        · exact absurd hV hleaf
        · exact hV
      have hlc : leftChild n = some (n - 2 ^ (levelOf n - 1)) := by
        rw [leftChild, if_neg (by omega)]
      obtain ⟨rd, hrd, hrs, hrlt, hrlev, hrend⟩ := rightDescendant_spec hlev hVn
      have hVl : isLeaf (n - 2 ^ (levelOf n - 1)) = true ∨ n - 2 ^ (levelOf n - 1) + 1 < sfs := by
        right
        have h1 : 1 ≤ 2 ^ (levelOf n - 1) := Nat.one_le_two_pow
        omega
      have hVr : isLeaf rd = true ∨ rd + 1 < sfs := valid_of_lt_odd hodd hrlt
      have hlevl : levelOf (n - 2 ^ (levelOf n - 1)) ≤ lvl := by
        have := levelOf_of_leftChild hlc
        omega
      have hlevr : levelOf rd ≤ lvl := by omega
      have main : ∀ lh rh : Hash,
          ∃ rs, (match _hl : leftChild n, _hr : rightDescendant n sfs with
            | some left, some right => do
              let a ← validateRecOb t load sfs lh left false
              let b ← validateRecOb t load sfs rh right false
              pure (a ++ b)
            | _, _ => (.error .unwrapPanic : Except BaoError (List (Nat × Nat)))) = .ok rs := by
        intro lh rh
        obtain ⟨rs1, h1⟩ := ih (n - 2 ^ (levelOf n - 1)) lh false hlevl hVl
        obtain ⟨rs2, h2⟩ := ih rd rh false hlevr hVr
        refine ⟨rs1 ++ rs2, ?_⟩
        split
        next left right hl hr =>
          rw [hlc] at hl
          rw [hrd] at hr
          injection hl with hl
          injection hr with hr
          rw [← hl, ← hr]
          simp only [h1, h2]
          rfl
        next hno => exact (hno _ _ hlc hrd).elim
      rcases lr with _ | ⟨lh, rh⟩
      · simpa [hleaf] using main ph (Hash.fromBytes 0)
      · by_cases hm : Hash.parentCV lh rh isR = ph
        · simpa [hm, hleaf] using main lh rh
        · simp [hm]

/-- The branch of `validate_rec` for a non-persisted (`load = None`) leaf
node: the whole chunk range of the node is added, with no hash
comparison. -/
theorem validateRecOb_none_leaf {t : BaoTree}
    {load : Nat → Except BaoError (Option (Hash × Hash))} {sfs n : Nat} {ph : Hash}
    {isR : Bool} (hload : load n = .ok none) (hleaf : isLeaf n = true) :
    validateRecOb t load sfs ph n isR =
      .ok [(chunkRangeStart t n,
        min (chunkRangeStart t n + chunkGroupChunks t * 2) (chunksOf t))] := by
  rw [validateRecOb]
  simp [subtractBlockSize, hload, hleaf]

/-- The branch of `validate_rec` for a persisted node whose pair matches:
recurse into both children and collect. -/
theorem validateRecOb_internal_eq {t : BaoTree}
    {load : Nat → Except BaoError (Option (Hash × Hash))} {sfs n : Nat} {ph lh rh : Hash}
    {isR : Bool} {lc rd : Nat}
    (hload : load n = .ok (some (lh, rh))) (hm : Hash.parentCV lh rh isR = ph)
    (hleaf : ¬ isLeaf n = true) (hlc : leftChild n = some lc)
    (hrd : rightDescendant n sfs = some rd) :
    validateRecOb t load sfs ph n isR = (do
      let a ← validateRecOb t load sfs lh lc false
      let b ← validateRecOb t load sfs rh rd false
      pure (a ++ b)) := by
  rw [validateRecOb]
  simp only [subtractBlockSize, hload, hm, eq_self_iff_true, if_true, hleaf,
    Bool.false_eq_true, if_false]
  split
  next left right hl hr =>
    rw [hlc] at hl
    rw [hrd] at hr
    injection hl with hl
    injection hr with hr
    rw [← hl, ← hr]
  next hno => exact (hno _ _ hlc hrd).elim

/-- A verification path of `valid_outboard_ranges`: from a node and the
hash it is checked against, descending into a child carries the stored
child hash, provided the stored pair verifies against the node's hash. -/
inductive ReachesOb (t : BaoTree) (load : Nat → Except BaoError (Option (Hash × Hash)))
    (sfs : Nat) : Hash → Nat → Bool → Hash → Nat → Bool → Prop where
  | refl (ph : Hash) (n : Nat) (isR : Bool) : ReachesOb t load sfs ph n isR ph n isR
  | stepLeft {ph : Hash} {n : Nat} {isR : Bool} {lh rh : Hash} {lc : Nat}
      {ph' : Hash} {n' : Nat} {isR' : Bool}
      (hload : load n = .ok (some (lh, rh))) (hm : Hash.parentCV lh rh isR = ph)
      (hlc : leftChild n = some lc)
      (htail : ReachesOb t load sfs lh lc false ph' n' isR') :
      ReachesOb t load sfs ph n isR ph' n' isR'
  | stepRight {ph : Hash} {n : Nat} {isR : Bool} {lh rh : Hash} {rc : Nat}
      {ph' : Hash} {n' : Nat} {isR' : Bool}
      (hload : load n = .ok (some (lh, rh))) (hm : Hash.parentCV lh rh isR = ph)
      (hrc : rightDescendant n sfs = some rc)
      (htail : ReachesOb t load sfs rh rc false ph' n' isR') :
      ReachesOb t load sfs ph n isR ph' n' isR'

theorem validateRecOb_reaches_mem (t : BaoTree)
    (load : Nat → Except BaoError (Option (Hash × Hash))) {sfs : Nat}
    (hodd : sfs % 2 = 1) (hloads : ∀ m, ∃ v, load m = .ok v)
    {ph : Hash} {n : Nat} {isR : Bool} {ph' : Hash} {hn : Nat} {isR' : Bool}
    (hreach : ReachesOb t load sfs ph n isR ph' hn isR') :
    (isLeaf n = true ∨ n + 1 < sfs) →
    load hn = .ok none → isLeaf hn = true →
    ∃ rs, validateRecOb t load sfs ph n isR = .ok rs ∧
      (chunkRangeStart t hn,
        min (chunkRangeStart t hn + chunkGroupChunks t * 2) (chunksOf t)) ∈ rs := by
  induction hreach with
  | refl ph n isR =>
    intro hV hnone hnleaf
    exact ⟨_, validateRecOb_none_leaf hnone hnleaf, by simp⟩
  | stepLeft hload hm hlc htail ih =>
    rename_i ph n isR lh rh lc ph' n' isR'
    intro hV hnone hnleaf
    have hleaf : ¬ isLeaf n = true := by
      have := levelOf_of_leftChild hlc
      simp [isLeaf]
      omega
    have hlev : 1 ≤ levelOf n := by
      simp [isLeaf] at hleaf
      omega
    have hVn : n + 1 < sfs := by
      rcases hV with hV | hV
      · exact absurd hV hleaf
      · exact hV
    obtain ⟨rd, hrd, hrs, hrlt, hrlev, hrend⟩ := rightDescendant_spec hlev hVn
    have hVl : isLeaf lc = true ∨ lc + 1 < sfs := by
      right
      have hlc2 : leftChild n = some (n - 2 ^ (levelOf n - 1)) := by
        rw [leftChild, if_neg (by omega)]
      rw [hlc2] at hlc
      injection hlc with hlc
      have h1 : 1 ≤ 2 ^ (levelOf n - 1) := Nat.one_le_two_pow
      omega
    obtain ⟨rs1, h1, hmem⟩ := ih hVl hnone hnleaf
    obtain ⟨rs2, h2⟩ := validateRecOb_ok_of_loads t load hodd hloads (levelOf rd) rd rh false
      (le_refl _) (valid_of_lt_odd hodd hrlt)
    refine ⟨rs1 ++ rs2, ?_, by simp [hmem]⟩
    rw [validateRecOb_internal_eq hload hm hleaf hlc hrd]
    simp only [h1, h2]
    rfl
  | stepRight hload hm hrc htail ih =>
    rename_i ph n isR lh rh rc ph' n' isR'
    intro hV hnone hnleaf
    have hlev : 1 ≤ levelOf n := by
      by_cases h0 : levelOf n = 0
      · rw [rightDescendant, rightChild, if_pos h0] at hrc
        exact absurd hrc (by simp)
      · omega
    have hleaf : ¬ isLeaf n = true := by
      simp [isLeaf]
      omega
    have hVn : n + 1 < sfs := by
      rcases hV with hV | hV
      · exact absurd hV hleaf
      · exact hV
    obtain ⟨rd, hrd, hrs, hrlt, hrlev, hrend⟩ := rightDescendant_spec hlev hVn
    rw [hrc] at hrd
    injection hrd with hrd
    subst hrd
    have hlc : leftChild n = some (n - 2 ^ (levelOf n - 1)) := by
      rw [leftChild, if_neg (by omega)]
    have hVl : isLeaf (n - 2 ^ (levelOf n - 1)) = true ∨ n - 2 ^ (levelOf n - 1) + 1 < sfs := by
      right
      have h1 : 1 ≤ 2 ^ (levelOf n - 1) := Nat.one_le_two_pow
      omega
    obtain ⟨rs2, h2, hmem⟩ := ih (valid_of_lt_odd hodd hrlt) hnone hnleaf
    obtain ⟨rs1, h1⟩ := validateRecOb_ok_of_loads t load hodd hloads
      (levelOf (n - 2 ^ (levelOf n - 1))) (n - 2 ^ (levelOf n - 1)) lh false (le_refl _) hVl
    refine ⟨rs1 ++ rs2, ?_, by simp [hmem]⟩
    rw [validateRecOb_internal_eq hload hm hleaf hlc hrc]
    simp only [h1, h2]
    rfl

/-- **C10**: in `valid_outboard_ranges`, a node whose `load` returns
`None` (a non-persisted node such as the rightmost half leaf) that the
shifted traversal sees as a leaf contributes its entire chunk range to
the returned set without any hash comparison (`validateRecOb_none_leaf`);
consequently, for every outboard whose ancestors on the path to such a
node verify, the chunks under the non-persisted node are reported valid
regardless of any stored content. -/
theorem c10_non_persisted_reported_valid (o : Outboard)
    {ph' : Hash} {hn : Nat} {isR' : Bool}
    (h0 : startBlock o.tree = 0)
    (hloads : ∀ m, ∃ v, o.load m = .ok v)
    (hreach : ReachesOb o.tree o.load (filledSize o.tree) o.root (rootNode o.tree) true
      ph' hn isR')
    (hnone : o.load hn = .ok none) (hnleaf : isLeaf hn = true) :
    ∃ rs, validOutboardRanges o = .ok rs ∧
      (chunkRangeStart o.tree hn,
        min (chunkRangeStart o.tree hn + chunkGroupChunks o.tree * 2) (chunksOf o.tree)) ∈ rs :=
  validateRecOb_reaches_mem o.tree o.load (filledSize_odd h0) hloads hreach
    (rootNode_valid h0) hnone hnleaf

/-- Witness for C10 at a concrete outboard: a one-byte blob, whose root
is itself a non-persisted half leaf. -/
theorem c10_non_persisted_reported_valid_witness :
    startBlock (refOutboard [7] 0).tree = 0 ∧
    (refOutboard [7] 0).load (rootNode (refOutboard [7] 0).tree) = .ok none ∧
    isLeaf (rootNode (refOutboard [7] 0).tree) = true ∧
    ∃ rs, validOutboardRanges (refOutboard [7] 0) = .ok rs ∧
      (chunkRangeStart (refOutboard [7] 0).tree (rootNode (refOutboard [7] 0).tree),
        min (chunkRangeStart (refOutboard [7] 0).tree (rootNode (refOutboard [7] 0).tree) +
          chunkGroupChunks (refOutboard [7] 0).tree * 2)
          (chunksOf (refOutboard [7] 0).tree)) ∈ rs :=
  ⟨rfl, rfl, by decide,
    c10_non_persisted_reported_valid (refOutboard [7] 0) rfl
      (fun m => ⟨refPair (BaoTree.new 1 0) [7] m, rfl⟩)
      (ReachesOb.refl _ _ _) rfl (by decide)⟩

/-! ## C5: encoder preconditions -/

/-- C5: the `io.rs` encoders (`encode_ranges` and `encode_ranges_validated`)
first verify that the blob's length equals the size recorded in the
outboard's tree, failing with `InvalidInput` on mismatch, then verify the
requested chunk ranges against `[0, tree.chunks())`, failing with
`InvalidQueryRange`; no stream bytes are written when either check
fails.  (The newer `io/sync.rs` `encode_ranges` performs neither check:
see the counterexample.) -/
theorem c5_encoder_preconditions (data : List Nat) (o : Outboard)
    (ranges : ChunkRangesRef) :
    (data.length ≠ o.tree.size →
      encodeRangesIo data o ranges = ([], some .invalidInput) ∧
      encodeRangesValidatedIo data o ranges = ([], some .invalidInput)) ∧
    (data.length = o.tree.size → rangeOk ranges (chunksOf o.tree) = false →
      encodeRangesIo data o ranges = ([], some .invalidQueryRange) ∧
      encodeRangesValidatedIo data o ranges = ([], some .invalidQueryRange)) := by
  constructor
  · intro hne
    constructor
    · simp [encodeRangesIo, hne]
    · simp [encodeRangesValidatedIo, hne]
  · intro heq hro
    constructor
    · simp [encodeRangesIo, heq, hro]
    · simp [encodeRangesValidatedIo, heq, hro]

/-- Witness for C5: a one-byte tree rejects a two-byte blob with
`InvalidInput`, and rejects the out-of-bounds query `[5, ∞)` with
`InvalidQueryRange`. -/
theorem c5_encoder_preconditions_witness :
    (encodeRangesIo [7, 8] (refOutboard [7] 0) [] = ([], some .invalidInput) ∧
      encodeRangesValidatedIo [7, 8] (refOutboard [7] 0) [] = ([], some .invalidInput)) ∧
    (encodeRangesIo [7] (refOutboard [7] 0) [5] = ([], some .invalidQueryRange) ∧
      encodeRangesValidatedIo [7] (refOutboard [7] 0) [5] = ([], some .invalidQueryRange)) :=
  ⟨(c5_encoder_preconditions [7, 8] (refOutboard [7] 0) []).1 (by decide),
   (c5_encoder_preconditions [7] (refOutboard [7] 0) [5]).2 (by decide) (by decide)⟩

/-- Counterexample to C5 as stated: the `io/sync.rs` `encode_ranges`
performs no length check — encoding a two-byte blob against a one-byte
outboard reports no error and writes stream bytes. -/
theorem c5_sync_encoder_skips_checks :
    [7, 8].length ≠ (refOutboard [7] 0).tree.size ∧
    encodeRangesSync [7, 8] (refOutboard [7] 0) [0] = ([Sym.hdr 1, Sym.dat 7], none) :=
  ⟨by decide, rfl⟩

/-! ## C6: behaviour of the decoder after an error -/

/-- C6 (corrected): `DecodeResponseIter::next0` is not fused.  Whatever a
step at a content position returns — a decoded item or an error — the
iterator state advances past the directive just processed, so a
subsequent call keeps yielding items derived from the remaining
directives; the iteration only ends when the directives are exhausted. -/
theorem c6_decoder_not_fused (s : DecodeResponseIter) (items : List ResponseChunk)
    (h : s.inner = .content items) :
    (respNext0 s).2.inner = RespPosition.content items.tail := by
  obtain ⟨inner, stack, encoded⟩ := s
  simp only at h
  subst h
  match items with
  | [] => rfl
  | .parent node is_root left right :: rest =>
    rcases hrp : readParent encoded with _ | ⟨⟨lh, rh⟩, st⟩
    · simp [respNext0, hrp]
    · rcases stack with _ | ⟨ph, stackRest⟩
      · simp [respNext0, hrp]
      · by_cases hm : ph ≠ Hash.parentCV lh rh is_root
        · simp [respNext0, hrp, hm]
        · simp [respNext0, hrp, hm]
  | .leaf sc sz ir :: rest =>
    rcases hrd : readData sz encoded with _ | ⟨buf, st⟩
    · simp [respNext0, hrd]
    · rcases stack with _ | ⟨lh, stackRest⟩
      · simp [respNext0, hrd]
      · by_cases hm : lh ≠ hashSubtree sc buf ir
        · simp [respNext0, hrd, hm]
        · simp [respNext0, hrd, hm]

/-- Witness for C6 at a concrete state: a single leaf directive is
consumed by the step, leaving the empty directive list. -/
theorem c6_decoder_not_fused_witness :
    (respNext0 ⟨.content [.leaf 0 1 false], [], []⟩).2.inner =
      RespPosition.content [] :=
  c6_decoder_not_fused ⟨.content [.leaf 0 1 false], [], []⟩ [.leaf 0 1 false] rfl

/-- Counterexample to C6 as stated: decoding a truncated stream (a header
announcing 2048 bytes and nothing else) yields an error for the parent
directive and then two further error items, one per remaining leaf
directive — the first error does not terminate the iterator. -/
theorem c6_error_does_not_terminate :
    decodeResponseItems (.fromBytes 0) 0 [Sym.hdr 2048] [0] =
      [.ok (.header 2048), .error (.parentNotFound (some 0)),
       .error (.leafNotFound 0), .error (.leafNotFound 1)] := rfl

/-! ## C3: emission of the half leaf -/

/-- C3 (corrected): a half leaf (a non-persisted leaf node) is emitted as
a single `Leaf` directive with no `Parent` directive, by both chunk
iterators; but its `is_root` flag is the traversal's root flag — in
post-order `node == root`, in pre-order the iterator's `is_root` field,
which is true only for the first node of the traversal of a root tree —
not `tree.is_root && is_half_leaf`; and the pre-order iterator emits the
leaf only when the query ranges reach it (`l_ranges` non-empty). -/
theorem c3_half_leaf_emission (t : BaoTree) (root n : Nat)
    (hleaf : isLeaf n = true) (hnp : isPersisted t n = false) :
    postChunkItemsOf t root n =
      [.leaf (chunkNum t n) ((leafByteRanges3 t n).2.1 - (leafByteRanges3 t n).1)
        (decide (n = root)) ()] ∧
    (∀ info : NodeInfo, info.node = n → info.is_half_leaf = true →
      chunkItemsOf t info =
        if rsIsEmpty info.l_ranges then []
        else [.leaf (chunkNum t n) ((leafByteRanges3 t n).2.1 - (leafByteRanges3 t n).1)
          info.is_root info.l_ranges]) := by
  have hnp0 := hnp
  have hiso : isPersisted t n =
      (!(isLeaf n) || decide ((leafByteRanges3 t n).2.1 < (leafByteRanges3 t n).2.2)) := rfl
  rw [hiso, hleaf] at hnp
  simp only [Bool.not_true, Bool.false_or, decide_eq_false_iff_not] at hnp
  have hm_le : (leafByteRanges3 t n).2.1 ≤ (leafByteRanges3 t n).2.2 := by
    have : min ((n + 1) * blockBytes t) (baseByte t + t.size) ≤
        min ((n + 2) * blockBytes t) (baseByte t + t.size) :=
      min_le_min (Nat.mul_le_mul (by omega) (Nat.le_refl _)) (Nat.le_refl _)
    exact this
  have heq : (leafByteRanges3 t n).2.1 = (leafByteRanges3 t n).2.2 := by omega
  constructor
  · rw [postChunkItemsOf]
    simp [hleaf, hnp0, heq]
  · intro info hnode hhalf
    rw [chunkItemsOf]
    simp only [hnode, hleaf, hhalf, Bool.not_true, Bool.and_false, Bool.and_true,
      if_false, Bool.false_and]
    by_cases hemp : rsIsEmpty info.l_ranges
    · simp [hemp]
    · simp [hemp]

set_option maxRecDepth 4000 in
/-- Witness for C3 at the size-3072 tree: its half leaf is node 2, the
root is node 1, so the flag is false in both iterators. -/
theorem c3_half_leaf_emission_witness :
    postChunkItemsOf (BaoTree.new 3072 0) 1 2 = [.leaf 2 1024 false ()] ∧
    chunkItemsOf (BaoTree.new 3072 0) ⟨2, [0], [0], [], true, true, false, true⟩ =
      [.leaf 2 1024 false [0]] := by
  have h := c3_half_leaf_emission (BaoTree.new 3072 0) 1 2 (by decide) (by decide)
  exact ⟨h.1, h.2 ⟨2, [0], [0], [], true, true, false, true⟩ rfl rfl⟩

set_option maxRecDepth 4000 in
/-- Counterexample to C3 as stated: for the root tree of a 3072-byte blob
(block size 0) the rightmost node 2 is a half leaf and `tree.is_root &&
is_half_leaf = true`, yet both iterators emit its leaf directive with
`is_root = false` (the half leaf is not the root, node 1 is). -/
theorem c3_half_leaf_flag_mismatch :
    (BaoTree.new 3072 0).is_root = true ∧
    isPersisted (BaoTree.new 3072 0) 2 = false ∧
    isLeaf 2 = true ∧
    rootNode (BaoTree.new 3072 0) = 1 ∧
    postOrderChunks (BaoTree.new 3072 0) =
      [.leaf 0 1024 false (), .leaf 1 1024 false (), .parent 0 false true true (),
       .leaf 2 1024 false (), .parent 1 true true true ()] ∧
    preOrderChunks (BaoTree.new 3072 0) [0] 0 =
      [.parent 1 true true true [0], .parent 0 false true true [0],
       .leaf 0 1024 false [0], .leaf 1 1024 false [0], .leaf 2 1024 false [0]] :=
  ⟨rfl, by decide, by decide, rfl, rfl, rfl⟩

/-! ## C4: the pruned pre-order traversal -/

/-- The single-open-range test `rsFull` implies range-set membership of
every chunk from the tested start on. -/
theorem rsFull_mem {rs : ChunkRangesRef} {start : Nat} (h : rsFull rs start = true)
    {c : Nat} (hc : start ≤ c) : rsMem c rs = true := by
  match rs with
  | [] => simp [rsFull] at h
  | [b] =>
    simp only [rsFull, decide_eq_true_eq] at h
    have hbc : b ≤ c := le_trans h hc
    simp [rsMem, hbc]
  | a :: b :: rest => simp [rsFull] at h

/-- C4 (corrected): each `NodeInfo` the pre-order partial iterator yields
is emitted as a query leaf exactly when the node is a physical leaf, or
the `full` test holds and the node's level is at most `max_skip_level`;
`full` is the syntactic test `rsFull` (a single open range starting at or
before the node), which implies containment of the node's chunk range in
the range set — but is not implied by it (see the counterexample); the
child ranges are the split of the ranges at the node's mid chunk, and
when the node is recursed into the left child is pushed above the right
descendant, so the left subtree is visited first. -/
theorem c4_pruned_traversal (tree : BaoTree) (tfs msl : Nat) (isR : Bool) :
    ∀ (stack : List (Nat × ChunkRangesRef)) (info : NodeInfo)
      (s' : PreOrderPartialIterRef),
    pNextAux tree tfs msl isR stack = .yield info s' →
    (info.query_leaf = (isLeaf info.node ||
        (info.full && decide (levelOf info.node ≤ msl)))) ∧
    info.full = rsFull info.ranges (toChunks (blockRangeStart info.node) tree.block_size) ∧
    (info.full = true → ∀ c, toChunks (blockRangeStart info.node) tree.block_size ≤ c →
        rsMem c info.ranges = true) ∧
    (info.l_ranges, info.r_ranges) =
      rsSplit (toChunks (midBlock info.node) tree.block_size) info.ranges ∧
    (info.query_leaf = false →
      ∃ l r rest, leftChild info.node = some l ∧ rightDescendant info.node tfs = some r ∧
        s'.stack = (l, info.l_ranges) :: (r, info.r_ranges) :: rest) := by
  intro stack
  induction stack with
  | nil =>
    intro info s' h
    exact absurd h (by simp [pNextAux])
  | cons head rest ih =>
    intro info s' h
    obtain ⟨node, ranges⟩ := head
    rw [pNextAux] at h
    by_cases hemp : rsIsEmpty ranges
    · rw [if_pos hemp] at h
      exact ih info s' h
    · rw [if_neg hemp] at h
      simp only at h
      by_cases hql : (isLeaf node ||
          (rsFull ranges (toChunks (blockRangeStart node) tree.block_size) &&
            decide (levelOf node ≤ msl))) = true
      · rw [if_pos hql] at h
        injection h with h1 h2
        subst h1
        refine ⟨rfl, rfl, ?_, rfl, ?_⟩
        · intro hfull c hc
          exact rsFull_mem hfull hc
        · intro hq
          simp only at hq
          rw [hq] at hql
          exact absurd hql (by simp)
      · rw [if_neg hql] at h
        match hlc : leftChild node, hrd : rightDescendant node tfs with
        | some l, some r =>
          rw [hlc, hrd] at h
          injection h with h1 h2
          subst h1
          subst h2
          refine ⟨rfl, rfl, ?_, rfl, ?_⟩
          · intro hfull c hc
            exact rsFull_mem hfull hc
          · intro hq
            exact ⟨l, r, rest, hlc, hrd, rfl⟩
        | some l, none => rw [hlc, hrd] at h; exact absurd h (by simp)
        | none, some r => rw [hlc, hrd] at h; exact absurd h (by simp)
        | none, none => rw [hlc, hrd] at h; exact absurd h (by simp)

/-- Witness for C4: instantiating the theorem at the root state of the
4096-byte tree (whose yielded node is the root, with `full = true`) gives
membership of chunk 7 in the open range `[0, ∞)`. -/
theorem c4_pruned_traversal_witness : rsMem 7 [0] = true :=
  (c4_pruned_traversal (BaoTree.new 4096 0) 3 0 true [(1, [0])]
    ⟨1, [0], [0], [0], true, false, true, false⟩
    ⟨BaoTree.new 4096 0, 3, 0, false, [(0, [0]), (2, [0])]⟩
    rfl).2.2.1 rfl 7 (by decide)

set_option maxRecDepth 4000 in
/-- Counterexample to C4 as stated: for the 4096-byte tree (block size 0)
and the bounded query `[0, 4)`, the root node 1 has level `1 ≤
max_skip_level = 1` and its whole chunk range `[0, 4)` is contained in
the query, yet it is emitted as a `Parent` and recursed into, because the
code's `full` test requires a single open range (`boundaries.len() == 1`)
and `[0, 4)` has two boundaries. -/
theorem c4_containment_insufficient :
    rsMem 0 [0, 4] = true ∧ rsMem 1 [0, 4] = true ∧
    rsMem 2 [0, 4] = true ∧ rsMem 3 [0, 4] = true ∧
    rootNode (BaoTree.new 4096 0) = 1 ∧ levelOf 1 = 1 ∧
    toChunks (blockRangeStart 1) 0 = 0 ∧ toChunks (blockRangeEnd 1) 0 = 4 ∧
    preOrderChunks (BaoTree.new 4096 0) [0, 4] 1 =
      [.parent 1 true true true [0, 4], .parent 0 false true true [0],
       .leaf 0 1024 false [0], .leaf 1 1024 false [0],
       .parent 2 false true true [0, 4], .leaf 2 1024 false [0],
       .leaf 3 1024 false [0, 4]] :=
  ⟨by decide, by decide, by decide, by decide, rfl, by decide, by decide, by decide, rfl⟩

/-! ## C7: the outboard builder postcondition -/

set_option maxHeartbeats 1000000 in
/-- The builder's postcondition, shared by the outboard-builder and the
round-trip developments: the final stack is exactly the reference root
hash, and the writer receives the post-order bytes plus the size
suffix. -/
theorem outboardPostOrder_spec (data : List Nat) (blockSize : Nat)
    (hbound : ceilLog2 (leafCount (BaoTree.new data.length blockSize)) ≤ 63) :
    ∃ w,
      outboardPostOrderImpl (BaoTree.new data.length blockSize) data =
        .ok (sHash (BaoTree.new data.length blockSize) data
              (rootNode (BaoTree.new data.length blockSize)) true,
          [sHash (BaoTree.new data.length blockSize) data
              (rootNode (BaoTree.new data.length blockSize)) true], w) ∧
      outboardPostOrder data data.length blockSize =
        .ok (sHash (BaoTree.new data.length blockSize) data
              (rootNode (BaoTree.new data.length blockSize)) true,
          w ++ (leBytes64 data.length).map Sym.dat) := by
  have hsc : (BaoTree.new data.length blockSize).start_chunk = 0 := rfl
  have hsz : data.length = (BaoTree.new data.length blockSize).size := rfl
  have h0 : startBlock (BaoTree.new data.length blockSize) = 0 := startBlock_new _ _
  have hlt := rootNode_lt_filledSize h0
  have hlev : levelOf (rootNode (BaoTree.new data.length blockSize)) =
      ceilLog2 (leafCount (BaoTree.new data.length blockSize)) := levelOf_rootNode h0
  obtain ⟨w, hw⟩ := build_run (BaoTree.new data.length blockSize) data hsc hsz
    (levelOf (rootNode (BaoTree.new data.length blockSize)))
    (rootNode (BaoTree.new data.length blockSize)) le_rfl hlt (by omega) le_rfl [] []
  have hstart : min (blockRangeStart (rootNode (BaoTree.new data.length blockSize)) *
      blockBytes (BaoTree.new data.length blockSize))
      (BaoTree.new data.length blockSize).size = 0 := by
    rw [rootNode_nodeAt h0, nodeAt_blockRangeStart]
    simp
  rw [hstart] at hw
  have hdec : decide (rootNode (BaoTree.new data.length blockSize) =
      rootNode (BaoTree.new data.length blockSize)) = true := by
    simp
  rw [hdec] at hw
  have himpl : outboardPostOrderImpl (BaoTree.new data.length blockSize) data =
      .ok (sHash (BaoTree.new data.length blockSize) data
            (rootNode (BaoTree.new data.length blockSize)) true,
        [sHash (BaoTree.new data.length blockSize) data
            (rootNode (BaoTree.new data.length blockSize)) true], w) := by
    rw [outboardPostOrderImpl, postOrderChunks, postOrderNodes_eq h0 hbound, hw]
    rfl
  refine ⟨w, himpl, ?_⟩
  rw [outboardPostOrder]
  simp only [himpl]

/-- C7: for every blob and block size (within the 64-bit index space of
the node arithmetic), processing all directives of the post-order chunk
iterator leaves the builder's hash stack with exactly one element — the
reference root hash, which `outboard_post_order_impl` returns — and
`outboard_post_order` then appends the 8-byte little-endian blob size to
the outboard bytes. -/
theorem c7_outboard_builder (data : List Nat) (blockSize : Nat)
    (hbound : ceilLog2 (leafCount (BaoTree.new data.length blockSize)) ≤ 63) :
    ∃ w,
      outboardPostOrderImpl (BaoTree.new data.length blockSize) data =
        .ok (sHash (BaoTree.new data.length blockSize) data
              (rootNode (BaoTree.new data.length blockSize)) true,
          [sHash (BaoTree.new data.length blockSize) data
              (rootNode (BaoTree.new data.length blockSize)) true], w) ∧
      outboardPostOrder data data.length blockSize =
        .ok (sHash (BaoTree.new data.length blockSize) data
              (rootNode (BaoTree.new data.length blockSize)) true,
          w ++ (leBytes64 data.length).map Sym.dat) :=
  outboardPostOrder_spec data blockSize hbound

set_option maxHeartbeats 1000000 in
/-- C1: the round trip.  For every blob and block size (within the
64-bit node index space), `outboard_post_order` returns a root hash,
`encode_ranges` of the full range against the reference outboard reports
no error, and decoding the resulting stream with `DecodeResponseIter`
under that root hash, block size and the full range yields only `Ok`
items whose leaves, written at their offsets from position 0,
reconstruct exactly the original blob. -/
theorem c1_roundtrip (data : List Nat) (blockSize : Nat)
    (hbound : ceilLog2 (leafCount (BaoTree.new data.length blockSize)) ≤ 63) :
    ∃ root w,
      outboardPostOrder data data.length blockSize = .ok (root, w) ∧
      (encodeRangesSync data (refOutboard data blockSize) [0]).2 = none ∧
      (∀ x ∈ decodeResponseItems root blockSize
          (encodeRangesSync data (refOutboard data blockSize) [0]).1 [0],
        ∃ it, x = Except.ok it) ∧
      joinLeaves 0 (leavesOfItems (decodeResponseItems root blockSize
          (encodeRangesSync data (refOutboard data blockSize) [0]).1 [0])) =
        some (data, data.length) := by
  obtain ⟨w0, himpl, hob⟩ := outboardPostOrder_spec data blockSize hbound
  refine ⟨sHash (BaoTree.new data.length blockSize) data
      (rootNode (BaoTree.new data.length blockSize)) true,
    w0 ++ (leBytes64 data.length).map Sym.dat, hob, ?_⟩
  have hsc : (BaoTree.new data.length blockSize).start_chunk = 0 := rfl
  have hszr : data.length = (BaoTree.new data.length blockSize).size := rfl
  have h0 : startBlock (BaoTree.new data.length blockSize) = 0 := startBlock_new _ _
  have hload : ∀ m, (refOutboard data blockSize).load m =
      .ok (refPair (BaoTree.new data.length blockSize) data m) := fun _ => rfl
  have hot : (refOutboard data blockSize).tree = BaoTree.new data.length blockSize := rfl
  have hpc : preOrderChunks (BaoTree.new data.length blockSize) [0] 0 =
      subDirs (BaoTree.new data.length blockSize)
        (rootNode (BaoTree.new data.length blockSize)) [0]
        (BaoTree.new data.length blockSize).is_root := by
    rw [preOrderChunks, preOrderNodes_eq h0, subDirs]
  rcases Nat.eq_zero_or_pos data.length with hlen0 | hlenB
  · -- empty blob: the stream is just the header and the decoder stops there
    have hdnil : data = [] := List.eq_nil_of_length_eq_zero hlen0
    subst hdnil
    simp only [List.length_nil] at hpc ⊢
    have hot0 : (refOutboard [] blockSize).tree = BaoTree.new 0 blockSize := rfl
    have hszA : (BaoTree.new 0 blockSize).size = 0 := rfl
    have hbbA : 1 ≤ blockBytes (BaoTree.new 0 blockSize) := by
      rw [blockBytes]
      have h2 : 1 ≤ 2 ^ (BaoTree.new 0 blockSize).block_size := Nat.one_le_two_pow
      omega
    have hblocksA : blocksOf (BaoTree.new 0 blockSize) = 1 := by
      rw [blocksOf, hszA]
      have hq : (0 + blockBytes (BaoTree.new 0 blockSize) - 1) /
          blockBytes (BaoTree.new 0 blockSize) = 0 :=
        Nat.div_eq_of_lt (by omega)
      rw [hq]
      simp
    have hlcA : leafCount (BaoTree.new 0 blockSize) = 1 := by
      rw [leafCount, hblocksA]
    have hrootA : rootNode (BaoTree.new 0 blockSize) = 0 := by
      rw [rootNode, startBlock_new, hlcA]
      decide
    have hlb3 : leafByteRanges3 (BaoTree.new 0 blockSize) 0 = (0, 0, 0) := by
      rw [leafByteRanges3, baseByte, hszA,
        show (BaoTree.new 0 blockSize).start_chunk = 0 from rfl]
      simp
    have hpersA : isPersisted (BaoTree.new 0 blockSize) 0 = false := by
      have hio : isPersisted (BaoTree.new 0 blockSize) 0 =
          (!(isLeaf 0) || decide
            ((leafByteRanges3 (BaoTree.new 0 blockSize) 0).2.1 <
             (leafByteRanges3 (BaoTree.new 0 blockSize) 0).2.2)) := rfl
      rw [hio, hlb3]
      decide
    have hlr1A : (rsSplit (toChunks (midBlock 0)
        (BaoTree.new 0 blockSize).block_size) [0]).1 = [0] := by
      rw [rsSplit_all (one_le_toChunks_mid _ 0)]
    have hinfoA := @preNodesR_query (BaoTree.new 0 blockSize)
      (filledSize (BaoTree.new 0 blockSize)) 0 0 [0] true (by decide)
      (by rw [show isLeaf 0 = true from rfl]; rfl)
    have hsubA : subDirs (BaoTree.new 0 blockSize) 0 [0] true =
        [.leaf 0 0 true [0]] := by
      rw [subDirs, hinfoA, List.flatMap_cons, List.flatMap_nil, List.append_nil]
      simp [chunkItemsOf, hpersA, hlr1A, hlb3, chunkNum, show isLeaf 0 = true from rfl,
        show rsIsEmpty [0] = false from rfl]
    have hEncA : encodeRangesSync [] (refOutboard [] blockSize) [0] = ([Sym.hdr 0], none) := by
      simp only [encodeRangesSync, hot0]
      rw [hpc, show (BaoTree.new 0 blockSize).is_root = true from rfl, hrootA, hsubA,
        encodeItems]
      rw [show readExactAt [] (0 * 1024) 0 = .ok [] from rfl]
      rw [hszA]
      rfl
    rw [hEncA]
    have hdecA : decodeResponseItems (sHash (BaoTree.new 0 blockSize)
        [] (rootNode (BaoTree.new 0 blockSize)) true)
        blockSize [Sym.hdr 0] [0] = [.ok (.header 0)] := by
      rw [decodeResponseItems, DecodeResponseIter.new]
      have htrA : truncateRanges [0] 0 = [] := by decide
      have hrcA : responseChunks (BaoTree.new 0 blockSize) [] = [] := by
        rw [responseChunks, preOrderChunks, preOrderNodes_eq (startBlock_new _ _),
          preNodesR_empty (show rsIsEmpty [] = true from rfl)]
        rfl
      have hfuelA : respFuel ⟨.header [0] blockSize,
          [sHash (BaoTree.new 0 blockSize) [] (rootNode (BaoTree.new 0 blockSize)) true],
          [Sym.hdr 0]⟩ = 2 := by
        simp only [respFuel, readLen]
        rw [htrA, hrcA]
        rfl
      rw [hfuelA, show (2 : Nat) = 1 + 1 from rfl, respRunAux_ok respStep_header]
      rw [show truncateRanges [0] (BaoTree.new 0 blockSize).size = [] from htrA, hrcA,
        respRunAux_end]
    refine ⟨rfl, ?_, ?_⟩
    · rw [hdecA]
      intro x hx
      simp only [List.mem_singleton] at hx
      exact ⟨_, hx⟩
    · rw [hdecA]
      rfl
  · -- non-empty blob: the invariant at the root gives the full reconstruction
    have hboundB : ∀ x ∈ ([0] : ChunkRangesRef),
        x < chunksCeil (BaoTree.new data.length blockSize).size := by
      intro x hx
      simp only [List.mem_singleton] at hx
      subst hx
      rw [← hszr, chunksCeil]
      omega
    obtain ⟨B, I, hE, hD, hOk, hJ, hL⟩ := decode_run (BaoTree.new data.length blockSize) data
      (refOutboard data blockSize) hsc hszr hload
      (levelOf (rootNode (BaoTree.new data.length blockSize)))
      (rootNode (BaoTree.new data.length blockSize)) le_rfl
      (rootNode_lt_filledSize h0) [0] (BaoTree.new data.length blockSize).is_root
      (by decide) (Or.inr rfl) hboundB
    have hEncB : encodeRangesSync data (refOutboard data blockSize) [0] =
        (Sym.hdr (BaoTree.new data.length blockSize).size :: (B ++ []), none) := by
      simp only [encodeRangesSync, hot]
      rw [hpc, show subDirs (BaoTree.new data.length blockSize)
          (rootNode (BaoTree.new data.length blockSize)) [0]
          (BaoTree.new data.length blockSize).is_root =
        subDirs (BaoTree.new data.length blockSize)
          (rootNode (BaoTree.new data.length blockSize)) [0]
          (BaoTree.new data.length blockSize).is_root ++ [] from (List.append_nil _).symm,
        hE []]
      rfl
    have hTeq : BaoTree.new (BaoTree.new data.length blockSize).size blockSize =
        BaoTree.new data.length blockSize := rfl
    have htrB : truncateRanges [0] (BaoTree.new data.length blockSize).size = [0] := by
      have h1 : 0 < chunksCeil (BaoTree.new data.length blockSize).size := by
        rw [← hszr, chunksCeil]
        omega
      rw [truncateRanges]
      simp [h1]
    have hitems : decodeResponseItems
        (sHash (BaoTree.new data.length blockSize) data
          (rootNode (BaoTree.new data.length blockSize)) true) blockSize
        (Sym.hdr (BaoTree.new data.length blockSize).size :: (B ++ [])) [0] =
        .ok (.header (BaoTree.new data.length blockSize).size) :: (I ++ []) := by
      rw [decodeResponseItems, DecodeResponseIter.new]
      have hfuelB : respFuel ⟨.header [0] blockSize,
          [sHash (BaoTree.new data.length blockSize) data
            (rootNode (BaoTree.new data.length blockSize)) true],
          Sym.hdr (BaoTree.new data.length blockSize).size :: (B ++ [])⟩ =
          ((subDirs (BaoTree.new data.length blockSize)
            (rootNode (BaoTree.new data.length blockSize)) [0]
            (BaoTree.new data.length blockSize).is_root).flatMap
              (responseItemsOf (BaoTree.new data.length blockSize))).length + 2 := by
        simp only [respFuel, readLen]
        rw [hTeq, htrB, responseChunks, hpc]
      rw [hfuelB]
      rw [show ((subDirs (BaoTree.new data.length blockSize)
          (rootNode (BaoTree.new data.length blockSize)) [0]
          (BaoTree.new data.length blockSize).is_root).flatMap
            (responseItemsOf (BaoTree.new data.length blockSize))).length + 2 =
        (((subDirs (BaoTree.new data.length blockSize)
          (rootNode (BaoTree.new data.length blockSize)) [0]
          (BaoTree.new data.length blockSize).is_root).flatMap
            (responseItemsOf (BaoTree.new data.length blockSize))).length + 1) + 1 from rfl]
      rw [respRunAux_ok respStep_header, hTeq, htrB, responseChunks, hpc]
      rw [show sHash (BaoTree.new data.length blockSize) data
          (rootNode (BaoTree.new data.length blockSize)) true =
        sHash (BaoTree.new data.length blockSize) data
          (rootNode (BaoTree.new data.length blockSize))
          (BaoTree.new data.length blockSize).is_root from rfl]
      nth_rewrite 2 [show (subDirs (BaoTree.new data.length blockSize)
          (rootNode (BaoTree.new data.length blockSize)) [0]
          (BaoTree.new data.length blockSize).is_root).flatMap
            (responseItemsOf (BaoTree.new data.length blockSize)) =
        (subDirs (BaoTree.new data.length blockSize)
          (rootNode (BaoTree.new data.length blockSize)) [0]
          (BaoTree.new data.length blockSize).is_root).flatMap
            (responseItemsOf (BaoTree.new data.length blockSize)) ++ []
        from (List.append_nil _).symm]
      rw [hD [] [] [] 1, respRunAux_end]
    rw [hEncB]
    refine ⟨rfl, ?_, ?_⟩
    · rw [hitems]
      intro x hx
      rcases List.mem_cons.mp hx with h | h
      · exact ⟨_, h⟩
      · rw [List.append_nil] at h
        exact hOk x h
    · rw [hitems]
      rw [show leavesOfItems (Except.ok (DecodeResponseItem.header
          (BaoTree.new data.length blockSize).size) :: (I ++ [])) =
        leavesOfItems (I ++ []) from rfl, List.append_nil]
      have hJ' := hJ rfl
      have hmin0 : min (blockRangeStart (rootNode (BaoTree.new data.length blockSize)) *
          blockBytes (BaoTree.new data.length blockSize))
          (BaoTree.new data.length blockSize).size = 0 := by
        rw [rootNode_nodeAt h0, nodeAt_blockRangeStart]
        simp
      have hbbB : 1 ≤ blockBytes (BaoTree.new data.length blockSize) := by
        rw [blockBytes]
        have h2 : 1 ≤ 2 ^ (BaoTree.new data.length blockSize).block_size :=
          Nat.one_le_two_pow
        omega
      have hblocksB : (BaoTree.new data.length blockSize).size ≤
          blocksOf (BaoTree.new data.length blockSize) *
            blockBytes (BaoTree.new data.length blockSize) := by
        rw [blocksOf]
        have hq : (BaoTree.new data.length blockSize).size ≤
            ((BaoTree.new data.length blockSize).size +
              blockBytes (BaoTree.new data.length blockSize) - 1) /
              blockBytes (BaoTree.new data.length blockSize) *
              blockBytes (BaoTree.new data.length blockSize) := by
          by_contra hcon
          push_neg at hcon
          have h6 : (BaoTree.new data.length blockSize).size +
              blockBytes (BaoTree.new data.length blockSize) - 1 <
              (((BaoTree.new data.length blockSize).size +
                blockBytes (BaoTree.new data.length blockSize) - 1) /
                blockBytes (BaoTree.new data.length blockSize) + 1) *
                blockBytes (BaoTree.new data.length blockSize) := by
            rw [← Nat.div_lt_iff_lt_mul (by omega)]
            omega
          have h7 : (((BaoTree.new data.length blockSize).size +
              blockBytes (BaoTree.new data.length blockSize) - 1) /
              blockBytes (BaoTree.new data.length blockSize) + 1) *
              blockBytes (BaoTree.new data.length blockSize) =
              ((BaoTree.new data.length blockSize).size +
                blockBytes (BaoTree.new data.length blockSize) - 1) /
                blockBytes (BaoTree.new data.length blockSize) *
                blockBytes (BaoTree.new data.length blockSize) +
                blockBytes (BaoTree.new data.length blockSize) := by
            ring
          omega
        have h4 : max (((BaoTree.new data.length blockSize).size +
            blockBytes (BaoTree.new data.length blockSize) - 1) /
            blockBytes (BaoTree.new data.length blockSize)) 1 *
            blockBytes (BaoTree.new data.length blockSize) ≥
            ((BaoTree.new data.length blockSize).size +
              blockBytes (BaoTree.new data.length blockSize) - 1) /
              blockBytes (BaoTree.new data.length blockSize) *
              blockBytes (BaoTree.new data.length blockSize) :=
          Nat.mul_le_mul (le_max_left _ _) (Nat.le_refl _)
        omega
      have hminE : min (blockRangeEnd (rootNode (BaoTree.new data.length blockSize)) *
          blockBytes (BaoTree.new data.length blockSize))
          (BaoTree.new data.length blockSize).size =
          (BaoTree.new data.length blockSize).size := by
        have hlc2 : leafCount (BaoTree.new data.length blockSize) ≤
            2 ^ ceilLog2 (leafCount (BaoTree.new data.length blockSize)) := by
          rw [ceilLog2_eq_clog]
          exact Nat.le_pow_clog (by norm_num) _
        have hblk2 : blocksOf (BaoTree.new data.length blockSize) ≤
            2 * leafCount (BaoTree.new data.length blockSize) := by
          rw [leafCount, blocksOf]
          omega
        have hbre : blockRangeEnd (rootNode (BaoTree.new data.length blockSize)) =
            2 ^ (ceilLog2 (leafCount (BaoTree.new data.length blockSize)) + 1) := by
          rw [rootNode_nodeAt h0, nodeAt_blockRangeEnd]
          omega
        have hp2 : 2 * leafCount (BaoTree.new data.length blockSize) ≤
            2 ^ (ceilLog2 (leafCount (BaoTree.new data.length blockSize)) + 1) := by
          rw [Nat.pow_succ]
          omega
        have hle : (BaoTree.new data.length blockSize).size ≤
            blockRangeEnd (rootNode (BaoTree.new data.length blockSize)) *
              blockBytes (BaoTree.new data.length blockSize) := by
          have h5 : blocksOf (BaoTree.new data.length blockSize) *
              blockBytes (BaoTree.new data.length blockSize) ≤
              blockRangeEnd (rootNode (BaoTree.new data.length blockSize)) *
                blockBytes (BaoTree.new data.length blockSize) :=
            Nat.mul_le_mul (by rw [hbre]; omega) (Nat.le_refl _)
          omega
        omega
      rw [hmin0, hminE] at hJ'
      rw [hJ', ← hszr]
      simp [slice]

/-- Witness for C1 at a one-byte blob with block size 0. -/
theorem c1_roundtrip_witness :
    ceilLog2 (leafCount (BaoTree.new ([7] : List Nat).length 0)) ≤ 63 ∧
    ∃ root w,
      outboardPostOrder [7] ([7] : List Nat).length 0 = .ok (root, w) ∧
      (encodeRangesSync [7] (refOutboard [7] 0) [0]).2 = none ∧
      (∀ x ∈ decodeResponseItems root 0
          (encodeRangesSync [7] (refOutboard [7] 0) [0]).1 [0],
        ∃ it, x = Except.ok it) ∧
      joinLeaves 0 (leavesOfItems (decodeResponseItems root 0
          (encodeRangesSync [7] (refOutboard [7] 0) [0]).1 [0])) =
        some ([7], ([7] : List Nat).length) :=
  ⟨by decide, c1_roundtrip [7] 0 (by decide)⟩

/-- Witness for C7 at a one-byte blob with block size 0. -/
theorem c7_outboard_builder_witness :
    ∃ w,
      outboardPostOrderImpl (BaoTree.new 1 0) [7] =
        .ok (sHash (BaoTree.new 1 0) [7] (rootNode (BaoTree.new 1 0)) true,
          [sHash (BaoTree.new 1 0) [7] (rootNode (BaoTree.new 1 0)) true], w) ∧
      outboardPostOrder [7] 1 0 =
        .ok (sHash (BaoTree.new 1 0) [7] (rootNode (BaoTree.new 1 0)) true,
          w ++ (leBytes64 1).map Sym.dat) :=
  c7_outboard_builder [7] 0 (by decide)

end Bao
